import Mathlib

/-! Verification development for the C++ extension modules.

Shallow embedding of `cpp_extensions/blockchain_cpp.cpp` and `cpp_extensions/utxo_cpp.cpp`.

* A `std::string` is a list of characters, one element per `char`.
* `sha256` and the other digests come from OpenSSL and are taken as parameters.
* The text form of a `double` (`operator<<` and `operator>>` of the stream library) is taken
  as a parameter, see `AmountText`.
* `std::unordered_map` is an association list with distinct keys; its iteration order is the
  order of the list and a new key is placed at the end.
* Loops are functions with fuel; `none` is returned when the fuel runs out, and the theorems
  show that the fuel supplied by the callers is enough.
* A `size_t` is a natural number, and a sum computed in `size_t` is reduced modulo `2^64`.
  A call that an exception of the library leaves, or whose behaviour is not defined,
  returns `none`.
-/

namespace Spec2Proof

/-! ## Merkle accumulator (blockchain_cpp.cpp) -/

/-- A C++ `std::string`, one list element per `char`. -/
abbrev Str := List Char

/-- The `for (size_t i = 0; i < tree.size(); i += 2)` loop of `calculate_merkle_root`:
`i` is the loop index, `new_level` the vector being filled by `push_back`.
`none` only when the fuel runs out. -/
def merkle_for (sha256 : Str → Str) (tree : List Str) : Nat → Nat → List Str → Option (List Str)
  | 0, _, _ => none
  | fuel + 1, i, new_level =>
    if i < tree.length then
      let left := tree.getD i []
      let right := if i + 1 < tree.length then tree.getD (i + 1) [] else left
      let combined := left ++ right
      merkle_for sha256 tree fuel (i + 2) (new_level ++ [sha256 combined])
    else some new_level

/-- The `while (tree.size() > 1)` loop of `calculate_merkle_root`. -/
def merkle_while (sha256 : Str → Str) : Nat → List Str → Option (List Str)
  | 0, _ => none
  | fuel + 1, tree =>
    if tree.length > 1 then
      match merkle_for sha256 tree (tree.length + 1) 0 [] with
      | some new_level => merkle_while sha256 fuel new_level
      | none => none
    else some tree

/-- `calculate_merkle_root` (blockchain_cpp.cpp:189-210), with `sha256` a parameter. -/
def calculate_merkle_root (sha256 : Str → Str) (tx_ids : List Str) : Option Str :=
  if tx_ids.isEmpty then some (List.replicate 64 '0')
  else
    match merkle_while sha256 (tx_ids.length + 1) tx_ids with
    | some tree => tree[0]?
    | none => none

/-- The level construction as the specification words it: adjacent elements are paired left
to right, a final unpaired element is paired with itself, each pair is replaced by the
digest of the concatenation. -/
def merkle_level_spec (sha256 : Str → Str) : List Str → List Str
  | [] => []
  | [l] => [sha256 (l ++ l)]
  | l :: r :: rest => sha256 (l ++ r) :: merkle_level_spec sha256 rest

/-! ## UTXO ledger (utxo_cpp.cpp) -/

/-- The text form of a `double` as the stream library produces and reads it. `put` is
`ss << amount`; `get` is the numeric part of `ss >> amount`, applied after leading white
space has been skipped: it yields the value read and the characters left, or nothing when
no number can be read. -/
structure AmountText (A : Type) where
  put : A → Str
  get : Str → Option (A × Str)

/-- A text form for amounts that are natural numbers below one million, whose default
`double` text is the plain decimal digits: `get` reads the longest run of decimal digits. -/
def natAmountText : AmountText Nat where
  put := fun n => Nat.toDigits 10 n
  get := fun s =>
    let ds := s.takeWhile Char.isDigit
    if ds.isEmpty then none
    else some (ds.foldl (fun acc c => 10 * acc + (c.toNat - 48)) 0, s.dropWhile Char.isDigit)

/-- Modelled from the spec: the Python class `utils.TransactionOutput`, which
`create_output_from_serialized` constructs and `serialize_output` reads, is the record of
recipient, amount and script; it is the same record as the C++ `struct TransactionOutput`
(utxo_cpp.cpp:25-30). -/
structure TransactionOutput (A : Type) where
  recipient : Str
  amount : A
  script : Str
deriving DecidableEq, Repr

/-- A `py::object` held in a slot: `none` is `py::none()`, `some o` a transaction output. -/
abbrev PyObject (A : Type) := Option (TransactionOutput A)

/-- `TransactionOutput::serialize` (utxo_cpp.cpp:32-37). -/
def TransactionOutput.serialize {A : Type} (codec : AmountText A) (o : TransactionOutput A) : Str :=
  o.recipient ++ "|".toList ++ codec.put o.amount ++ "|".toList ++ o.script

/-- The state of a `std::stringstream` that is being read: the characters not yet
extracted and the two state bits the code depends on. -/
structure IStringStream where
  buf : Str
  eofbit : Bool
  failbit : Bool
deriving DecidableEq, Repr

/-- `std::getline(ss, str, delim)`: when the stream is not good only `failbit` is set;
otherwise characters are extracted up to the delimiter, which is extracted and dropped, or
up to the end, which sets `eofbit`; extracting nothing at all sets `failbit`. -/
def getline (ss : IStringStream) (delim : Char) : IStringStream × Str :=
  if ss.eofbit || ss.failbit then ({ ss with failbit := true }, [])
  else
    let str := ss.buf.takeWhile (fun c => c != delim)
    match ss.buf.dropWhile (fun c => c != delim) with
    | [] => ({ buf := [], eofbit := true, failbit := ss.buf.isEmpty }, str)
    | _ :: rest => ({ buf := rest, eofbit := false, failbit := false }, str)

/-- `std::isspace` in the default locale. -/
def isspace (c : Char) : Bool :=
  c == ' ' || c == '\t' || c == '\n' || c == '\x0b' || c == '\x0c' || c == '\r'

/-- `ss >> amount`: when the stream is not good only `failbit` is set; leading white space
is skipped, and reaching the end there sets `eofbit` and `failbit`; then the number is read,
`failbit` is set when there is none, and `eofbit` when the number runs to the end of the
buffer. After a failure the caller does not look at the stream again, so the buffer is left
as it was. -/
def extract_amount {A : Type} (codec : AmountText A) (ss : IStringStream) :
    IStringStream × Option A :=
  if ss.eofbit || ss.failbit then ({ ss with failbit := true }, none)
  else
    match ss.buf.dropWhile isspace with
    | [] => ({ buf := [], eofbit := true, failbit := true }, none)
    | c :: cs =>
      match codec.get (c :: cs) with
      | none => ({ ss with failbit := true }, none)
      | some (amount, rest) => ({ buf := rest, eofbit := rest.isEmpty, failbit := false }, some amount)

/-- `ss.ignore()`: when the stream is not good only `failbit` is set; otherwise one
character is extracted and dropped, and `eofbit` is set when there is none. -/
def ignore (ss : IStringStream) : IStringStream :=
  if ss.eofbit || ss.failbit then { ss with failbit := true }
  else
    match ss.buf with
    | [] => { ss with eofbit := true }
    | _ :: rest => { ss with buf := rest }

/-- `TransactionOutput::deserialize` (utxo_cpp.cpp:40-60). -/
def TransactionOutput.deserialize {A : Type} (codec : AmountText A) (data : Str) :
    Option (TransactionOutput A) :=
  let ss : IStringStream := { buf := data, eofbit := false, failbit := false }
  let (ss, recipient) := getline ss '|'
  if ss.failbit then none
  else
    let (ss, amount) := extract_amount codec ss
    if ss.failbit then none
    else
      let ss := ignore ss
      let (ss, script) := getline ss '\n'
      if ss.failbit then none
      else amount.map (fun a => { recipient := recipient, amount := a, script := script })

/-- `unordered_map::find`: the mapped value, `none` for `end()`. -/
def map_find {V : Type} : List (Str × V) → Str → Option V
  | [], _ => none
  | (k, v) :: m, key => if k = key then some v else map_find m key

/-- `m[key]`: the map after the call, which has a value-initialised element inserted when
the key was absent, and the element referred to. -/
def map_subscript {V : Type} (m : List (Str × V)) (key : Str) (dflt : V) : List (Str × V) × V :=
  match map_find m key with
  | some v => (m, v)
  | none => (m ++ [(key, dflt)], dflt)

/-- Assignment through the reference that `m[key]` gave. -/
def map_store {V : Type} (m : List (Str × V)) (key : Str) (v : V) : List (Str × V) :=
  m.map (fun e => if e.1 = key then (e.1, v) else e)

/-- `vector::resize(n, fill)`. -/
def vector_resize {V : Type} (v : List V) (n : Nat) (fill : V) : List V :=
  v.take n ++ List.replicate (n - v.length) fill

/-- The vector that `add_utxo` leaves, when it returns, for a transaction whose vector was
`v`: grown to `output_index + 1` slots when it was shorter, then written at
`output_index`. -/
def slot_write {V : Type} (v : List (Option V)) (output_index : Nat) (output : Option V) :
    List (Option V) :=
  (if v.length ≤ output_index then vector_resize v (output_index + 1) none else v).set
    output_index output

/-- The class `UTXOSetCpp` (utxo_cpp.cpp:64-69): the two private members. -/
structure UTXOSetCpp (A : Type) where
  utxos : List (Str × List (PyObject A))
  used_nonces : List (Str × List Nat)
deriving DecidableEq

/-- The constructor `UTXOSetCpp()`. -/
def UTXOSetCpp.new (A : Type) : UTXOSetCpp A := { utxos := [], used_nonces := [] }

/-- The content of the slot of a key in the map: `none` for an unknown transaction, an index
out of range, or a slot that holds `py::none()`. -/
def slot_at {A : Type} (utxos : List (Str × List (PyObject A))) (tx_id : Str)
    (output_index : Nat) : PyObject A :=
  match map_find utxos tx_id with
  | none => none
  | some v => (v.get? output_index).join

/-- `UTXOSetCpp::create_output_from_serialized` (utxo_cpp.cpp:71-82). -/
def create_output_from_serialized {A : Type} (codec : AmountText A) (serialized_data : Str) :
    PyObject A :=
  match TransactionOutput.deserialize codec serialized_data with
  | none => none
  | some output => some { recipient := output.recipient, amount := output.amount,
                          script := output.script }

/-- `UTXOSetCpp::serialize_output` (utxo_cpp.cpp:84-99). -/
def serialize_output {A : Type} (codec : AmountText A) (output : PyObject A) : Str :=
  match output with
  | none => []
  | some o =>
    let tx_output : TransactionOutput A :=
      { recipient := o.recipient, amount := o.amount, script := o.script }
    tx_output.serialize codec

/-- `UTXOSetCpp::add_utxo` (utxo_cpp.cpp:104-119): the state after the call and the value
returned, or `none` when the call does not return. The index is a `size_t`, so
`output_index + 1` is computed modulo `2^64` and is 0 at `2^64 - 1`. `max_size` is the
greatest number of slots that `resize` can give the vector: for more, `resize` throws
(`std::length_error` above `vector::max_size()`, `std::bad_alloc` when the memory is not
there), and the exception leaves `add_utxo`. The write `utxos[tx_id][output_index]` at an
index that is not below the size of the vector has no defined behaviour. -/
def add_utxo {A : Type} (max_size : Nat) (s : UTXOSetCpp A) (tx_id : Str) (output_index : Nat)
    (output : PyObject A) : Option (UTXOSetCpp A × Bool) :=
  let utxos :=
    if (map_find s.utxos tx_id).isNone then
      map_store (map_subscript s.utxos tx_id []).1 tx_id []
    else s.utxos
  let (utxos, v) := map_subscript utxos tx_id []
  let resized : Option (List (Str × List (PyObject A))) :=
    if v.length ≤ output_index then
      let (utxos, v) := map_subscript utxos tx_id []
      let n := (output_index + 1) % 2 ^ 64
      if n ≤ max_size then some (map_store utxos tx_id (vector_resize v n none)) else none
    else some utxos
  match resized with
  | none => none
  | some utxos =>
    let (utxos, v) := map_subscript utxos tx_id []
    if output_index < v.length then
      some ({ s with utxos := map_store utxos tx_id (v.set output_index output) }, true)
    else none

/-- The ledger that `add_utxo` leaves when it returns: the vector of the transaction, an
empty one when the transaction is new, is replaced by `slot_write` of it. -/
def add_utxo_state {A : Type} (s : UTXOSetCpp A) (tx_id : Str) (output_index : Nat)
    (output : PyObject A) : UTXOSetCpp A :=
  { s with utxos :=
      match map_find s.utxos tx_id with
      | some v => map_store s.utxos tx_id (slot_write v output_index output)
      | none => s.utxos ++ [(tx_id, slot_write [] output_index output)] }

/-- `UTXOSetCpp::get_utxo` (utxo_cpp.cpp:121-128): the state after the call and the value
returned. -/
def get_utxo {A : Type} (s : UTXOSetCpp A) (tx_id : Str) (output_index : Nat) :
    UTXOSetCpp A × PyObject A :=
  if (map_find s.utxos tx_id).isNone then (s, none)
  else
    let (utxos, v) := map_subscript s.utxos tx_id []
    if v.length ≤ output_index then ({ s with utxos := utxos }, none)
    else
      let (utxos, v) := map_subscript utxos tx_id []
      ({ s with utxos := utxos }, (v.get? output_index).join)

/-- `UTXOSetCpp::spend_utxo` (utxo_cpp.cpp:130-139): the state after the call and the value
returned. -/
def spend_utxo {A : Type} (s : UTXOSetCpp A) (tx_id : Str) (output_index : Nat) :
    UTXOSetCpp A × Bool :=
  if (map_find s.utxos tx_id).isNone then (s, false)
  else
    let (utxos, v) := map_subscript s.utxos tx_id []
    if v.length ≤ output_index then ({ s with utxos := utxos }, false)
    else
      let (utxos, v) := map_subscript utxos tx_id []
      ({ s with utxos := map_store utxos tx_id (v.set output_index none) }, true)

/-- `unordered_set::insert`: nothing is done when the element is in the set. -/
def set_insert (set : List Nat) (n : Nat) : List Nat :=
  if n ∈ set then set else set ++ [n]

/-- `UTXOSetCpp::is_nonce_used` (utxo_cpp.cpp:141-145): the state after the call and the
value returned; `used_nonces[address]` is evaluated only when `find` has found the
address. -/
def is_nonce_used {A : Type} (s : UTXOSetCpp A) (address : Str) (nonce : Nat) :
    UTXOSetCpp A × Bool :=
  if (map_find s.used_nonces address).isNone then (s, false)
  else
    let (used_nonces, set) := map_subscript s.used_nonces address []
    ({ s with used_nonces := used_nonces }, decide (nonce ∈ set))

/-- `UTXOSetCpp::add_nonce` (utxo_cpp.cpp:147-150). -/
def add_nonce {A : Type} (s : UTXOSetCpp A) (address : Str) (nonce : Nat) : UTXOSetCpp A :=
  let (used_nonces, set) := map_subscript s.used_nonces address []
  { s with used_nonces := map_store used_nonces address (set_insert set nonce) }

/-- The inner loop of `utxo_count`, over one vector of outputs. -/
def count_outputs {A : Type} : List (PyObject A) → Nat
  | [] => 0
  | output :: rest => (if output.isSome then 1 else 0) + count_outputs rest

/-- `UTXOSetCpp::utxo_count` (utxo_cpp.cpp:152-166). -/
def utxo_count {A : Type} (s : UTXOSetCpp A) : Nat :=
  (s.utxos.map (fun entry => count_outputs entry.2)).sum

/-- The inner loop of `serialize_utxo_set`, over the vector of one transaction, `i` the
index of the first element of the list. -/
def serialize_outputs {A : Type} (codec : AmountText A) (tx_id : Str) :
    Nat → List (PyObject A) → List (Str × Nat × Str)
  | _, [] => []
  | i, output :: rest =>
    (if output.isSome then
      let serialized_output := serialize_output codec output
      if !serialized_output.isEmpty then [(tx_id, i, serialized_output)] else []
     else []) ++ serialize_outputs codec tx_id (i + 1) rest

/-- `UTXOSetCpp::serialize_utxo_set` (utxo_cpp.cpp:193-215). -/
def serialize_utxo_set {A : Type} (codec : AmountText A) (s : UTXOSetCpp A) :
    List (Str × Nat × Str) :=
  s.utxos.flatMap (fun entry => serialize_outputs codec entry.1 0 entry.2)

/-- The loop of `deserialize_utxo_set` over the entries; an entry is a tuple of a
transaction id, an index and a serialized output (an item for which one of the casts fails
is not part of the model). The handler of the loop is for `py::error_already_set` only:
when `add_utxo` does not return, neither does `deserialize_utxo_set`. -/
def deserialize_entries {A : Type} (max_size : Nat) (codec : AmountText A) :
    UTXOSetCpp A → List (Str × Nat × Str) → Option (UTXOSetCpp A)
  | s, [] => some s
  | s, (tx_id, output_index, serialized_output) :: rest =>
    let output := create_output_from_serialized codec serialized_output
    if output.isSome then
      match add_utxo max_size s tx_id output_index output with
      | some (s, _) => deserialize_entries max_size codec s rest
      | none => none
    else deserialize_entries max_size codec s rest

/-- `UTXOSetCpp::deserialize_utxo_set` (utxo_cpp.cpp:218-249): the state after the call, or
`none` when the call does not return. -/
def deserialize_utxo_set {A : Type} (max_size : Nat) (codec : AmountText A) (s : UTXOSetCpp A)
    (serialized_data : List (Str × Nat × Str)) : Option (UTXOSetCpp A) :=
  deserialize_entries max_size codec { s with utxos := [] } serialized_data

/-- The ledger that the loop of `deserialize_utxo_set` leaves when every call of `add_utxo`
in it returns. -/
def restore_entries {A : Type} (codec : AmountText A) :
    UTXOSetCpp A → List (Str × Nat × Str) → UTXOSetCpp A
  | s, [] => s
  | s, (tx_id, output_index, serialized_output) :: rest =>
    let output := create_output_from_serialized codec serialized_output
    if output.isSome then
      restore_entries codec (add_utxo_state s tx_id output_index output) rest
    else restore_entries codec s rest

/-- The local variables of `get_serialized_utxo_batch`. -/
structure BatchState where
  batch : List (Str × Nat × Str)
  current : Nat
  count : Nat

/-- The inner loop of `get_serialized_utxo_batch` over the vector of one transaction:
`Except.error batch` is the early `return batch`, `Except.ok` the state in which the loop
ends. -/
def batch_outputs {A : Type} (codec : AmountText A) (offset limit : Nat) (tx_id : Str) :
    Nat → List (PyObject A) → BatchState → Except (List (Str × Nat × Str)) BatchState
  | _, [], st => .ok st
  | i, output :: rest, st =>
    if output.isSome then
      if st.current ≥ offset then
        let serialized_output := serialize_output codec output
        let batch := st.batch ++ [(tx_id, i, serialized_output)]
        let count := st.count + 1
        if count ≥ limit then .error batch
        else batch_outputs codec offset limit tx_id (i + 1) rest
          { batch := batch, current := st.current + 1, count := count }
      else batch_outputs codec offset limit tx_id (i + 1) rest
        { st with current := st.current + 1 }
    else batch_outputs codec offset limit tx_id (i + 1) rest st

/-- The outer loop of `get_serialized_utxo_batch` over the entries of the map. -/
def batch_entries {A : Type} (codec : AmountText A) (offset limit : Nat) :
    List (Str × List (PyObject A)) → BatchState → List (Str × Nat × Str)
  | [], st => st.batch
  | (tx_id, outputs) :: m, st =>
    match batch_outputs codec offset limit tx_id 0 outputs st with
    | .error batch => batch
    | .ok st => batch_entries codec offset limit m st

/-- `UTXOSetCpp::get_serialized_utxo_batch` (utxo_cpp.cpp:345-374). -/
def get_serialized_utxo_batch {A : Type} (codec : AmountText A) (s : UTXOSetCpp A)
    (offset limit : Nat) : List (Str × Nat × Str) :=
  batch_entries codec offset limit s.utxos { batch := [], current := 0, count := 0 }

/-- The unspent outputs of one transaction with their indices, `i` the index of the first
element of the list. -/
def unspent_outputs {A : Type} (tx_id : Str) :
    Nat → List (PyObject A) → List (Str × Nat × TransactionOutput A)
  | _, [] => []
  | i, none :: rest => unspent_outputs tx_id (i + 1) rest
  | i, some o :: rest => (tx_id, i, o) :: unspent_outputs tx_id (i + 1) rest

/-- The unspent (transaction id, index, output) tuples of a ledger, in scan order. -/
def unspent_tuples {A : Type} (s : UTXOSetCpp A) : List (Str × Nat × TransactionOutput A) :=
  s.utxos.flatMap (fun entry => unspent_outputs entry.1 0 entry.2)

/-- The keys of an `unordered_map` are distinct. -/
def KeysDistinct {V : Type} (m : List (Str × V)) : Prop := (m.map Prod.fst).Nodup

/-- The ledger that the loop of `deserialize_utxo_set` leaves when every record reads back
and every call of `add_utxo` returns: the outputs are added one after the other. -/
def add_all {A : Type} :
    UTXOSetCpp A → List (Str × Nat × TransactionOutput A) → UTXOSetCpp A
  | s, [] => s
  | s, (tx_id, output_index, o) :: rest =>
    add_all (add_utxo_state s tx_id output_index (some o)) rest

/-- The ledgers built from the empty ledger by calls of `add_utxo` that return, of outputs
that satisfy `valid`, and by `spend_utxo`. -/
inductive Built {A : Type} (max_size : Nat) (valid : TransactionOutput A → Prop) :
    UTXOSetCpp A → Prop
  | new : Built max_size valid (UTXOSetCpp.new A)
  | add (s s1 : UTXOSetCpp A) (tx_id : Str) (output_index : Nat) (o : TransactionOutput A)
      (b : Bool) :
      Built max_size valid s → valid o →
      add_utxo max_size s tx_id output_index (some o) = some (s1, b) → Built max_size valid s1
  | spend (s : UTXOSetCpp A) (tx_id : Str) (output_index : Nat) :
      Built max_size valid s → Built max_size valid (spend_utxo s tx_id output_index).1

/-- Every vector of the ledger has a size that is a `size_t` value within the limit of
`resize`. -/
def SizesWithin {A : Type} (max_size : Nat) (s : UTXOSetCpp A) : Prop :=
  ∀ t v, map_find s.utxos t = some v → v.length < 2 ^ 64 ∧ v.length ≤ max_size

/-- An amount whose text reads back as the same amount, the reading stopping at the
delimiter that follows it. -/
def AmountExact {A : Type} (codec : AmountText A) (a : A) : Prop :=
  (codec.put a).dropWhile isspace = codec.put a ∧
  ∀ rest : Str, codec.get (codec.put a ++ '|' :: rest) = some (a, '|' :: rest)

/-- The outputs for which the round trip is claimed: any recipient, any script, an exact
amount. -/
def ClaimedValid {A : Type} (codec : AmountText A) (o : TransactionOutput A) : Prop :=
  AmountExact codec o.amount

/-- The outputs whose record reads back: no delimiter in the recipient, a script that is
not empty and has no line break, and an exact amount. -/
def RecordValid {A : Type} (codec : AmountText A) (o : TransactionOutput A) : Prop :=
  '|' ∉ o.recipient ∧ o.script ≠ [] ∧ '\n' ∉ o.script ∧ AmountExact codec o.amount

/-- The record format as the specification words it, `recipient '|' amount '|' script`:
the text before the first `|` is the recipient, the text between the first and the second
`|` is the amount and has to be a number in full, the text after the second `|` is the
script; a record with fewer than two `|` has a missing field. -/
def record_format_spec {A : Type} (codec : AmountText A) (data : Str) :
    Option (TransactionOutput A) :=
  let recipient := data.takeWhile (fun c => c != '|')
  match data.dropWhile (fun c => c != '|') with
  | [] => none
  | _ :: rest =>
    let amount_text := rest.takeWhile (fun c => c != '|')
    match rest.dropWhile (fun c => c != '|') with
    | [] => none
    | _ :: script =>
      match codec.get amount_text with
      | some (amount, []) => some { recipient := recipient, amount := amount, script := script }
      | _ => none

/-- The character that `ss.ignore()` drops in `TransactionOutput::deserialize`, when the
reader gets that far: the character that follows the number read after the first `|`. -/
def ignored_char {A : Type} (codec : AmountText A) (data : Str) : Option Char :=
  match data.dropWhile (fun c => c != '|') with
  | [] => none
  | _ :: rest =>
    match rest.dropWhile isspace with
    | [] => none
    | c :: cs =>
      match codec.get (c :: cs) with
      | some (_, d :: _) => some d
      | _ => none

/-- The record format `recipient '|' amount '|' script` as amended: the text before the
first `|` is the recipient; after that `|` comes the amount, a number that may have white
space before it; the number is followed by `|`; the text after this second `|` is not empty,
and the script is that text up to its first line break. -/
def record_format_amended {A : Type} (codec : AmountText A) (data : Str) :
    Option (TransactionOutput A) :=
  let recipient := data.takeWhile (fun c => c != '|')
  match data.dropWhile (fun c => c != '|') with
  | [] => none
  | _ :: rest =>
    match rest.dropWhile isspace with
    | [] => none
    | c :: cs =>
      match codec.get (c :: cs) with
      | some (amount, '|' :: text) =>
        if text.isEmpty then none
        else some { recipient := recipient, amount := amount,
                    script := text.takeWhile (fun c => c != '\n') }
      | _ => none

/-- The output that the loop of `deserialize_utxo_set` leaves in the slot of the key
`(tx_id, output_index)`, from the content `slot` that the slot had: the output read from the
last entry of that key whose record is read. -/
def last_read {A : Type} (codec : AmountText A) (tx_id : Str) (output_index : Nat)
    (slot : PyObject A) (entries : List (Str × Nat × Str)) : PyObject A :=
  entries.foldl (fun acc e =>
    if e.1 = tx_id ∧ e.2.1 = output_index then
      match TransactionOutput.deserialize codec e.2.2 with
      | some o => some o
      | none => acc
    else acc) slot

/-- A value of the limit of `resize` for the examples: `vector::max_size()` for elements
of 8 bytes where `size_t` has 64 bits and `ptrdiff_t` bounds the size. -/
def max_size_sample : Nat := 2 ^ 60 - 1

/-- The ledger that holds the output `(r, 5, s)` at the key `(t, 0)` and nothing else. -/
def ledger_one_output : UTXOSetCpp Nat :=
  { utxos := [("t".toList, [some ⟨"r".toList, 5, "s".toList⟩])], used_nonces := [] }

/-- The ledger after `add_utxo(t, 0, (alice, 5, sig))`, `add_utxo(t, 2, (bob, 70, x))` and
`spend_utxo(t, 0)` on the empty ledger (theorem `ledger_sample_calls`), used to instantiate
the theorems. -/
def ledger_sample : UTXOSetCpp Nat :=
  { utxos := [("t".toList, [none, none, some ⟨"bob".toList, 70, "x".toList⟩])],
    used_nonces := [] }

/-- A ledger that holds one output whose recipient contains the delimiter. -/
def ledger_recipient_bar : UTXOSetCpp Nat :=
  { utxos := [("t".toList, [some ⟨"a|b".toList, 5, "s".toList⟩])], used_nonces := [] }

/-- A ledger that holds one output whose script is empty. -/
def ledger_empty_script : UTXOSetCpp Nat :=
  { utxos := [("t".toList, [some ⟨"r".toList, 5, []⟩])], used_nonces := [] }

/-! ## Hex codec, Base58 and address derivation (blockchain_cpp.cpp)

A byte vector is a list of natural numbers below 256. A function of the model returns
`none` when the call does not return a value: the fuel of a loop ran out, or a buffer was
indexed out of bounds. -/

/-- The value of a hexadecimal digit, as `strtol` reads it in base 16. -/
def hex_digit (c : Char) : Option Nat :=
  if '0' ≤ c ∧ c ≤ '9' then some (c.toNat - 48)
  else if 'a' ≤ c ∧ c ≤ 'f' then some (c.toNat - 87)
  else if 'A' ≤ c ∧ c ≤ 'F' then some (c.toNat - 55)
  else none

/-- The digit loop of `strtol`: the value of the longest run of hexadecimal digits at the
head of the string, from the value accumulated so far. -/
def strtol_digits : Nat → Str → Nat
  | acc, [] => acc
  | acc, c :: rest =>
    match hex_digit c with
    | some d => strtol_digits (acc * 16 + d) rest
    | none => acc

/-- `std::strtol(s, nullptr, 16)` for the strings of at most two characters that
`hex_to_bytes` passes (so the value cannot overflow a `long`): leading white space is
skipped, a sign and a `0x` or `0X` that a digit follows are accepted, then the longest run of
hexadecimal digits is read; the value is 0 when there is no digit. -/
def strtol (s : Str) : Int :=
  let s := s.dropWhile isspace
  let (negative, s) :=
    match s with
    | '-' :: rest => (true, rest)
    | '+' :: rest => (false, rest)
    | _ => (false, s)
  let s :=
    match s with
    | '0' :: x :: d :: rest =>
      if (x = 'x' ∨ x = 'X') ∧ (hex_digit d).isSome then d :: rest else s
    | _ => s
  let value : Int := (strtol_digits 0 s : Nat)
  if negative then -value else value

/-- The loop of `hex_to_bytes` (blockchain_cpp.cpp:35-40): `i` is the loop index, `bytes`
the vector being filled. -/
def hex_to_bytes_loop (hex : Str) : Nat → Nat → List Nat → Option (List Nat)
  | 0, _, _ => none
  | fuel + 1, i, bytes =>
    if i < hex.length then
      let byteString := (hex.drop i).take 2
      let byte := ((strtol byteString) % 256).toNat
      hex_to_bytes_loop hex fuel (i + 2) (bytes ++ [byte])
    else some bytes

/-- `hex_to_bytes` (blockchain_cpp.cpp:32-42). No statement of the function throws. -/
def hex_to_bytes (hex : Str) : Option (List Nat) :=
  hex_to_bytes_loop hex (hex.length + 1) 0 []

/-- The byte that `hex_to_bytes` stores for one chunk of the string. -/
def chunk_byte (byteString : Str) : Nat := ((strtol byteString) % 256).toNat

/-- The bytes of the successive chunks of two characters of a string, the last chunk being
of one character when the length is odd. -/
def hex_chunks : Str → List Nat
  | [] => []
  | [a] => [chunk_byte [a]]
  | a :: b :: rest => chunk_byte [a, b] :: hex_chunks rest

/-- A string of hexadecimal digits of even length. -/
def valid_hex (hex : Str) : Bool :=
  hex.length % 2 == 0 && hex.all (fun c => (hex_digit c).isSome)

/-- `double_sha256` (blockchain_cpp.cpp:61-65). -/
def double_sha256 (sha256_bytes : List Nat → List Nat) (input : List Nat) : List Nat :=
  let first_hash := sha256_bytes input
  sha256_bytes first_hash

/-- `BASE58_CHARS` (blockchain_cpp.cpp:17). -/
def BASE58_CHARS : Str := "123456789ABCDEFGHJKLMNPQRSTUVWXYZabcdefghijkmnopqrstuvwxyz".toList

/-- The two scanning loops of `base58_encode`,
`while (n < size && v[n] == 0) n++` (blockchain_cpp.cpp:104-107 and 132-135). -/
def count_zero_run (v : List Nat) (size : Nat) : Nat → Nat → Option Nat
  | 0, _ => none
  | fuel + 1, n =>
    if n < size then
      match v[n]? with
      | some x => if x = 0 then count_zero_run v size fuel (n + 1) else some n
      | none => none
    else some n

/-- The inner loop of the conversion (blockchain_cpp.cpp:118-126), `k = result_size`: the
buffer and `j` when the loop ends; `none` when `result[j]` is out of the bounds of the
buffer. -/
def base58_carry_loop (result_size : Nat) : Nat → List Nat → Nat → Nat → Option (List Nat × Nat)
  | 0, _, _, _ => none
  | fuel + 1, result, carry, j =>
    if j < result_size ∨ carry ≠ 0 then
      match result[j]? with
      | some r =>
        let carry := if j < result_size then carry + 256 * r else carry
        base58_carry_loop result_size fuel (result.set j (carry % 58)) (carry / 58) (j + 1)
      | none => none
    else some (result, j)

/-- The outer loop of the conversion (blockchain_cpp.cpp:114-128): the buffer and
`result_size` when the loop ends. -/
def base58_convert (input : List Nat) : Nat → Nat → List Nat → Nat → Option (List Nat × Nat)
  | 0, _, _, _ => none
  | fuel + 1, i, result, result_size =>
    if i < input.length then
      match input[i]? with
      | some byte =>
        match base58_carry_loop result_size (result.length + 1) result byte 0 with
        | some (result, j) => base58_convert input fuel (i + 1) result j
        | none => none
      | none => none
    else some (result, result_size)

/-- The loop that builds the string (blockchain_cpp.cpp:145-148). -/
def base58_append (result : List Nat) (result_size leading_zeros : Nat) :
    Nat → Nat → Str → Option Str
  | 0, _, _ => none
  | fuel + 1, i, encoded =>
    if i < result_size then
      match result[result_size - 1 - i + leading_zeros]? with
      | some digit =>
        match BASE58_CHARS[digit]? with
        | some c => base58_append result result_size leading_zeros fuel (i + 1) (encoded ++ [c])
        | none => none
      | none => none
    else some encoded

/-- `base58_encode` (blockchain_cpp.cpp:100-151). -/
def base58_encode (input : List Nat) : Option Str :=
  match count_zero_run input input.length (input.length + 1) 0 with
  | none => none
  | some zeros =>
    let result := List.replicate ((input.length - zeros) * 138 / 100 + 1) 0
    match base58_convert input (input.length + 1) zeros result 0 with
    | none => none
    | some (result, result_size) =>
      match count_zero_run result result_size (result_size + 1) 0 with
      | none => none
      | some leading_zeros =>
        let encoded := List.replicate zeros '1'
        base58_append result result_size leading_zeros (result_size + 1) leading_zeros encoded

/-- `base58check_encode` (blockchain_cpp.cpp:154-170); `checksum.resize(4)` keeps the first
four bytes of the digest. -/
def base58check_encode (sha256_bytes : List Nat → List Nat) (payload : List Nat)
    (version : Nat) : Option Str :=
  let extended_payload := [version] ++ payload
  let checksum := vector_resize (double_sha256 sha256_bytes extended_payload) 4 0
  let extended_payload := extended_payload ++ checksum
  base58_encode extended_payload

/-- `public_key_to_address` (blockchain_cpp.cpp:173-186). -/
def public_key_to_address (sha256_bytes ripemd160_bytes : List Nat → List Nat)
    (public_key : Str) (version : Nat) : Option Str :=
  match hex_to_bytes public_key with
  | none => none
  | some public_key_bytes =>
    let sha256_hash := sha256_bytes public_key_bytes
    let ripemd_hash := ripemd160_bytes sha256_hash
    base58check_encode sha256_bytes ripemd_hash version

/-- The natural number that a byte sequence denotes in big-endian base 256. -/
def be_value (b : List Nat) : Nat := b.foldl (fun acc x => acc * 256 + x) 0

/-- The digits of `n` in base `base`, least significant first, none for 0; the fuel bounds
the number of digits. -/
def digits_le (base : Nat) : Nat → Nat → List Nat
  | 0, _ => []
  | fuel + 1, n => if n = 0 then [] else n % base :: digits_le base fuel (n / base)

/-- The complete big-endian base-58 digit expansion of `n`: most significant digit first,
no digit left out, none for 0. -/
def base58_digits (n : Nat) : List Nat := (digits_le 58 n n).reverse

/-- The number of leading zero bytes of a byte sequence. -/
def leading_zero_bytes : List Nat → Nat
  | 0 :: rest => leading_zero_bytes rest + 1
  | _ => 0

/-- Base58 as the specification words it: one character 1 for each leading zero byte, then
the alphabet characters of the complete digit expansion of the number the bytes denote. -/
def base58_encode_spec (b : List Nat) : Str :=
  List.replicate (leading_zero_bytes b) '1'
    ++ (base58_digits (be_value b)).map (fun d => BASE58_CHARS.getD d '1')

/-- The position of a character in the Base58 alphabet. -/
def base58_index (c : Char) : Option Nat :=
  let i := BASE58_CHARS.indexOf c
  if i < BASE58_CHARS.length then some i else none

/-- The value of a string of Base58 characters read as a big-endian number in base 58;
`none` when a character is not of the alphabet. -/
def base58_value : Nat → Str → Option Nat
  | acc, [] => some acc
  | acc, c :: rest =>
    match base58_index c with
    | some d => base58_value (acc * 58 + d) rest
    | none => none

/-- A reference Base58 decoder (the repository has none): one zero byte for each leading
character 1, then the big-endian bytes of the number that the other characters denote. -/
def base58_decode_reference (s : Str) : Option (List Nat) :=
  let ones := s.takeWhile (fun c => c == '1')
  match base58_value 0 (s.dropWhile (fun c => c == '1')) with
  | none => none
  | some n => some (List.replicate ones.length 0 ++ (digits_le 256 n n).reverse)

/-- The value of a list of base-58 digits, least significant first. -/
def le_value : List Nat → Nat
  | [] => 0
  | d :: ds => d + 58 * le_value ds

/-- One pass of the conversion on the digits held so far, least significant first: every
digit `d` becomes the low digit of `carry + 256 * d`, the rest is carried on, and the last
carry is written out as new digits. -/
def base58_pass : List Nat → Nat → List Nat
  | [], carry => digits_le 58 carry carry
  | d :: ds, carry => (carry + 256 * d) % 58 :: base58_pass ds ((carry + 256 * d) / 58)

/-- The most significant digit of a list of digits, least significant first, is not zero. -/
def TopNonzero (ds : List Nat) : Prop := ∀ h : ds ≠ [], ds.getLast h ≠ 0

/-- The digits after the passes for the bytes of a list, from the digits held before. -/
def base58_passes (digits : List Nat) (bytes : List Nat) : List Nat :=
  bytes.foldl base58_pass digits

/-- Base58 as the code computes it: one character 1 for each leading zero byte, then the
characters of the digit expansion of the number without its low-order zero digits. -/
def base58_encode_low_zeros_dropped (b : List Nat) : Str :=
  List.replicate (leading_zero_bytes b) '1'
    ++ (((digits_le 58 (be_value b) (be_value b)).dropWhile (fun d => d == 0)).reverse).map
        (fun d => BASE58_CHARS.getD d '1')

/-- The character of a hexadecimal digit as the stream writes it under `std::hex`. -/
def hex_char (d : Nat) : Char := "0123456789abcdef".toList.getD d '0'

/-- The text of a non-negative `int` under `std::hex`: its hexadecimal digits, the most
significant first, `0` for zero. -/
def int_to_hex (n : Nat) : Str :=
  if n = 0 then ['0'] else ((digits_le 16 n n).reverse).map hex_char

/-- Output under `std::setw(w)` and `std::setfill(fill)`: the text is padded on the left
to the width `w`. -/
def setw_fill (w : Nat) (fill : Char) (text : Str) : Str :=
  List.replicate (w - text.length) fill ++ text

/-- `bytes_to_hex` (blockchain_cpp.cpp:20-29): the loop over the bytes appends to the
stream the text of each byte, cast to `int`, in hexadecimal, of width 2 and filled
with `0`. -/
def bytes_to_hex : List Nat → Str
  | [] => []
  | byte :: rest => setw_fill 2 '0' (int_to_hex byte) ++ bytes_to_hex rest

/-! ## Proof-of-work search (blockchain_cpp.cpp:213-275)

The threads of `mine_block` are modelled as an interleaving of atomic steps, one step for
each access to the shared variables. A schedule is the list of the indices of the workers
that take the successive steps. -/

/-- Conversion of an `int` to `unsigned int`. -/
def to_unsigned (x : Int) : Nat := (x % 4294967296).toNat

/-- Conversion of an `unsigned int` to `int`. -/
def to_int (u : Nat) : Int :=
  if u % 4294967296 < 2147483648 then (u % 4294967296 : Nat) else (u % 4294967296 : Nat) - 4294967296

/-- `std::to_string` of an `int`. -/
def to_string (n : Int) : Str :=
  if n < 0 then '-' :: Nat.toDigits 10 n.natAbs else Nat.toDigits 10 n.toNat

/-- The arguments of `mine_block`, the digest function and the number of hardware threads. -/
structure MineConfig where
  sha256 : Str → Str
  block_string_base : Str
  difficulty : Nat
  max_nonce : Int
  num_threads : Nat

/-- `int chunk_size = max_nonce / num_threads`, a division of `unsigned int`. -/
def chunk_size (cfg : MineConfig) : Int :=
  to_int (to_unsigned cfg.max_nonce / cfg.num_threads)

/-- `int start_nonce = i * chunk_size`, a product of `unsigned int`. -/
def start_nonce (cfg : MineConfig) (i : Nat) : Int :=
  to_int ((i * to_unsigned (chunk_size cfg)) % 4294967296)

/-- `int end_nonce = (i == num_threads - 1) ? max_nonce : (i + 1) * chunk_size`. -/
def end_nonce (cfg : MineConfig) (i : Nat) : Int :=
  to_int (if i = cfg.num_threads - 1 then to_unsigned cfg.max_nonce
          else ((i + 1) * to_unsigned (chunk_size cfg)) % 4294967296)

/-- The hash that a worker computes for a nonce: `sha256(block_string_base +
std::to_string(nonce))`. -/
def nonce_hash (cfg : MineConfig) (nonce : Int) : Str :=
  cfg.sha256 (cfg.block_string_base ++ to_string nonce)

/-- `hash.compare(0, difficulty, target) == 0` with `target` the string of `difficulty`
characters 0: the hash starts with `difficulty` characters 0. -/
def meets_target (cfg : MineConfig) (hash : Str) : Bool :=
  hash.take cfg.difficulty == List.replicate cfg.difficulty '0'

/-- The place of a worker in the body of its thread (blockchain_cpp.cpp:237-259). -/
inductive Pc
  | loop_test
  | loop_body
  | lock
  | check_found
  | set_found
  | set_nonce
  | set_hash
  | unlock
  | flush
  | epilogue
  | done
deriving DecidableEq, Repr

/-- The local variables of a worker. -/
structure Worker where
  pc : Pc
  nonce : Int
  end_nonce : Int
  hash : Str
  local_hashes : Int

/-- The shared variables of `mine_block` and the workers; `result_mutex` is the index of the
worker that holds the mutex. -/
structure MineState where
  workers : Nat → Worker
  found_solution : Bool
  result_nonce : Int
  result_hash : Str
  total_hashes : Int
  result_mutex : Option Nat

/-- The state when the threads have been created. -/
def mine_init (cfg : MineConfig) : MineState where
  workers := fun i =>
    { pc := Pc.loop_test, nonce := start_nonce cfg i, end_nonce := end_nonce cfg i, hash := [],
      local_hashes := 0 }
  found_solution := false
  result_nonce := 0
  result_hash := []
  total_hashes := 0
  result_mutex := none

/-- The state in which worker `i` has the local variables `w`. -/
def set_worker (st : MineState) (i : Nat) (w : Worker) : MineState :=
  { st with workers := fun j => if j = i then w else st.workers j }

/-- One atomic step of worker `i`; `none` when the worker cannot take a step: it does not
exist, it has ended, or it waits for the mutex that another worker holds. -/
def worker_step (cfg : MineConfig) (i : Nat) (st : MineState) : Option MineState :=
  if i < cfg.num_threads then
    let w := st.workers i
    match w.pc with
    | Pc.loop_test =>
      if w.nonce < w.end_nonce ∧ st.found_solution = false then
        some (set_worker st i { w with pc := Pc.loop_body })
      else some (set_worker st i { w with pc := Pc.epilogue })
    | Pc.loop_body =>
      let hash := nonce_hash cfg w.nonce
      let w := { w with hash := hash, local_hashes := w.local_hashes + 1 }
      if meets_target cfg hash then some (set_worker st i { w with pc := Pc.lock })
      else some (set_worker st i { w with pc := Pc.flush })
    | Pc.lock =>
      match st.result_mutex with
      | none => some (set_worker { st with result_mutex := some i } i
          { w with pc := Pc.check_found })
      | some _ => none
    | Pc.check_found =>
      if st.found_solution = false then some (set_worker st i { w with pc := Pc.set_found })
      else some (set_worker st i { w with pc := Pc.unlock })
    | Pc.set_found =>
      some (set_worker { st with found_solution := true } i { w with pc := Pc.set_nonce })
    | Pc.set_nonce =>
      some (set_worker { st with result_nonce := w.nonce } i { w with pc := Pc.set_hash })
    | Pc.set_hash =>
      some (set_worker { st with result_hash := w.hash } i { w with pc := Pc.unlock })
    | Pc.unlock =>
      some (set_worker { st with result_mutex := none } i { w with pc := Pc.epilogue })
    | Pc.flush =>
      if w.local_hashes % 10000 = 0 then
        some (set_worker { st with total_hashes := st.total_hashes + w.local_hashes } i
          { w with pc := Pc.loop_test, nonce := w.nonce + 1, local_hashes := 0 })
      else some (set_worker st i { w with pc := Pc.loop_test, nonce := w.nonce + 1 })
    | Pc.epilogue =>
      some (set_worker { st with total_hashes := st.total_hashes + w.local_hashes } i
        { w with pc := Pc.done })
    | Pc.done => none
  else none

/-- The state after the steps of a schedule; `none` when the schedule asks a step of a
worker that cannot take one. -/
def run_schedule (cfg : MineConfig) : List Nat → MineState → Option MineState
  | [], st => some st
  | i :: rest, st =>
    match worker_step cfg i st with
    | some st => run_schedule cfg rest st
    | none => none

/-- Every thread has ended: the `join` loop of `mine_block` is over. -/
def all_done (cfg : MineConfig) (st : MineState) : Prop :=
  ∀ i, i < cfg.num_threads → (st.workers i).pc = Pc.done

/-- What `mine_block` returns after the threads have been joined
(blockchain_cpp.cpp:267-274). -/
def mine_result (st : MineState) : Int × Str × Int :=
  if st.found_solution then (st.result_nonce, st.result_hash, st.total_hashes)
  else (-1, [], st.total_hashes)

/-- The number of steps that a worker can still take, at most. -/
def worker_rank (w : Worker) : Nat :=
  match w.pc with
  | Pc.loop_test => 3 * (w.end_nonce - w.nonce).toNat + 10
  | Pc.loop_body => 3 * (w.end_nonce - w.nonce - 1).toNat + 12
  | Pc.flush => 3 * (w.end_nonce - w.nonce - 1).toNat + 11
  | Pc.lock => 8
  | Pc.check_found => 7
  | Pc.set_found => 6
  | Pc.set_nonce => 5
  | Pc.set_hash => 4
  | Pc.unlock => 3
  | Pc.epilogue => 1
  | Pc.done => 0

/-- The number of steps that the workers can still take together, at most. -/
def mine_rank (cfg : MineConfig) (st : MineState) : Nat :=
  ((List.range cfg.num_threads).map (fun i => worker_rank (st.workers i))).sum

/-- The hash of the nonce meets the target. -/
def accepts (cfg : MineConfig) (n : Int) : Prop :=
  meets_target cfg (nonce_hash cfg n) = true

/-- The result variables hold a nonce of `[0, max_nonce)`, its hash, and the hash meets the
target. -/
def ResultOK (cfg : MineConfig) (result_nonce : Int) (result_hash : Str) : Prop :=
  0 ≤ result_nonce ∧ result_nonce < cfg.max_nonce
    ∧ result_hash = nonce_hash cfg result_nonce ∧ accepts cfg result_nonce

/-- The places at which a worker holds the mutex. -/
def in_critical (pc : Pc) : Prop :=
  pc = Pc.check_found ∨ pc = Pc.set_found ∨ pc = Pc.set_nonce ∨ pc = Pc.set_hash
    ∨ pc = Pc.unlock

/-- A worker that has found a nonce of its range whose hash meets the target. -/
def Winner (cfg : MineConfig) (w : Worker) : Prop :=
  w.nonce < w.end_nonce ∧ w.hash = nonce_hash cfg w.nonce ∧ accepts cfg w.nonce

/-- What holds of worker `i` at each place of its thread. -/
def PcInv (cfg : MineConfig) (i : Nat) (w : Worker) (found_solution : Bool)
    (result_nonce : Int) (result_mutex : Option Nat) : Prop :=
  match w.pc with
  | Pc.loop_test => True
  | Pc.loop_body => w.nonce < w.end_nonce
  | Pc.flush => w.nonce < w.end_nonce ∧ ¬ accepts cfg w.nonce
  | Pc.lock => Winner cfg w
  | Pc.check_found => Winner cfg w ∧ result_mutex = some i
  | Pc.set_found => Winner cfg w ∧ result_mutex = some i ∧ found_solution = false
  | Pc.set_nonce => Winner cfg w ∧ result_mutex = some i ∧ found_solution = true
  | Pc.set_hash =>
    Winner cfg w ∧ result_mutex = some i ∧ found_solution = true ∧ result_nonce = w.nonce
  | Pc.unlock => result_mutex = some i ∧ found_solution = true
  | Pc.epilogue => found_solution = true ∨ w.end_nonce ≤ w.nonce
  | Pc.done => found_solution = true ∨ w.end_nonce ≤ w.nonce

/-- What holds of worker `i` throughout: its range is the one it was given, and no nonce
of the range below its current nonce meets the target. -/
def WorkerInv (cfg : MineConfig) (i : Nat) (w : Worker) (found_solution : Bool)
    (result_nonce : Int) (result_mutex : Option Nat) : Prop :=
  w.end_nonce = end_nonce cfg i ∧ start_nonce cfg i ≤ w.nonce
    ∧ (∀ n, start_nonce cfg i ≤ n → n < w.nonce → ¬ accepts cfg n)
    ∧ PcInv cfg i w found_solution result_nonce result_mutex

/-- The invariant of the search, on the components of the state: every worker satisfies
its invariant, the holder of the mutex is a worker in the critical section, and once
`found_solution` is set the result variables are right, or the holder of the mutex is
about to write them. -/
def InvParts (cfg : MineConfig) (workers : Nat → Worker) (found_solution : Bool)
    (result_nonce : Int) (result_hash : Str) (result_mutex : Option Nat) : Prop :=
  (∀ j, j < cfg.num_threads →
      WorkerInv cfg j (workers j) found_solution result_nonce result_mutex)
    ∧ (∀ j, result_mutex = some j → j < cfg.num_threads ∧ in_critical (workers j).pc)
    ∧ (found_solution = true → ResultOK cfg result_nonce result_hash
        ∨ ∃ j, result_mutex = some j
            ∧ ((workers j).pc = Pc.set_nonce ∨ (workers j).pc = Pc.set_hash))

/-- The invariant of the search. -/
def MineInv (cfg : MineConfig) (st : MineState) : Prop :=
  InvParts cfg st.workers st.found_solution st.result_nonce st.result_hash st.result_mutex

/-- A toy digest for the instances: the string itself, reversed. -/
def toy_sha256 (s : Str) : Str := s.reverse

/-- A search with the toy digest: the hash of the nonce 10 is `01x`, the first of the
range of four nonces of the last of three workers. -/
def mine_sample : MineConfig where
  sha256 := toy_sha256
  block_string_base := "x".toList
  difficulty := 1
  max_nonce := 12
  num_threads := 3

/-- A schedule for `mine_sample`: the last worker runs to its end, then the two others. -/
def mine_sample_schedule : List Nat :=
  [2, 2, 2, 2, 2, 2, 2, 2, 2, 2, 2, 2, 2, 2, 2, 0, 0, 1, 1]

/-- The state in which `mine_sample_schedule` ends. -/
def mine_sample_final : MineState :=
  (run_schedule mine_sample mine_sample_schedule (mine_init mine_sample)).getD
    (mine_init mine_sample)

/-- A search with a negative `max_nonce` on two workers: the range `[0, max_nonce)` is
empty, and with difficulty 0 every hash meets the target. -/
def mine_negative : MineConfig where
  sha256 := toy_sha256
  block_string_base := "x".toList
  difficulty := 0
  max_nonce := -1
  num_threads := 2

/-- A schedule for `mine_negative`: the first worker runs to its end, then the second. -/
def mine_negative_schedule : List Nat := [0, 0, 0, 0, 0, 0, 0, 0, 0, 1, 1]

/-- The state in which `mine_negative_schedule` ends. -/
def mine_negative_final : MineState :=
  (run_schedule mine_negative mine_negative_schedule (mine_init mine_negative)).getD
    (mine_init mine_negative)

/-- A search in which no nonce of the range meets the target: the hashes of the toy digest
for the nonces below 12 are the reversed decimal digits followed by `x`, and none starts
with `00`. -/
def mine_none : MineConfig where
  sha256 := toy_sha256
  block_string_base := "x".toList
  difficulty := 2
  max_nonce := 12
  num_threads := 3

/-- A schedule for `mine_none`: each worker in turn scans its four nonces and ends. -/
def mine_none_schedule : List Nat :=
  List.replicate 14 0 ++ List.replicate 14 1 ++ List.replicate 14 2

/-- The state in which `mine_none_schedule` ends. -/
def mine_none_final : MineState :=
  (run_schedule mine_none mine_none_schedule (mine_init mine_none)).getD (mine_init mine_none)

/-! ## Merkle accumulator: proofs -/

theorem merkle_level_spec_length (sha256 : Str → Str) :
    ∀ (n : Nat) (xs : List Str), xs.length ≤ n →
      (merkle_level_spec sha256 xs).length = (xs.length + 1) / 2 := by
  intro n
  induction n with
  | zero =>
    intro xs h
    have : xs = [] := List.length_eq_zero.mp (Nat.le_zero.mp h)
    subst this; rfl
  | succ n ih =>
    intro xs h
    match xs, h with
    | [], _ => simp [merkle_level_spec]
    | [_], _ => simp [merkle_level_spec]
    | l :: r :: rest, h =>
      simp only [merkle_level_spec, List.length_cons]
      rw [ih rest (by simp only [List.length_cons] at h; omega)]
      omega

theorem merkle_for_eq (sha256 : Str → Str) (tree : List Str) :
    ∀ (fuel i : Nat) (acc : List Str), i ≤ tree.length → tree.length + 2 ≤ i + 2 * fuel →
      merkle_for sha256 tree fuel i acc
        = some (acc ++ merkle_level_spec sha256 (tree.drop i)) := by
  intro fuel
  induction fuel with
  | zero => intro i acc h1 h2; omega
  | succ fuel ih =>
    intro i acc h1 h2
    unfold merkle_for
    by_cases hi : i < tree.length
    · simp only [hi, if_true]
      by_cases hi1 : i + 1 < tree.length
      · simp only [hi1, if_true]
        rw [ih (i + 2) _ (by omega) (by omega)]
        have hd : tree.drop i = tree.getD i [] :: tree.getD (i + 1) [] :: tree.drop (i + 2) := by
          rw [List.drop_eq_getElem_cons hi, List.drop_eq_getElem_cons hi1]
          simp [List.getD_eq_getElem?_getD, List.getElem?_eq_getElem hi, List.getElem?_eq_getElem hi1]
        rw [hd]
        simp [merkle_level_spec]
      · simp only [hi1, if_false]
        have hlen : tree.length = i + 1 := by omega
        by_cases hf : fuel = 0
        · omega
        · obtain ⟨f, rfl⟩ := Nat.exists_eq_succ_of_ne_zero hf
          unfold merkle_for
          have : ¬ (i + 2 < tree.length) := by omega
          simp only [this, if_false]
          have hd : tree.drop i = [tree.getD i []] := by
            rw [List.drop_eq_getElem_cons hi]
            have : tree.drop (i + 1) = [] := List.drop_eq_nil_of_le (by omega)
            rw [this]
            simp [List.getD_eq_getElem?_getD, List.getElem?_eq_getElem hi]
          rw [hd]
          simp [merkle_level_spec]
    · simp only [hi, if_false]
      have : tree.drop i = [] := List.drop_eq_nil_of_le (by omega)
      rw [this]; simp [merkle_level_spec]

theorem merkle_new_level (sha256 : Str → Str) (tree : List Str) :
    merkle_for sha256 tree (tree.length + 1) 0 [] = some (merkle_level_spec sha256 tree) := by
  rw [merkle_for_eq sha256 tree _ 0 [] (by omega) (by omega)]
  simp

theorem merkle_while_succ (sha256 : Str → Str) (fuel : Nat) (tree : List Str)
    (h : 2 ≤ tree.length) :
    merkle_while sha256 (fuel + 1) tree = merkle_while sha256 fuel (merkle_level_spec sha256 tree) := by
  rw [merkle_while]
  have : tree.length > 1 := by omega
  simp only [this, if_true, merkle_new_level]

/-- With fuel above the length of the level, the `while` loop ends with a single element,
and the result does not depend on the fuel. -/
theorem merkle_while_fuel (sha256 : Str → Str) :
    ∀ (n : Nat) (tree : List Str) (f1 f2 : Nat), tree.length ≤ n → 1 ≤ tree.length →
      tree.length ≤ f1 → tree.length ≤ f2 →
      merkle_while sha256 f1 tree = merkle_while sha256 f2 tree ∧
      ∃ r, merkle_while sha256 f1 tree = some [r] := by
  intro n
  induction n with
  | zero => intro tree f1 f2 h0 h1; omega
  | succ n ih =>
    intro tree f1 f2 hn h1 hf1 hf2
    obtain ⟨g1, rfl⟩ := Nat.exists_eq_succ_of_ne_zero (by omega : f1 ≠ 0)
    obtain ⟨g2, rfl⟩ := Nat.exists_eq_succ_of_ne_zero (by omega : f2 ≠ 0)
    by_cases h2 : 2 ≤ tree.length
    · rw [merkle_while_succ sha256 g1 tree h2, merkle_while_succ sha256 g2 tree h2]
      have hl := merkle_level_spec_length sha256 tree.length tree (le_refl _)
      exact ih (merkle_level_spec sha256 tree) g1 g2 (by omega) (by omega) (by omega) (by omega)
    · have hlen : tree.length = 1 := by omega
      obtain ⟨r, rfl⟩ := List.length_eq_one.mp hlen
      refine ⟨by simp [merkle_while], r, by simp [merkle_while]⟩

theorem calculate_merkle_root_of_ne_nil (sha256 : Str → Str) (xs : List Str) (h : 1 ≤ xs.length) :
    ∃ r, merkle_while sha256 (xs.length + 1) xs = some [r] ∧
      calculate_merkle_root sha256 xs = some r := by
  obtain ⟨_, r, hr⟩ := merkle_while_fuel sha256 xs.length xs (xs.length + 1) (xs.length + 1)
    (le_refl _) h (by omega) (by omega)
  refine ⟨r, hr, ?_⟩
  have hne : xs.isEmpty = false := by
    cases xs with
    | nil => simp at h
    | cons _ _ => rfl
  simp [calculate_merkle_root, hne, hr]

/-- C8: for a list of at least two ids, the root is the root of the next level (adjacent
pairs hashed, a last unpaired element paired with itself), the call returns a value, and
the two- and three-element roots are the stated hashes. -/
theorem calculate_merkle_root_level (sha256 : Str → Str) (xs : List Str) (h : 2 ≤ xs.length) :
    calculate_merkle_root sha256 xs
        = calculate_merkle_root sha256 (merkle_level_spec sha256 xs)
      ∧ (∃ r, calculate_merkle_root sha256 xs = some r)
      ∧ (∀ a b : Str, calculate_merkle_root sha256 [a, b] = some (sha256 (a ++ b)))
      ∧ (∀ a b c : Str, calculate_merkle_root sha256 [a, b, c]
            = some (sha256 (sha256 (a ++ b) ++ sha256 (c ++ c)))) := by
  have hl := merkle_level_spec_length sha256 xs.length xs (le_refl _)
  have hl1 : 1 ≤ (merkle_level_spec sha256 xs).length := by omega
  obtain ⟨r, hr, hroot⟩ := calculate_merkle_root_of_ne_nil sha256 xs (by omega)
  obtain ⟨r', hr', hroot'⟩ := calculate_merkle_root_of_ne_nil sha256 _ hl1
  refine ⟨?_, ⟨r, hroot⟩, ?_, ?_⟩
  · rw [hroot, hroot']
    rw [merkle_while_succ sha256 _ xs h] at hr
    have := (merkle_while_fuel sha256 _ (merkle_level_spec sha256 xs) xs.length
      ((merkle_level_spec sha256 xs).length + 1) (le_refl _) hl1 (by omega) (by omega)).1
    rw [this, hr'] at hr
    simp only [Option.some.injEq, List.cons.injEq, and_true] at hr
    rw [hr]
  · intro a b
    simp [calculate_merkle_root, merkle_while, merkle_for]
  · intro a b c
    simp [calculate_merkle_root, merkle_while, merkle_for]

theorem calculate_merkle_root_level_witness :
    2 ≤ ["ab".toList, "cd".toList, "ef".toList].length ∧
    calculate_merkle_root (fun s => s.reverse) ["ab".toList, "cd".toList, "ef".toList]
      = calculate_merkle_root (fun s => s.reverse)
          (merkle_level_spec (fun s => s.reverse) ["ab".toList, "cd".toList, "ef".toList]) :=
  ⟨by decide, (calculate_merkle_root_level (fun s => s.reverse)
    ["ab".toList, "cd".toList, "ef".toList] (by decide)).1⟩

/-- C9: the root of a one-element list is that element itself, not a hash of it. -/
theorem calculate_merkle_root_single (sha256 : Str → Str) (x : Str) :
    calculate_merkle_root sha256 [x] = some x := by
  simp [calculate_merkle_root, merkle_while]

/-- C10: the root of the empty list is the string of 64 characters 0, whatever the hash
function is (none is applied). -/
theorem calculate_merkle_root_empty (sha256 : Str → Str) :
    calculate_merkle_root sha256 [] = some (List.replicate 64 '0')
      ∧ (List.replicate 64 '0').length = 64
      ∧ ∀ c ∈ List.replicate 64 '0', c = '0' := by
  refine ⟨rfl, by simp, ?_⟩
  intro c hc
  exact (List.mem_replicate.mp hc).2

/-! ## Merkle accumulator: duplicate of the last element -/

theorem calculate_merkle_root_next_level (sha256 : Str → Str) (xs : List Str)
    (h : 2 ≤ xs.length) :
    calculate_merkle_root sha256 xs
      = calculate_merkle_root sha256 (merkle_level_spec sha256 xs) := by
  have hl := merkle_level_spec_length sha256 xs.length xs (le_refl _)
  have hl1 : 1 ≤ (merkle_level_spec sha256 xs).length := by omega
  obtain ⟨r, hr, hroot⟩ := calculate_merkle_root_of_ne_nil sha256 xs (by omega)
  obtain ⟨r', hr', hroot'⟩ := calculate_merkle_root_of_ne_nil sha256 _ hl1
  rw [hroot, hroot']
  rw [merkle_while_succ sha256 _ xs h] at hr
  have := (merkle_while_fuel sha256 _ (merkle_level_spec sha256 xs) xs.length
    ((merkle_level_spec sha256 xs).length + 1) (le_refl _) hl1 (by omega) (by omega)).1
  rw [this, hr'] at hr
  simp only [Option.some.injEq, List.cons.injEq, and_true] at hr
  rw [hr]

/-- The level built from a list of odd length is the level built from the list with its
last element appended once more. -/
theorem merkle_level_spec_append_last (sha256 : Str → Str) :
    ∀ (n : Nat) (xs : List Str) (hne : xs ≠ []), xs.length ≤ n → xs.length % 2 = 1 →
      merkle_level_spec sha256 (xs ++ [xs.getLast hne]) = merkle_level_spec sha256 xs := by
  intro n
  induction n with
  | zero =>
    intro xs hne hlen _
    have : xs = [] := List.length_eq_zero.mp (Nat.le_zero.mp hlen)
    exact absurd this hne
  | succ n ih =>
    intro xs hne hlen hodd
    match xs, hne, hlen, hodd with
    | [a], _, _, _ => simp [merkle_level_spec]
    | [a, b], _, _, hodd => simp at hodd
    | a :: b :: c :: rest, _, hlen, hodd =>
      have hne' : c :: rest ≠ [] := by simp
      have hlast : (a :: b :: c :: rest).getLast (by simp) = (c :: rest).getLast hne' := by
        simp [List.getLast_cons]
      have hrec := ih (c :: rest) hne'
        (by simp only [List.length_cons] at hlen ⊢; omega)
        (by simp only [List.length_cons] at hodd ⊢; omega)
      rw [hlast]
      show merkle_level_spec sha256 (a :: b :: ((c :: rest) ++ [(c :: rest).getLast hne']))
        = merkle_level_spec sha256 (a :: b :: (c :: rest))
      rw [merkle_level_spec, merkle_level_spec, hrec]

/-- C21: for a list of transaction ids of odd length at least 3, the root of the list is
the root of the list with its last id appended once more, and both calls return a value:
two different lists of ids have the same root. -/
theorem calculate_merkle_root_append_last (sha256 : Str → Str) (xs : List Str)
    (hne : xs ≠ []) (hodd : xs.length % 2 = 1) (h3 : 3 ≤ xs.length) :
    calculate_merkle_root sha256 xs
        = calculate_merkle_root sha256 (xs ++ [xs.getLast hne])
      ∧ (∃ r, calculate_merkle_root sha256 xs = some r)
      ∧ xs ≠ xs ++ [xs.getLast hne] := by
  have hlen2 : 2 ≤ (xs ++ [xs.getLast hne]).length := by
    simp only [List.length_append, List.length_singleton]; omega
  refine ⟨?_, ?_, ?_⟩
  · rw [calculate_merkle_root_next_level sha256 xs (by omega),
      calculate_merkle_root_next_level sha256 _ hlen2,
      merkle_level_spec_append_last sha256 xs.length xs hne (le_refl _) hodd]
  · obtain ⟨r, _, hr⟩ := calculate_merkle_root_of_ne_nil sha256 xs (by omega)
    exact ⟨r, hr⟩
  · intro e
    have := congrArg List.length e
    simp only [List.length_append, List.length_singleton] at this
    omega

theorem calculate_merkle_root_append_last_witness :
    ["a".toList, "b".toList, "c".toList].length % 2 = 1
      ∧ 3 ≤ ["a".toList, "b".toList, "c".toList].length
      ∧ calculate_merkle_root toy_sha256 ["a".toList, "b".toList, "c".toList]
          = calculate_merkle_root toy_sha256
              ["a".toList, "b".toList, "c".toList, "c".toList] :=
  ⟨by decide, by decide,
    (calculate_merkle_root_append_last toy_sha256 ["a".toList, "b".toList, "c".toList]
      (by simp) (by decide) (by decide)).1⟩

/-! ## UTXO ledger: proofs -/

theorem map_store_cons {V : Type} (a : Str) (b : V) (m : List (Str × V)) (k : Str) (v : V) :
    map_store ((a, b) :: m) k v = (if a = k then (a, v) else (a, b)) :: map_store m k v := rfl

theorem map_find_cons {V : Type} (a : Str) (b : V) (m : List (Str × V)) (k : Str) :
    map_find ((a, b) :: m) k = if a = k then some b else map_find m k := rfl

theorem map_find_map_store {V : Type} (m : List (Str × V)) (k k' : Str) (v : V) :
    map_find (map_store m k v) k'
      = if k' = k then (map_find m k').map (fun _ => v) else map_find m k' := by
  induction m with
  | nil => simp [map_store, map_find]
  | cons e m ih =>
    obtain ⟨a, b⟩ := e
    rw [map_store_cons]
    by_cases hak : a = k
    · rw [if_pos hak, map_find_cons, map_find_cons, ih]
      by_cases hk : a = k'
      · have : k' = k := by rw [← hk, hak]
        simp [hk, this]
      · simp [hk]
    · rw [if_neg hak, map_find_cons, map_find_cons, ih]
      by_cases hk : a = k'
      · have : ¬ (k' = k) := by rw [← hk]; exact hak
        simp [hk, this]
      · simp [hk]

theorem map_find_append_single {V : Type} (m : List (Str × V)) (k k' : Str) (v : V) :
    map_find (m ++ [(k, v)]) k'
      = match map_find m k' with
        | some x => some x
        | none => if k = k' then some v else none := by
  induction m with
  | nil => simp [map_find]
  | cons e m ih =>
    obtain ⟨a, b⟩ := e
    simp only [List.cons_append, map_find]
    by_cases hk : a = k'
    · simp [hk]
    · simp only [hk, if_false]
      exact ih

theorem map_store_of_find_none {V : Type} (m : List (Str × V)) (k : Str) (v : V)
    (h : map_find m k = none) : map_store m k v = m := by
  induction m with
  | nil => rfl
  | cons e m ih =>
    obtain ⟨a, b⟩ := e
    simp only [map_find] at h
    by_cases hk : a = k
    · simp [hk] at h
    · simp only [hk, if_false] at h
      simp only [map_store, List.map_cons, hk, if_false] at ih ⊢
      rw [ih h]

theorem map_store_map_store {V : Type} (m : List (Str × V)) (k : Str) (v w : V) :
    map_store (map_store m k v) k w = map_store m k w := by
  simp only [map_store, List.map_map]
  apply List.map_congr_left
  intro e _
  by_cases hk : e.1 = k <;> simp [hk]

theorem map_store_append {V : Type} (m m' : List (Str × V)) (k : Str) (v : V) :
    map_store (m ++ m') k v = map_store m k v ++ map_store m' k v := by
  simp [map_store]

/-- The vector that `add_utxo` leaves for the transaction, from the vector it found. -/
theorem vector_resize_length {V : Type} (v : List V) (n : Nat) (fill : V) :
    (vector_resize v n fill).length = n := by
  simp only [vector_resize, List.length_append, List.length_take, List.length_replicate]
  omega

theorem vector_resize_get? {V : Type} (v : List V) (n j : Nat) (fill : V) (h : v.length ≤ n) :
    (vector_resize v n fill).get? j
      = if j < v.length then v.get? j else if j < n then some fill else none := by
  simp only [vector_resize]
  rw [List.take_of_length_le h]
  by_cases hj : j < v.length
  · simp only [hj, if_true, List.get?_eq_getElem?]
    rw [List.getElem?_append_left hj]
  · simp only [hj, if_false, List.get?_eq_getElem?]
    rw [List.getElem?_append_right (by omega)]
    by_cases hn : j < n
    · simp only [hn, if_true]
      rw [List.getElem?_replicate]
      have : j - v.length < n - v.length := by omega
      simp [this]
    · simp only [hn, if_false]
      rw [List.getElem?_replicate]
      have : ¬ (j - v.length < n - v.length) := by omega
      simp [this]

theorem map_subscript_of_some {V : Type} (m : List (Str × V)) (k : Str) (d v : V)
    (h : map_find m k = some v) : map_subscript m k d = (m, v) := by
  simp [map_subscript, h]

theorem map_subscript_of_none {V : Type} (m : List (Str × V)) (k : Str) (d : V)
    (h : map_find m k = none) : map_subscript m k d = (m ++ [(k, d)], d) := by
  simp [map_subscript, h]

theorem map_find_store_self {V : Type} (m : List (Str × V)) (k : Str) (v w : V)
    (h : map_find m k = some v) : map_find (map_store m k w) k = some w := by
  rw [map_find_map_store, h]; simp

theorem map_store_append_new {V : Type} (m : List (Str × V)) (k : Str) (d w : V)
    (h : map_find m k = none) : map_store (m ++ [(k, d)]) k w = m ++ [(k, w)] := by
  rw [map_store_append, map_store_of_find_none m k w h]
  simp [map_store]

theorem map_find_append_new {V : Type} (m : List (Str × V)) (k : Str) (d : V)
    (h : map_find m k = none) : map_find (m ++ [(k, d)]) k = some d := by
  rw [map_find_append_single, h]; simp

/-- The state that `add_utxo` leaves when it returns. -/
theorem add_utxo_utxos {A : Type} (s : UTXOSetCpp A) (t : Str) (i : Nat) (o : PyObject A) :
    (add_utxo_state s t i o).utxos
      = match map_find s.utxos t with
        | some v => map_store s.utxos t (slot_write v i o)
        | none => s.utxos ++ [(t, slot_write [] i o)] := rfl

theorem add_utxo_used_nonces {A : Type} (s : UTXOSetCpp A) (t : Str) (i : Nat) (o : PyObject A) :
    (add_utxo_state s t i o).used_nonces = s.used_nonces := rfl

theorem mod_two_pow_64_of_lt (i : Nat) (h : i + 1 < 2 ^ 64) : (i + 1) % 2 ^ 64 = i + 1 :=
  Nat.mod_eq_of_lt h

theorem mod_two_pow_64_le (i : Nat) (h : ¬ (i + 1 < 2 ^ 64)) : (i + 1) % 2 ^ 64 ≤ i := by
  have h1 : (i + 1) % 2 ^ 64 < 2 ^ 64 := Nat.mod_lt _ (by decide)
  omega

/-- What `add_utxo` computes: it returns, with the value true, exactly when the slot is
there already or the vector of `output_index + 1` slots can be had; otherwise the size wraps
or `resize` throws. -/
theorem add_utxo_eq {A : Type} (max_size : Nat) (s : UTXOSetCpp A) (t : Str) (i : Nat)
    (o : PyObject A) :
    add_utxo max_size s t i o
      = if i < ((map_find s.utxos t).getD []).length ∨ (i + 1 < 2 ^ 64 ∧ i + 1 ≤ max_size)
        then some (add_utxo_state s t i o, true) else none := by
  cases hf : map_find s.utxos t with
  | none =>
    have h0 : (map_find s.utxos t).isNone = true := by rw [hf]; rfl
    have h1 := map_find_append_new s.utxos t ([] : List (PyObject A)) hf
    have h2 := map_find_append_new s.utxos t
      (vector_resize ([] : List (PyObject A)) ((i + 1) % 2 ^ 64) none) hf
    simp only [add_utxo, h0, if_true, map_subscript_of_none _ _ _ hf,
      map_store_append_new _ _ _ _ hf, map_subscript_of_some _ _ _ _ h1, List.length_nil,
      Nat.zero_le, Option.getD_none, Nat.not_lt_zero, false_or]
    by_cases h64 : i + 1 < 2 ^ 64
    · rw [mod_two_pow_64_of_lt i h64]
      by_cases hM : i + 1 ≤ max_size
      · have h3 := map_find_append_new s.utxos t
          (vector_resize ([] : List (PyObject A)) (i + 1) none) hf
        have hlt : i < (vector_resize ([] : List (PyObject A)) (i + 1) none).length := by
          rw [vector_resize_length]; omega
        simp only [hM, h64, and_self, if_true, map_subscript_of_some _ _ _ _ h3, hlt,
          map_store_append_new _ _ _ _ hf]
        simp [add_utxo_state, hf, slot_write]
      · simp only [hM, h64, and_false, if_false]
    · have hle := mod_two_pow_64_le i h64
      by_cases hM : (i + 1) % 2 ^ 64 ≤ max_size
      · have hlt : ¬ (i < (vector_resize ([] : List (PyObject A))
            ((i + 1) % 2 ^ 64) none).length) := by
          rw [vector_resize_length]; omega
        simp only [hM, h64, false_and, if_true, if_false, map_subscript_of_some _ _ _ _ h2, hlt,
          map_store_append_new _ _ _ _ hf]
      · simp only [hM, h64, false_and, if_false]
  | some v =>
    have h0 : (map_find s.utxos t).isNone = false := by rw [hf]; rfl
    simp only [add_utxo, h0, Bool.false_eq_true, if_false, map_subscript_of_some _ _ _ _ hf,
      Option.getD_some]
    by_cases hlen : v.length ≤ i
    · have hnlt : ¬ (i < v.length) := by omega
      simp only [hlen, if_true, hnlt, false_or]
      by_cases h64 : i + 1 < 2 ^ 64
      · rw [mod_two_pow_64_of_lt i h64]
        by_cases hM : i + 1 ≤ max_size
        · have h2 := map_find_store_self s.utxos t v (vector_resize v (i + 1) none) hf
          have hlt : i < (vector_resize v (i + 1) none).length := by
            rw [vector_resize_length]; omega
          simp only [hM, h64, and_self, if_true, map_subscript_of_some _ _ _ _ h2, hlt,
            map_store_map_store]
          simp [add_utxo_state, hf, slot_write, hlen]
        · simp only [hM, h64, and_false, if_false]
      · have hle := mod_two_pow_64_le i h64
        by_cases hM : (i + 1) % 2 ^ 64 ≤ max_size
        · have h2 := map_find_store_self s.utxos t v
            (vector_resize v ((i + 1) % 2 ^ 64) none) hf
          have hlt : ¬ (i < (vector_resize v ((i + 1) % 2 ^ 64) none).length) := by
            rw [vector_resize_length]; omega
          simp only [hM, h64, false_and, if_true, if_false,
            map_subscript_of_some _ _ _ _ h2, hlt]
        · simp only [hM, h64, false_and, if_false]
    · have hlt : i < v.length := by omega
      simp only [hlen, if_false, map_subscript_of_some _ _ _ _ hf, hlt, if_true, true_or]
      simp [add_utxo_state, hf, slot_write, hlen]

/-- When `add_utxo` returns, it returns true and leaves `add_utxo_state`. -/
theorem add_utxo_some {A : Type} (max_size : Nat) (s : UTXOSetCpp A) (t : Str) (i : Nat)
    (o : PyObject A) (r : UTXOSetCpp A × Bool) (h : add_utxo max_size s t i o = some r) :
    r = (add_utxo_state s t i o, true)
      ∧ (i < ((map_find s.utxos t).getD []).length ∨ (i + 1 < 2 ^ 64 ∧ i + 1 ≤ max_size)) := by
  rw [add_utxo_eq] at h
  by_cases hc : i < ((map_find s.utxos t).getD []).length ∨ (i + 1 < 2 ^ 64 ∧ i + 1 ≤ max_size)
  · rw [if_pos hc] at h
    exact ⟨(Option.some.inj h).symm, hc⟩
  · rw [if_neg hc] at h
    exact Option.noConfusion h

/-- `add_utxo` returns when the vector of `output_index + 1` slots can be had. -/
theorem add_utxo_of_le {A : Type} (max_size : Nat) (s : UTXOSetCpp A) (t : Str) (i : Nat)
    (o : PyObject A) (h64 : i + 1 < 2 ^ 64) (hM : i + 1 ≤ max_size) :
    add_utxo max_size s t i o = some (add_utxo_state s t i o, true) := by
  rw [add_utxo_eq, if_pos (Or.inr ⟨h64, hM⟩)]

/-- What `get_utxo` computes: the state is the one it was given. -/
theorem get_utxo_eq {A : Type} (s : UTXOSetCpp A) (t : Str) (i : Nat) :
    get_utxo s t i = (s, slot_at s.utxos t i) := by
  cases hf : map_find s.utxos t with
  | none =>
    have h0 : (map_find s.utxos t).isNone = true := by rw [hf]; rfl
    simp [get_utxo, h0, slot_at, hf]
  | some v =>
    have h0 : (map_find s.utxos t).isNone = false := by rw [hf]; rfl
    simp only [get_utxo, hf, Option.isNone_some, Bool.false_eq_true, if_false,
      map_subscript_of_some _ _ _ _ hf, slot_at]
    by_cases hlen : v.length ≤ i
    · simp only [hlen, if_true]
      have : v[i]? = none := List.getElem?_eq_none hlen
      simp [this]
    · simp only [hlen, if_false]

/-- What `spend_utxo` computes. -/
theorem spend_utxo_eq {A : Type} (s : UTXOSetCpp A) (t : Str) (i : Nat) :
    spend_utxo s t i
      = match map_find s.utxos t with
        | none => (s, false)
        | some v =>
          if v.length ≤ i then (s, false)
          else ({ s with utxos := map_store s.utxos t (v.set i none) }, true) := by
  cases hf : map_find s.utxos t with
  | none =>
    have h0 : (map_find s.utxos t).isNone = true := by rw [hf]; rfl
    simp [spend_utxo, h0]
  | some v =>
    have h0 : (map_find s.utxos t).isNone = false := by rw [hf]; rfl
    simp only [spend_utxo, hf, Option.isNone_some, Bool.false_eq_true, if_false,
      map_subscript_of_some _ _ _ _ hf]

theorem slot_write_length {V : Type} (v : List (Option V)) (i : Nat) (o : Option V) :
    (slot_write v i o).length = max v.length (i + 1) := by
  unfold slot_write
  by_cases hlen : v.length ≤ i
  · simp only [hlen, if_true, List.length_set, vector_resize_length]; omega
  · simp only [hlen, if_false, List.length_set]; omega

theorem slot_write_get? {V : Type} (v : List (Option V)) (i j : Nat) (o : Option V) :
    ((slot_write v i o).get? j).join = if j = i then o else (v.get? j).join := by
  unfold slot_write
  by_cases hlen : v.length ≤ i
  · simp only [hlen, if_true, List.get?_eq_getElem?]
    by_cases hj : j = i
    · subst hj
      rw [List.getElem?_set_self (by rw [vector_resize_length]; omega)]
      simp
    · rw [List.getElem?_set_ne (fun h => hj h.symm)]
      have hr := vector_resize_get? v (i + 1) j (none : Option V) (by omega)
      rw [List.get?_eq_getElem?] at hr
      rw [hr]
      simp only [hj, if_false]
      by_cases hjv : j < v.length
      · simp [hjv]
      · have : v[j]? = none := List.getElem?_eq_none (by omega)
        by_cases hji : j < i + 1 <;> simp [hjv, hji, this]
  · simp only [hlen, if_false, List.get?_eq_getElem?]
    by_cases hj : j = i
    · subst hj
      rw [List.getElem?_set_self (by omega)]
      simp
    · rw [List.getElem?_set_ne (fun h => hj h.symm)]
      simp [hj]

/-- After `add_utxo` the slot of the key holds the output and every other slot reads as
before. -/
theorem slot_at_add_utxo {A : Type} (s : UTXOSetCpp A) (t : Str) (i : Nat) (o : PyObject A)
    (t' : Str) (i' : Nat) :
    slot_at (add_utxo_state s t i o).utxos t' i'
      = if t' = t ∧ i' = i then o else slot_at s.utxos t' i' := by
  rw [add_utxo_utxos]
  cases hf : map_find s.utxos t with
  | none =>
    simp only [slot_at, map_find_append_single]
    by_cases ht : t' = t
    · subst ht
      simp only [hf, if_true, true_and, slot_write_get?]
      simp
    · have ht' : ¬ (t = t') := fun h => ht h.symm
      simp only [ht, ht', if_false, false_and]
      cases map_find s.utxos t' <;> rfl
  | some v =>
    simp only [slot_at, map_find_map_store]
    by_cases ht : t' = t
    · subst ht
      simp only [hf, if_true, true_and, Option.map_some', slot_write_get?]
    · simp only [ht, if_false, false_and]

theorem add_utxo_find {A : Type} (s : UTXOSetCpp A) (t : Str) (i : Nat) (o : PyObject A) :
    ∃ w, map_find (add_utxo_state s t i o).utxos t = some w ∧ i < w.length := by
  rw [add_utxo_utxos]
  cases hf : map_find s.utxos t with
  | none =>
    refine ⟨slot_write [] i o, map_find_append_new _ _ _ hf, ?_⟩
    rw [slot_write_length]; omega
  | some v =>
    refine ⟨slot_write v i o, map_find_store_self _ _ _ _ hf, ?_⟩
    rw [slot_write_length]; omega

theorem spend_utxo_of_slot {A : Type} (s : UTXOSetCpp A) (t : Str) (i : Nat)
    (w : List (PyObject A)) (hf : map_find s.utxos t = some w) (hi : i < w.length) :
    spend_utxo s t i
      = ({ s with utxos := map_store s.utxos t (w.set i none) }, true) := by
  rw [spend_utxo_eq, hf]
  have : ¬ (w.length ≤ i) := by omega
  simp only [this, if_false]

/-- C1: after an `add_utxo(t, i, out)` that returned and `spend_utxo(t, i)` the slot reads
as absent, and a second `spend_utxo(t, i)` leaves the ledger as it is but returns `true`,
not `false`: the function tests only that the transaction is known and the index in range,
not that the slot still holds an output. -/
theorem spend_utxo_second_call_returns_true {A : Type} (max_size : Nat) (s s1 : UTXOSetCpp A)
    (t : Str) (i : Nat) (out : TransactionOutput A) (b : Bool)
    (h : add_utxo max_size s t i (some out) = some (s1, b)) :
    (spend_utxo s1 t i).2 = true
      ∧ (get_utxo (spend_utxo s1 t i).1 t i).2 = none
      ∧ (spend_utxo (spend_utxo s1 t i).1 t i).2 = true
      ∧ (spend_utxo (spend_utxo s1 t i).1 t i).1 = (spend_utxo s1 t i).1 := by
  have hs1 : s1 = add_utxo_state s t i (some out) :=
    congrArg Prod.fst (add_utxo_some max_size s t i (some out) (s1, b) h).1
  subst hs1
  obtain ⟨w, hw, hi⟩ := add_utxo_find s t i (some out)
  have h1 := spend_utxo_of_slot (add_utxo_state s t i (some out)) t i w hw hi
  have hw2 : map_find (spend_utxo (add_utxo_state s t i (some out)) t i).1.utxos t
      = some (w.set i none) := by
    rw [h1]; exact map_find_store_self _ _ _ _ hw
  have hi2 : i < (w.set i none).length := by rw [List.length_set]; exact hi
  have h2 := spend_utxo_of_slot (spend_utxo (add_utxo_state s t i (some out)) t i).1 t i
    (w.set i none) hw2 hi2
  refine ⟨by rw [h1], ?_, by rw [h2], ?_⟩
  · rw [get_utxo_eq]
    simp only [slot_at, hw2, List.get?_eq_getElem?]
    rw [List.getElem?_set_self hi]
    rfl
  · rw [h2]
    simp only [List.set_set]
    rw [h1]
    simp only [map_store_map_store]

theorem spend_utxo_second_call_returns_true_witness :
    add_utxo max_size_sample (UTXOSetCpp.new Nat) "t".toList 0
        (some ⟨"r".toList, 5, "s".toList⟩) = some (ledger_one_output, true)
      ∧ (spend_utxo ledger_one_output "t".toList 0).2 = true
      ∧ (get_utxo (spend_utxo ledger_one_output "t".toList 0).1 "t".toList 0).2 = none
      ∧ (spend_utxo (spend_utxo ledger_one_output "t".toList 0).1 "t".toList 0).2 = true :=
  have h := spend_utxo_second_call_returns_true max_size_sample (UTXOSetCpp.new Nat)
    ledger_one_output "t".toList 0 ⟨"r".toList, 5, "s".toList⟩ true (by decide)
  ⟨by decide, h.1, h.2.1, h.2.2.1⟩

/-- The failing input of C1 evaluated: one output added at index 0 of transaction `t`,
spent, and spent again. -/
theorem spend_utxo_second_call_example :
    add_utxo max_size_sample (UTXOSetCpp.new Nat) "t".toList 0
        (some ⟨"r".toList, 5, "s".toList⟩) = some (ledger_one_output, true)
      ∧ (spend_utxo (spend_utxo ledger_one_output "t".toList 0).1 "t".toList 0).2 = true := by
  decide

/-! ## Paged export: proofs -/

theorem serialize_output_ne_nil {A : Type} (codec : AmountText A) (o : TransactionOutput A) :
    (serialize_output codec (some o)).isEmpty = false := by
  simp [serialize_output, TransactionOutput.serialize]

theorem serialize_outputs_cons_some {A : Type} (codec : AmountText A) (t : Str) (i : Nat)
    (o : TransactionOutput A) (rest : List (PyObject A)) :
    serialize_outputs codec t i (some o :: rest)
      = (t, i, serialize_output codec (some o)) :: serialize_outputs codec t (i + 1) rest := by
  simp [serialize_outputs, serialize_output_ne_nil]

theorem serialize_outputs_cons_none {A : Type} (codec : AmountText A) (t : Str) (i : Nat)
    (rest : List (PyObject A)) :
    serialize_outputs codec t i (none :: rest) = serialize_outputs codec t (i + 1) rest := by
  simp [serialize_outputs]

/-- The inner loop of the paged export in terms of the records of the vector: it returns
early when the records from the offset on fill the page, whose size is `limit`, or one when
`limit` is zero. -/
theorem batch_outputs_eq {A : Type} (codec : AmountText A) (offset limit : Nat) (t : Str) :
    ∀ (v : List (PyObject A)) (i : Nat) (st : BatchState), st.count < max limit 1 →
      batch_outputs codec offset limit t i v st
        = if max limit 1 - st.count
              ≤ ((serialize_outputs codec t i v).drop (offset - st.current)).length then
            .error (st.batch ++ ((serialize_outputs codec t i v).drop
              (offset - st.current)).take (max limit 1 - st.count))
          else
            .ok { batch := st.batch ++ (serialize_outputs codec t i v).drop (offset - st.current),
                  current := st.current + (serialize_outputs codec t i v).length,
                  count := st.count
                    + ((serialize_outputs codec t i v).drop (offset - st.current)).length } := by
  intro v
  induction v with
  | nil =>
    intro i st h
    have : ¬ (max limit 1 - st.count ≤ 0) := by omega
    simp [batch_outputs, serialize_outputs, this]
  | cons output rest ih =>
    intro i st h
    cases output with
    | none =>
      rw [serialize_outputs_cons_none]
      simp only [batch_outputs, Option.isSome_none, Bool.false_eq_true, if_false]
      exact ih (i + 1) st h
    | some o =>
      rw [serialize_outputs_cons_some]
      simp only [batch_outputs, Option.isSome_some, if_true]
      by_cases hc : st.current ≥ offset
      · have h0 : offset - st.current = 0 := by omega
        simp only [hc, if_true, h0, List.drop_zero, List.length_cons]
        by_cases hl : st.count + 1 ≥ limit
        · have h1 : max limit 1 - st.count = 1 := by omega
          simp only [hl, if_true, h1]
          have : 1 ≤ (serialize_outputs codec t (i + 1) rest).length + 1 := by omega
          simp [this]
        · simp only [hl, if_false]
          rw [ih (i + 1) _ (by simp only; omega)]
          have h2 : offset - (st.current + 1) = 0 := by omega
          simp only [h2, List.drop_zero]
          have h3 : max limit 1 - st.count = (max limit 1 - (st.count + 1)) + 1 := by omega
          by_cases hfill : max limit 1 - (st.count + 1)
              ≤ (serialize_outputs codec t (i + 1) rest).length
          · have : max limit 1 - st.count
                ≤ (serialize_outputs codec t (i + 1) rest).length + 1 := by omega
            simp only [hfill, this, if_true]
            rw [h3, List.take_succ_cons]
            simp
          · have : ¬ (max limit 1 - st.count
                ≤ (serialize_outputs codec t (i + 1) rest).length + 1) := by omega
            simp only [hfill, this, if_false]
            simp only [List.append_assoc, List.singleton_append, Except.ok.injEq,
              BatchState.mk.injEq, true_and]
            omega
      · have h0 : offset - st.current = (offset - (st.current + 1)) + 1 := by omega
        simp only [hc, if_false]
        rw [ih (i + 1) _ (by simp only; exact h)]
        simp only [List.length_cons]
        rw [h0, List.drop_succ_cons]
        by_cases hfill : max limit 1 - st.count
            ≤ ((serialize_outputs codec t (i + 1) rest).drop (offset - (st.current + 1))).length
        · simp only [hfill, if_true]
        · simp only [hfill, if_false, Except.ok.injEq, BatchState.mk.injEq, true_and]
          exact ⟨by omega, trivial⟩

/-- The outer loop of the paged export in terms of the records of the entries. -/
theorem batch_entries_eq {A : Type} (codec : AmountText A) (offset limit : Nat) :
    ∀ (m : List (Str × List (PyObject A))) (st : BatchState), st.count < max limit 1 →
      batch_entries codec offset limit m st
        = st.batch ++ ((m.flatMap (fun entry => serialize_outputs codec entry.1 0 entry.2)).drop
            (offset - st.current)).take (max limit 1 - st.count) := by
  intro m
  induction m with
  | nil => intro st _; simp [batch_entries]
  | cons e m ih =>
    intro st h
    obtain ⟨t, v⟩ := e
    simp only [batch_entries, List.flatMap_cons]
    rw [batch_outputs_eq codec offset limit t v 0 st h]
    by_cases hfill : max limit 1 - st.count
        ≤ ((serialize_outputs codec t 0 v).drop (offset - st.current)).length
    · simp only [hfill, if_true]
      rw [List.drop_append_eq_append_drop, List.take_append_eq_append_take]
      have : max limit 1 - st.count
          - ((serialize_outputs codec t 0 v).drop (offset - st.current)).length = 0 := by omega
      rw [this]
      simp
    · simp only [hfill, if_false]
      rw [ih _ (by simp only; omega)]
      simp only [List.drop_append_eq_append_drop, List.take_append_eq_append_take,
        List.append_assoc, List.append_cancel_left_eq]
      have h1 : List.take (max limit 1 - st.count)
          (List.drop (offset - st.current) (serialize_outputs codec t 0 v))
          = List.drop (offset - st.current) (serialize_outputs codec t 0 v) :=
        List.take_of_length_le (by omega)
      rw [h1]
      have e1 : offset - (st.current + (serialize_outputs codec t 0 v).length)
          = offset - st.current - (serialize_outputs codec t 0 v).length := by omega
      have e2 : max limit 1 - (st.count
            + (List.drop (offset - st.current) (serialize_outputs codec t 0 v)).length)
          = max limit 1 - st.count
            - (List.drop (offset - st.current) (serialize_outputs codec t 0 v)).length := by
        omega
      rw [e1, e2]

/-- What the paged export returns for every ledger, offset and limit: the records of the full
export from position `offset` on, at most `limit` of them when `limit` is positive and at
most one when `limit` is zero. -/
theorem get_serialized_utxo_batch_eq {A : Type} (codec : AmountText A) (s : UTXOSetCpp A)
    (offset limit : Nat) :
    get_serialized_utxo_batch codec s offset limit
      = ((serialize_utxo_set codec s).drop offset).take (max limit 1) := by
  rw [get_serialized_utxo_batch, batch_entries_eq codec offset limit s.utxos _ (by simp only; omega)]
  simp [serialize_utxo_set]

/-- C7: with `limit = 0` the paged export returns one record, not none: the test
`count >= limit` is made only after a record has been appended. Here the ledger holds
one output, added by `add_utxo(t, 0, (r, 5, s))` to the empty ledger, and the page asked
for is `(offset, limit) = (0, 0)`. -/
theorem get_serialized_utxo_batch_limit_zero :
    add_utxo max_size_sample (UTXOSetCpp.new Nat) "t".toList 0
        (some ⟨"r".toList, 5, "s".toList⟩) = some (ledger_one_output, true)
    ∧ get_serialized_utxo_batch natAmountText ledger_one_output 0 0
      = [("t".toList, 0, "r|5|s".toList)]
    ∧ ((serialize_utxo_set natAmountText ledger_one_output).drop 0).take 0 = [] := by
  decide

/-! ## Round trip of the export: proofs -/

theorem takeWhile_ne_append (d : Char) (xs ys : Str) (h : d ∉ xs) :
    (xs ++ d :: ys).takeWhile (fun c => c != d) = xs := by
  induction xs with
  | nil => simp [List.takeWhile]
  | cons x xs ih =>
    have hx : x ≠ d := fun e => h (by rw [e]; exact List.mem_cons_self _ _)
    have hxs : d ∉ xs := fun e => h (List.mem_cons_of_mem _ e)
    have hb : (x != d) = true := by simpa using hx
    rw [List.cons_append, List.takeWhile_cons, hb, if_pos rfl, ih hxs]

theorem dropWhile_ne_append (d : Char) (xs ys : Str) (h : d ∉ xs) :
    (xs ++ d :: ys).dropWhile (fun c => c != d) = d :: ys := by
  induction xs with
  | nil => simp [List.dropWhile]
  | cons x xs ih =>
    have hx : x ≠ d := fun e => h (by rw [e]; exact List.mem_cons_self _ _)
    have hxs : d ∉ xs := fun e => h (List.mem_cons_of_mem _ e)
    have hb : (x != d) = true := by simpa using hx
    rw [List.cons_append, List.dropWhile_cons, hb, if_pos rfl, ih hxs]

theorem takeWhile_ne_all (d : Char) (xs : Str) (h : d ∉ xs) :
    xs.takeWhile (fun c => c != d) = xs := by
  induction xs with
  | nil => rfl
  | cons x xs ih =>
    have hx : x ≠ d := fun e => h (by rw [e]; exact List.mem_cons_self _ _)
    have hxs : d ∉ xs := fun e => h (List.mem_cons_of_mem _ e)
    have hb : (x != d) = true := by simpa using hx
    rw [List.takeWhile_cons, hb, if_pos rfl, ih hxs]

theorem dropWhile_ne_all (d : Char) (xs : Str) (h : d ∉ xs) :
    xs.dropWhile (fun c => c != d) = [] := by
  induction xs with
  | nil => rfl
  | cons x xs ih =>
    have hx : x ≠ d := fun e => h (by rw [e]; exact List.mem_cons_self _ _)
    have hxs : d ∉ xs := fun e => h (List.mem_cons_of_mem _ e)
    have hb : (x != d) = true := by simpa using hx
    rw [List.dropWhile_cons, hb, if_pos rfl, ih hxs]

theorem dropWhile_isspace_append (xs ys : Str) (h : xs.dropWhile isspace = xs) :
    (xs ++ '|' :: ys).dropWhile isspace = xs ++ '|' :: ys := by
  cases xs with
  | nil => simp [List.dropWhile, isspace]
  | cons x xs =>
    simp only [List.dropWhile] at h
    cases hx : isspace x with
    | true =>
      rw [hx] at h
      have hl := congrArg List.length h
      have := (List.dropWhile_sublist isspace (l := xs)).length_le
      simp only [List.length_cons] at hl
      omega
    | false => simp [List.dropWhile, hx]

theorem extract_amount_exact {A : Type} (codec : AmountText A) (a : A) (rest : Str)
    (h : AmountExact codec a) :
    extract_amount codec { buf := codec.put a ++ '|' :: rest, eofbit := false, failbit := false }
      = ({ buf := '|' :: rest, eofbit := false, failbit := false }, some a) := by
  obtain ⟨hsp, hget⟩ := h
  simp only [extract_amount, Bool.or_self, Bool.false_eq_true, if_false]
  rw [dropWhile_isspace_append (codec.put a) rest hsp]
  generalize hb : codec.put a ++ '|' :: rest = buf
  cases buf with
  | nil => simp at hb
  | cons c cs =>
    simp only
    rw [← hb, hget rest]
    rfl

/-- A record whose fields are free of the delimiters reads back as the output it was
written from. -/
theorem deserialize_serialize {A : Type} (codec : AmountText A) (o : TransactionOutput A)
    (h : RecordValid codec o) :
    TransactionOutput.deserialize codec (o.serialize codec) = some o := by
  obtain ⟨hr, hs, hn, hex⟩ := h
  have hser : o.serialize codec
      = o.recipient ++ '|' :: (codec.put o.amount ++ '|' :: o.script) := by
    simp [TransactionOutput.serialize]
  have hne : o.script.isEmpty = false := by
    cases hsc : o.script with
    | nil => exact absurd hsc hs
    | cons _ _ => rfl
  rw [hser]
  simp only [TransactionOutput.deserialize, getline, Bool.or_self, Bool.false_eq_true, if_false,
    takeWhile_ne_append '|' _ _ hr, dropWhile_ne_append '|' _ _ hr,
    extract_amount_exact codec o.amount o.script hex, ignore,
    takeWhile_ne_all (Char.ofNat 10) _ hn, dropWhile_ne_all (Char.ofNat 10) _ hn, hne, Option.map_some']

theorem create_output_from_serialized_serialize {A : Type} (codec : AmountText A)
    (o : TransactionOutput A) (h : RecordValid codec o) :
    create_output_from_serialized codec (serialize_output codec (some o)) = some o := by
  have : serialize_output codec (some o) = o.serialize codec := rfl
  rw [this, create_output_from_serialized, deserialize_serialize codec o h]

theorem mem_unspent_outputs {A : Type} (t t' : Str) (j : Nat) (o : TransactionOutput A) :
    ∀ (v : List (PyObject A)) (i : Nat),
      (t', j, o) ∈ unspent_outputs t i v ↔ t' = t ∧ i ≤ j ∧ v[j - i]? = some (some o) := by
  intro v
  induction v with
  | nil => intro i; simp [unspent_outputs]
  | cons x rest ih =>
    intro i
    cases x with
    | none =>
      simp only [unspent_outputs, ih (i + 1)]
      constructor
      · rintro ⟨h1, h2, h3⟩
        refine ⟨h1, by omega, ?_⟩
        have : j - i = (j - (i + 1)) + 1 := by omega
        rw [this, List.getElem?_cons_succ]; exact h3
      · rintro ⟨h1, h2, h3⟩
        by_cases hji : j = i
        · subst hji; simp at h3
        · have : j - i = (j - (i + 1)) + 1 := by omega
          rw [this, List.getElem?_cons_succ] at h3
          exact ⟨h1, by omega, h3⟩
    | some y =>
      simp only [unspent_outputs, List.mem_cons, ih (i + 1), Prod.mk.injEq]
      constructor
      · rintro (⟨h1, h2, h3⟩ | ⟨h1, h2, h3⟩)
        · subst h2; subst h3
          exact ⟨h1, le_refl _, by simp⟩
        · refine ⟨h1, by omega, ?_⟩
          have : j - i = (j - (i + 1)) + 1 := by omega
          rw [this, List.getElem?_cons_succ]; exact h3
      · rintro ⟨h1, h2, h3⟩
        by_cases hji : j = i
        · subst hji
          simp only [Nat.sub_self, List.getElem?_cons_zero, Option.some.injEq] at h3
          exact Or.inl ⟨h1, rfl, h3.symm⟩
        · have : j - i = (j - (i + 1)) + 1 := by omega
          rw [this, List.getElem?_cons_succ] at h3
          exact Or.inr ⟨h1, by omega, h3⟩

theorem map_find_of_mem {V : Type} (m : List (Str × V)) (t : Str) (v : V)
    (hd : KeysDistinct m) (h : (t, v) ∈ m) : map_find m t = some v := by
  induction m with
  | nil => simp at h
  | cons e m ih =>
    obtain ⟨a, b⟩ := e
    simp only [KeysDistinct, List.map_cons, List.nodup_cons] at hd
    rw [map_find_cons]
    rcases List.mem_cons.mp h with h | h
    · simp only [Prod.mk.injEq] at h
      rw [if_pos h.1.symm, h.2]
    · have : a ≠ t := by
        intro e
        apply hd.1
        rw [e]
        exact List.mem_map_of_mem Prod.fst h
      rw [if_neg this]
      exact ih hd.2 h

theorem mem_of_map_find {V : Type} (m : List (Str × V)) (t : Str) (v : V)
    (h : map_find m t = some v) : (t, v) ∈ m := by
  induction m with
  | nil => simp [map_find] at h
  | cons e m ih =>
    obtain ⟨a, b⟩ := e
    rw [map_find_cons] at h
    by_cases hk : a = t
    · rw [if_pos hk] at h
      simp only [Option.some.injEq] at h
      rw [hk, h]; exact List.mem_cons_self _ _
    · rw [if_neg hk] at h
      exact List.mem_cons_of_mem _ (ih h)

/-- With distinct keys, the unspent tuples of a ledger are the keys whose slot holds an
output, with that output. -/
theorem mem_unspent_tuples {A : Type} (s : UTXOSetCpp A) (hd : KeysDistinct s.utxos)
    (t : Str) (j : Nat) (o : TransactionOutput A) :
    (t, j, o) ∈ unspent_tuples s ↔ slot_at s.utxos t j = some o := by
  simp only [unspent_tuples, List.mem_flatMap, mem_unspent_outputs, Nat.zero_le, true_and,
    Nat.sub_zero, slot_at]
  constructor
  · rintro ⟨⟨a, v⟩, hmem, h1, h2⟩
    simp only at h1 h2
    subst h1
    rw [map_find_of_mem _ _ _ hd hmem]
    simp [h2]
  · intro h
    cases hf : map_find s.utxos t with
    | none => rw [hf] at h; simp at h
    | some v =>
      rw [hf] at h
      refine ⟨(t, v), mem_of_map_find _ _ _ hf, rfl, ?_⟩
      simp only [List.get?_eq_getElem?] at h
      cases hv : v[j]? with
      | none => rw [hv] at h; simp at h
      | some x =>
        rw [hv] at h
        simp only [Option.join] at h
        simp only [Option.some_bind] at h
        exact congrArg some h

theorem map_store_keys {V : Type} (m : List (Str × V)) (k : Str) (v : V) :
    (map_store m k v).map Prod.fst = m.map Prod.fst := by
  simp only [map_store, List.map_map]
  apply List.map_congr_left
  intro e _
  by_cases hk : e.1 = k <;> simp [hk]

theorem not_mem_keys_of_find_none {V : Type} (m : List (Str × V)) (k : Str)
    (h : map_find m k = none) : k ∉ m.map Prod.fst := by
  induction m with
  | nil => simp
  | cons e m ih =>
    obtain ⟨a, b⟩ := e
    rw [map_find_cons] at h
    by_cases hk : a = k
    · rw [if_pos hk] at h; simp at h
    · rw [if_neg hk] at h
      simp only [List.map_cons, List.mem_cons, not_or]
      exact ⟨fun e => hk e.symm, ih h⟩

theorem add_utxo_keys_distinct {A : Type} (s : UTXOSetCpp A) (t : Str) (i : Nat)
    (o : PyObject A) (hd : KeysDistinct s.utxos) :
    KeysDistinct (add_utxo_state s t i o).utxos := by
  rw [add_utxo_utxos]
  cases hf : map_find s.utxos t with
  | none =>
    simp only [KeysDistinct, List.map_append, List.map_cons, List.map_nil]
    rw [List.nodup_append]
    refine ⟨hd, List.nodup_singleton _, ?_⟩
    intro a ha hb
    rw [List.mem_singleton] at hb
    rw [hb] at ha
    exact not_mem_keys_of_find_none _ _ hf ha
  | some v =>
    simp only [KeysDistinct, map_store_keys]
    exact hd

theorem spend_utxo_keys_distinct {A : Type} (s : UTXOSetCpp A) (t : Str) (i : Nat)
    (hd : KeysDistinct s.utxos) : KeysDistinct (spend_utxo s t i).1.utxos := by
  rw [spend_utxo_eq]
  cases hf : map_find s.utxos t with
  | none => exact hd
  | some v =>
    by_cases hlen : v.length ≤ i
    · simp only [hlen, if_true]; exact hd
    · simp only [hlen, if_false, KeysDistinct, map_store_keys]; exact hd

/-- After `spend_utxo` the slot of the key is empty and every other slot reads as before. -/
theorem slot_at_spend_utxo {A : Type} (s : UTXOSetCpp A) (t : Str) (i : Nat) (t' : Str)
    (i' : Nat) :
    slot_at (spend_utxo s t i).1.utxos t' i'
      = if t' = t ∧ i' = i then none else slot_at s.utxos t' i' := by
  rw [spend_utxo_eq]
  cases hf : map_find s.utxos t with
  | none =>
    by_cases hk : t' = t ∧ i' = i
    · simp only [hk, and_self, if_true, slot_at, hf]
    · simp only [hk, if_false]
  | some v =>
    by_cases hlen : v.length ≤ i
    · simp only [hlen, if_true]
      by_cases hk : t' = t ∧ i' = i
      · simp only [hk, and_self, if_true, slot_at, hf, List.get?_eq_getElem?]
        rw [List.getElem?_eq_none hlen]; rfl
      · simp only [hk, if_false]
    · simp only [hlen, if_false, slot_at, map_find_map_store]
      by_cases ht : t' = t
      · subst ht
        simp only [hf, if_true, true_and, Option.map_some', List.get?_eq_getElem?]
        by_cases hi : i' = i
        · subst hi
          rw [List.getElem?_set_self (by omega)]
          simp
        · rw [List.getElem?_set_ne (fun h => hi h.symm)]
          simp [hi]
      · simp only [ht, if_false, false_and]

theorem serialize_outputs_eq_map {A : Type} (codec : AmountText A) (t : Str) :
    ∀ (v : List (PyObject A)) (i : Nat),
      serialize_outputs codec t i v
        = (unspent_outputs t i v).map
            (fun x => (x.1, x.2.1, serialize_output codec (some x.2.2))) := by
  intro v
  induction v with
  | nil => intro i; rfl
  | cons x rest ih =>
    intro i
    cases x with
    | none => rw [serialize_outputs_cons_none, ih]; rfl
    | some o => rw [serialize_outputs_cons_some, ih]; rfl

theorem serialize_utxo_set_eq_map {A : Type} (codec : AmountText A) (s : UTXOSetCpp A) :
    serialize_utxo_set codec s
      = (unspent_tuples s).map (fun x => (x.1, x.2.1, serialize_output codec (some x.2.2))) := by
  simp only [serialize_utxo_set, unspent_tuples, List.map_flatMap, serialize_outputs_eq_map]

/-- The loop of `deserialize_utxo_set` returns when the vector of `output_index + 1`
slots can be had for the index of every entry. -/
theorem deserialize_entries_eq_restore {A : Type} (max_size : Nat) (codec : AmountText A) :
    ∀ (entries : List (Str × Nat × Str)) (s0 : UTXOSetCpp A),
      (∀ e ∈ entries, e.2.1 + 1 < 2 ^ 64 ∧ e.2.1 + 1 ≤ max_size) →
      deserialize_entries max_size codec s0 entries
        = some (restore_entries codec s0 entries) := by
  intro entries
  induction entries with
  | nil => intro s0 _; rfl
  | cons e rest ih =>
    intro s0 h
    obtain ⟨t, i, rec⟩ := e
    have hi := h (t, i, rec) (List.mem_cons_self _ _)
    have hrest : ∀ e ∈ rest, e.2.1 + 1 < 2 ^ 64 ∧ e.2.1 + 1 ≤ max_size :=
      fun y hy => h y (List.mem_cons_of_mem _ hy)
    simp only [deserialize_entries, restore_entries]
    by_cases hp : (create_output_from_serialized codec rec).isSome = true
    · rw [if_pos hp, if_pos hp, add_utxo_of_le max_size s0 t i _ hi.1 hi.2]
      exact ih _ hrest
    · rw [if_neg hp, if_neg hp]
      exact ih _ hrest

theorem restore_entries_eq_add_all {A : Type} (codec : AmountText A) :
    ∀ (E : List (Str × Nat × TransactionOutput A)) (s0 : UTXOSetCpp A),
      (∀ x ∈ E, RecordValid codec x.2.2) →
      restore_entries codec s0
          (E.map (fun x => (x.1, x.2.1, serialize_output codec (some x.2.2))))
        = add_all s0 E := by
  intro E
  induction E with
  | nil => intro s0 _; rfl
  | cons x E ih =>
    intro s0 h
    obtain ⟨t, i, o⟩ := x
    have hv : RecordValid codec o := h (t, i, o) (List.mem_cons_self _ _)
    simp only [List.map_cons, restore_entries,
      create_output_from_serialized_serialize codec o hv, Option.isSome_some, if_true, add_all]
    exact ih _ (fun y hy => h y (List.mem_cons_of_mem _ hy))

theorem add_all_keys_distinct {A : Type} :
    ∀ (E : List (Str × Nat × TransactionOutput A)) (s0 : UTXOSetCpp A),
      KeysDistinct s0.utxos → KeysDistinct (add_all s0 E).utxos := by
  intro E
  induction E with
  | nil => intro s0 h; exact h
  | cons x E ih =>
    intro s0 h
    obtain ⟨t, i, o⟩ := x
    exact ih _ (add_utxo_keys_distinct s0 t i (some o) h)

theorem add_all_slot_not_mem {A : Type} (t : Str) (i : Nat) :
    ∀ (E : List (Str × Nat × TransactionOutput A)) (s0 : UTXOSetCpp A),
      (∀ o, (t, i, o) ∉ E) → slot_at (add_all s0 E).utxos t i = slot_at s0.utxos t i := by
  intro E
  induction E with
  | nil => intro s0 _; rfl
  | cons x E ih =>
    intro s0 h
    obtain ⟨t', i', o'⟩ := x
    simp only [add_all]
    rw [ih _ (fun o ho => h o (List.mem_cons_of_mem _ ho)), slot_at_add_utxo]
    have : ¬ (t = t' ∧ i = i') := by
      rintro ⟨h1, h2⟩
      apply h o'
      rw [h1, h2]; exact List.mem_cons_self _ _
    rw [if_neg this]

theorem add_all_slot_mem {A : Type} (t : Str) (i : Nat) (o : TransactionOutput A) :
    ∀ (E : List (Str × Nat × TransactionOutput A)) (s0 : UTXOSetCpp A),
      (∀ o1 o2, (t, i, o1) ∈ E → (t, i, o2) ∈ E → o1 = o2) → (t, i, o) ∈ E →
      slot_at (add_all s0 E).utxos t i = some o := by
  intro E
  induction E with
  | nil => intro s0 _ h; simp at h
  | cons x E ih =>
    intro s0 hf h
    obtain ⟨t', i', o'⟩ := x
    simp only [add_all]
    by_cases hin : (t, i, o) ∈ E
    · exact ih _ (fun o1 o2 h1 h2 => hf o1 o2 (List.mem_cons_of_mem _ h1)
        (List.mem_cons_of_mem _ h2)) hin
    · have hx : (t, i, o) = (t', i', o') := by
        rcases List.mem_cons.mp h with h | h
        · exact h
        · exact absurd h hin
      simp only [Prod.mk.injEq] at hx
      obtain ⟨h1, h2, h3⟩ := hx
      subst h1; subst h2; subst h3
      have hnone : ∀ o2, (t, i, o2) ∉ E := by
        intro o2 ho2
        have := hf o2 o (List.mem_cons_of_mem _ ho2) (List.mem_cons_self _ _)
        rw [this] at ho2
        exact hin ho2
      rw [add_all_slot_not_mem t i E _ hnone, slot_at_add_utxo]
      simp

theorem slot_at_some_find {A : Type} (utxos : List (Str × List (PyObject A))) (t : Str)
    (i : Nat) (o : TransactionOutput A) (h : slot_at utxos t i = some o) :
    ∃ v, map_find utxos t = some v ∧ i < v.length ∧ v[i]? = some (some o) := by
  unfold slot_at at h
  cases hf : map_find utxos t with
  | none => rw [hf] at h; exact Option.noConfusion h
  | some v =>
    rw [hf] at h
    simp only [List.get?_eq_getElem?] at h
    cases hv : v[i]? with
    | none => rw [hv] at h; exact Option.noConfusion h
    | some x =>
      rw [hv] at h
      have hx : x = some o := by simpa [Option.join] using h
      have hi : i < v.length := by
        by_contra hc
        rw [List.getElem?_eq_none (by omega)] at hv
        exact Option.noConfusion hv
      exact ⟨v, rfl, hi, by rw [hv, hx]⟩

theorem add_utxo_sizes_within {A : Type} (max_size : Nat) (s : UTXOSetCpp A) (t : Str)
    (i : Nat) (o : PyObject A) (hs : SizesWithin max_size s)
    (hc : i < ((map_find s.utxos t).getD []).length ∨ (i + 1 < 2 ^ 64 ∧ i + 1 ≤ max_size)) :
    SizesWithin max_size (add_utxo_state s t i o) := by
  intro t' v' hv'
  rw [add_utxo_utxos] at hv'
  cases hf : map_find s.utxos t with
  | none =>
    rw [hf] at hv' hc
    simp only [map_find_append_single] at hv'
    cases hf' : map_find s.utxos t' with
    | some x =>
      rw [hf'] at hv'
      simp only [Option.some.injEq] at hv'
      rw [← hv']
      exact hs t' x hf'
    | none =>
      rw [hf'] at hv'
      by_cases ht : t = t'
      · simp only [ht, if_true, Option.some.injEq] at hv'
        rw [← hv', slot_write_length]
        simp only [Option.getD_none, List.length_nil, Nat.not_lt_zero, false_or] at hc
        simp only [List.length_nil]
        omega
      · simp only [ht, if_false] at hv'
        exact Option.noConfusion hv'
  | some v =>
    rw [hf] at hv' hc
    simp only [map_find_map_store] at hv'
    by_cases ht : t' = t
    · subst ht
      simp only [if_true, hf, Option.map_some', Option.some.injEq] at hv'
      rw [← hv', slot_write_length]
      have hb := hs t' v hf
      simp only [Option.getD_some] at hc
      omega
    · simp only [ht, if_false] at hv'
      exact hs t' v' hv'

theorem spend_utxo_sizes_within {A : Type} (max_size : Nat) (s : UTXOSetCpp A) (t : Str)
    (i : Nat) (hs : SizesWithin max_size s) :
    SizesWithin max_size (spend_utxo s t i).1 := by
  intro t' v' hv'
  rw [spend_utxo_eq] at hv'
  cases hf : map_find s.utxos t with
  | none => rw [hf] at hv'; exact hs t' v' hv'
  | some v =>
    rw [hf] at hv'
    by_cases hlen : v.length ≤ i
    · simp only [hlen, if_true] at hv'
      exact hs t' v' hv'
    · simp only [hlen, if_false, map_find_map_store] at hv'
      by_cases ht : t' = t
      · subst ht
        simp only [if_true, hf, Option.map_some', Option.some.injEq] at hv'
        rw [← hv', List.length_set]
        exact hs t' v hf
      · simp only [ht, if_false] at hv'
        exact hs t' v' hv'

/-- What is kept along a sequence of `add_utxo` and `spend_utxo`: the keys of the map are
distinct, every output held satisfies `valid`, and the sizes of the vectors are within the
limit of `resize`. -/
theorem built_invariant {A : Type} (max_size : Nat) (valid : TransactionOutput A → Prop)
    (s : UTXOSetCpp A) (h : Built max_size valid s) :
    KeysDistinct s.utxos ∧ (∀ t i o, slot_at s.utxos t i = some o → valid o)
      ∧ SizesWithin max_size s := by
  induction h with
  | new =>
    refine ⟨by simp [KeysDistinct, UTXOSetCpp.new], ?_, ?_⟩
    · intro t i o h
      simp [slot_at, UTXOSetCpp.new, map_find] at h
    · intro t v h
      simp [UTXOSetCpp.new, map_find] at h
  | add s s1 t i o b _ hv hadd ih =>
    obtain ⟨hr, hc⟩ := add_utxo_some max_size s t i (some o) (s1, b) hadd
    have hs1 : s1 = add_utxo_state s t i (some o) := congrArg Prod.fst hr
    subst hs1
    refine ⟨add_utxo_keys_distinct s t i (some o) ih.1, ?_,
      add_utxo_sizes_within max_size s t i (some o) ih.2.2 hc⟩
    intro t' i' o' h
    rw [slot_at_add_utxo] at h
    by_cases hk : t' = t ∧ i' = i
    · rw [if_pos hk] at h
      simp only [Option.some.injEq] at h
      rw [← h]; exact hv
    · rw [if_neg hk] at h
      exact ih.2.1 t' i' o' h
  | spend s t i _ ih =>
    refine ⟨spend_utxo_keys_distinct s t i ih.1, ?_,
      spend_utxo_sizes_within max_size s t i ih.2.2⟩
    intro t' i' o' h
    rw [slot_at_spend_utxo] at h
    by_cases hk : t' = t ∧ i' = i
    · rw [if_pos hk] at h; simp at h
    · rw [if_neg hk] at h
      exact ih.2.1 t' i' o' h

/-- The restore of the export of `s` returns, and the slots of the ledger restored read as
the slots of `s`, when the keys of `s` are distinct, the records of its outputs read back
and the sizes of its vectors are within the limit of `resize`. -/
theorem slot_at_deserialize_serialize {A : Type} (max_size : Nat) (codec : AmountText A)
    (s s2 : UTXOSetCpp A) (hd : KeysDistinct s.utxos)
    (hv : ∀ t i o, slot_at s.utxos t i = some o → RecordValid codec o)
    (hs : SizesWithin max_size s) :
    ∃ r, deserialize_utxo_set max_size codec s2 (serialize_utxo_set codec s) = some r
      ∧ KeysDistinct r.utxos
      ∧ ∀ (t : Str) (i : Nat), slot_at r.utxos t i = slot_at s.utxos t i := by
  have hE : ∀ x ∈ unspent_tuples s, RecordValid codec x.2.2 := by
    rintro ⟨t', i', o'⟩ hx
    exact hv t' i' o' ((mem_unspent_tuples s hd t' i' o').mp hx)
  have hI : ∀ e ∈ (unspent_tuples s).map
      (fun x => (x.1, x.2.1, serialize_output codec (some x.2.2))),
      e.2.1 + 1 < 2 ^ 64 ∧ e.2.1 + 1 ≤ max_size := by
    intro e he
    obtain ⟨⟨t', i', o'⟩, hx, rfl⟩ := List.mem_map.mp he
    obtain ⟨v, hf, hi, _⟩ := slot_at_some_find s.utxos t' i' o'
      ((mem_unspent_tuples s hd t' i' o').mp hx)
    have hb := hs t' v hf
    simp only
    omega
  refine ⟨add_all { s2 with utxos := [] } (unspent_tuples s), ?_, ?_, ?_⟩
  · rw [deserialize_utxo_set, serialize_utxo_set_eq_map,
      deserialize_entries_eq_restore max_size codec _ _ hI,
      restore_entries_eq_add_all codec _ _ hE]
  · exact add_all_keys_distinct _ _ (by simp [KeysDistinct])
  · intro t i
    cases hs : slot_at s.utxos t i with
    | none =>
      rw [add_all_slot_not_mem t i]
      · simp [slot_at, map_find]
      · intro o ho
        rw [mem_unspent_tuples s hd, hs] at ho
        simp at ho
    | some o =>
      apply add_all_slot_mem t i o
      · intro o1 o2 h1 h2
        rw [mem_unspent_tuples s hd] at h1 h2
        rw [h1] at h2
        exact Option.some.inj h2
      · exact (mem_unspent_tuples s hd t i o).mpr hs

/-- C2, amended: for a ledger built by `add_utxo` and `spend_utxo` from outputs whose
recipient has no `|`, whose script is not empty and has no line break, and whose amount
text reads back exactly, restoring the export of the ledger (into any ledger) returns and
gives the same set of unspent (transaction id, index, output) tuples. -/
theorem deserialize_serialize_utxo_set {A : Type} (max_size : Nat) (codec : AmountText A)
    (s s2 : UTXOSetCpp A) (h : Built max_size (RecordValid codec) s) :
    ∃ r, deserialize_utxo_set max_size codec s2 (serialize_utxo_set codec s) = some r
      ∧ ∀ x, x ∈ unspent_tuples r ↔ x ∈ unspent_tuples s := by
  obtain ⟨hd, hv, hs⟩ := built_invariant max_size _ s h
  obtain ⟨r, hr, hd2, hslot⟩ := slot_at_deserialize_serialize max_size codec s s2 hd hv hs
  refine ⟨r, hr, ?_⟩
  rintro ⟨t, i, o⟩
  rw [mem_unspent_tuples r hd2, mem_unspent_tuples s hd, hslot]

theorem natAmountText_exact_5 : AmountExact natAmountText 5 :=
  ⟨by decide, fun _ => rfl⟩

theorem natAmountText_exact_70 : AmountExact natAmountText 70 :=
  ⟨by decide, fun _ => rfl⟩

/-- The calls that give `ledger_sample`, each returning true. -/
theorem ledger_sample_calls :
    add_utxo max_size_sample (UTXOSetCpp.new Nat) "t".toList 0
        (some ⟨"alice".toList, 5, "sig".toList⟩)
      = some ({ utxos := [("t".toList, [some ⟨"alice".toList, 5, "sig".toList⟩])],
                used_nonces := [] }, true)
    ∧ add_utxo max_size_sample
        { utxos := [("t".toList, [some ⟨"alice".toList, 5, "sig".toList⟩])],
          used_nonces := [] }
        "t".toList 2 (some ⟨"bob".toList, 70, "x".toList⟩)
      = some ({ utxos := [("t".toList, [some ⟨"alice".toList, 5, "sig".toList⟩, none,
                  some ⟨"bob".toList, 70, "x".toList⟩])],
                used_nonces := [] }, true)
    ∧ spend_utxo
        { utxos := [("t".toList, [some ⟨"alice".toList, 5, "sig".toList⟩, none,
            some ⟨"bob".toList, 70, "x".toList⟩])],
          used_nonces := [] }
        "t".toList 0
      = (ledger_sample, true) := by
  decide

theorem ledger_sample_built : Built max_size_sample (RecordValid natAmountText) ledger_sample := by
  obtain ⟨h1, h2, h3⟩ := ledger_sample_calls
  have v1 : RecordValid natAmountText ⟨"alice".toList, 5, "sig".toList⟩ :=
    ⟨by decide, by decide, by decide, natAmountText_exact_5⟩
  have v2 : RecordValid natAmountText ⟨"bob".toList, 70, "x".toList⟩ :=
    ⟨by decide, by decide, by decide, natAmountText_exact_70⟩
  have b1 : Built max_size_sample (RecordValid natAmountText) _ :=
    Built.add _ _ _ _ _ _ Built.new v1 h1
  have b2 : Built max_size_sample (RecordValid natAmountText) _ :=
    Built.add _ _ _ _ _ _ b1 v2 h2
  have b3 := Built.spend _ "t".toList 0 b2
  rw [h3] at b3
  exact b3

theorem deserialize_serialize_utxo_set_witness :
    Built max_size_sample (RecordValid natAmountText) ledger_sample
      ∧ ∃ r, deserialize_utxo_set max_size_sample natAmountText (UTXOSetCpp.new Nat)
            (serialize_utxo_set natAmountText ledger_sample) = some r
          ∧ ∀ x, x ∈ unspent_tuples r ↔ x ∈ unspent_tuples ledger_sample :=
  ⟨ledger_sample_built,
    deserialize_serialize_utxo_set max_size_sample natAmountText ledger_sample _
      ledger_sample_built⟩

/-- C2 as stated fails: a ledger built from an output with an exact amount whose recipient
contains `|`, or whose script is empty, exports a record that does not read back, and the
restored ledger has no unspent tuple. -/
theorem deserialize_serialize_utxo_set_loses_output :
    (Built max_size_sample (ClaimedValid natAmountText) ledger_recipient_bar
      ∧ serialize_utxo_set natAmountText ledger_recipient_bar
          = [("t".toList, 0, "a|b|5|s".toList)]
      ∧ deserialize_utxo_set max_size_sample natAmountText (UTXOSetCpp.new Nat)
            (serialize_utxo_set natAmountText ledger_recipient_bar)
          = some (UTXOSetCpp.new Nat)
      ∧ ¬ ∀ x, x ∈ unspent_tuples (UTXOSetCpp.new Nat)
          ↔ x ∈ unspent_tuples ledger_recipient_bar)
    ∧ (Built max_size_sample (ClaimedValid natAmountText) ledger_empty_script
      ∧ serialize_utxo_set natAmountText ledger_empty_script
          = [("t".toList, 0, "r|5|".toList)]
      ∧ deserialize_utxo_set max_size_sample natAmountText (UTXOSetCpp.new Nat)
            (serialize_utxo_set natAmountText ledger_empty_script)
          = some (UTXOSetCpp.new Nat)
      ∧ ¬ ∀ x, x ∈ unspent_tuples (UTXOSetCpp.new Nat)
          ↔ x ∈ unspent_tuples ledger_empty_script) := by
  have a1 : add_utxo max_size_sample (UTXOSetCpp.new Nat) "t".toList 0
      (some ⟨"a|b".toList, 5, "s".toList⟩) = some (ledger_recipient_bar, true) := by decide
  have a2 : add_utxo max_size_sample (UTXOSetCpp.new Nat) "t".toList 0
      (some ⟨"r".toList, 5, []⟩) = some (ledger_empty_script, true) := by decide
  have v1 : ClaimedValid natAmountText ⟨"a|b".toList, 5, "s".toList⟩ := natAmountText_exact_5
  have v2 : ClaimedValid natAmountText ⟨"r".toList, 5, []⟩ := natAmountText_exact_5
  refine ⟨⟨Built.add _ _ _ _ _ _ Built.new v1 a1, by decide, by decide, ?_⟩,
    ⟨Built.add _ _ _ _ _ _ Built.new v2 a2, by decide, by decide, ?_⟩⟩
  · intro h
    have h1 := (h ("t".toList, 0, ⟨"a|b".toList, 5, "s".toList⟩)).mpr (by decide)
    revert h1
    decide
  · intro h
    have h1 := (h ("t".toList, 0, ⟨"r".toList, 5, []⟩)).mpr (by decide)
    revert h1
    decide

/-! ## Ledger operations: spend, add, lookup of unknown keys -/

/-- C11: when the slot of the key `(t, i)` holds an output, `spend_utxo(t, i)` returns true,
afterwards `get_utxo(t, i)` is absent, and `get_utxo` of every other key returns what it
returned before. -/
theorem spend_utxo_present {A : Type} (s : UTXOSetCpp A) (t : Str) (i : Nat)
    (o : TransactionOutput A) (h : (get_utxo s t i).2 = some o) :
    (spend_utxo s t i).2 = true
      ∧ (get_utxo (spend_utxo s t i).1 t i).2 = none
      ∧ ∀ (t' : Str) (i' : Nat), (t', i') ≠ (t, i) →
          (get_utxo (spend_utxo s t i).1 t' i').2 = (get_utxo s t' i').2 := by
  rw [get_utxo_eq] at h
  obtain ⟨v, hf, hi, _⟩ := slot_at_some_find s.utxos t i o h
  refine ⟨by rw [spend_utxo_of_slot s t i v hf hi], ?_, ?_⟩
  · rw [get_utxo_eq]
    simp only [slot_at_spend_utxo, and_self, if_true]
  · intro t' i' hne
    rw [get_utxo_eq, get_utxo_eq]
    simp only [slot_at_spend_utxo]
    have : ¬ (t' = t ∧ i' = i) := by
      rintro ⟨h1, h2⟩
      exact hne (by rw [h1, h2])
    rw [if_neg this]

theorem spend_utxo_present_witness :
    (get_utxo ledger_sample "t".toList 2).2 = some ⟨"bob".toList, 70, "x".toList⟩
      ∧ (spend_utxo ledger_sample "t".toList 2).2 = true
      ∧ (get_utxo (spend_utxo ledger_sample "t".toList 2).1 "t".toList 2).2 = none :=
  ⟨by decide,
    (spend_utxo_present ledger_sample "t".toList 2 ⟨"bob".toList, 70, "x".toList⟩
      (by decide)).1,
    (spend_utxo_present ledger_sample "t".toList 2 ⟨"bob".toList, 70, "x".toList⟩
      (by decide)).2.1⟩

/-- C13 as stated fails: at the index `2^64 - 1` the size `output_index + 1` is 0 in
`size_t`, so the vector of the transaction is resized to no slot at all and the write is out
of its bounds, whatever the limit of `resize`; and at an index for which the vector cannot
be had `resize` throws. In both cases `add_utxo` does not return true. -/
theorem add_utxo_index_wraps :
    (2 ^ 64 - 1 + 1) % 2 ^ 64 = 0
      ∧ vector_resize [none, none, some (⟨"bob".toList, 70, "x".toList⟩ : TransactionOutput Nat)]
          0 none = []
      ∧ (∀ max_size : Nat,
          add_utxo max_size ledger_sample "t".toList (2 ^ 64 - 1)
            (some ⟨"r".toList, 5, "s".toList⟩) = none)
      ∧ add_utxo max_size_sample ledger_sample "t".toList max_size_sample
          (some ⟨"r".toList, 5, "s".toList⟩) = none := by
  refine ⟨by decide, by decide, ?_, by decide⟩
  intro max_size
  rw [add_utxo_eq, if_neg]
  rintro (h | ⟨h, _⟩)
  · revert h; decide
  · revert h; decide

/-- C13, amended: when the vector of `i + 1` slots can be had, that is `i + 1` is a
`size_t` value within the limit of `resize`, `add_utxo(t, i, out)` returns true, afterwards
`get_utxo(t, i)` is `out`, and `get_utxo` of every other key returns what it returned
before: the slots created below `i` read as absent, as they did when they were out of
range, and no slot is altered. -/
theorem add_utxo_frame {A : Type} (max_size : Nat) (s : UTXOSetCpp A) (t : Str) (i : Nat)
    (out : TransactionOutput A) (h64 : i + 1 < 2 ^ 64) (hM : i + 1 ≤ max_size) :
    ∃ s1, add_utxo max_size s t i (some out) = some (s1, true)
      ∧ (get_utxo s1 t i).2 = some out
      ∧ ∀ (t' : Str) (i' : Nat), (t', i') ≠ (t, i) →
          (get_utxo s1 t' i').2 = (get_utxo s t' i').2 := by
  refine ⟨add_utxo_state s t i (some out), add_utxo_of_le max_size s t i _ h64 hM, ?_, ?_⟩
  · rw [get_utxo_eq]
    simp only [slot_at_add_utxo, and_self, if_true]
  · intro t' i' hne
    rw [get_utxo_eq, get_utxo_eq]
    simp only [slot_at_add_utxo]
    have : ¬ (t' = t ∧ i' = i) := by
      rintro ⟨h1, h2⟩
      exact hne (by rw [h1, h2])
    rw [if_neg this]

theorem add_utxo_frame_witness :
    3 + 1 < 2 ^ 64 ∧ 3 + 1 ≤ max_size_sample
      ∧ ∃ s1, add_utxo max_size_sample ledger_sample "t".toList 3
            (some ⟨"r".toList, 5, "s".toList⟩) = some (s1, true)
          ∧ (get_utxo s1 "t".toList 3).2 = some ⟨"r".toList, 5, "s".toList⟩
          ∧ ∀ (t' : Str) (i' : Nat), (t', i') ≠ ("t".toList, 3) →
              (get_utxo s1 t' i').2 = (get_utxo ledger_sample t' i').2 :=
  ⟨by decide, by decide,
    add_utxo_frame max_size_sample ledger_sample "t".toList 3 ⟨"r".toList, 5, "s".toList⟩
      (by decide) (by decide)⟩

/-- C14: for a transaction id that is not known, or an index at or beyond the length of
the output list of the transaction, `get_utxo` returns absent, `spend_utxo` returns false,
and both leave the state as it was: no entry is created and no list is resized. -/
theorem unknown_key_no_effect {A : Type} (s : UTXOSetCpp A) (t : Str) (i : Nat)
    (h : ∀ v, map_find s.utxos t = some v → v.length ≤ i) :
    get_utxo s t i = (s, none) ∧ spend_utxo s t i = (s, false) := by
  constructor
  · rw [get_utxo_eq]
    cases hf : map_find s.utxos t with
    | none => simp only [slot_at, hf]
    | some v =>
      have hl := h v hf
      simp only [slot_at, hf, List.get?_eq_getElem?]
      rw [List.getElem?_eq_none hl]
      rfl
  · rw [spend_utxo_eq]
    cases hf : map_find s.utxos t with
    | none => rfl
    | some v =>
      have hl := h v hf
      simp only [hl, if_true]

theorem unknown_key_no_effect_witness :
    (∀ v, map_find ledger_sample.utxos "t".toList = some v → v.length ≤ 3)
      ∧ (∀ v, map_find ledger_sample.utxos "u".toList = some v → v.length ≤ 0)
      ∧ (get_utxo ledger_sample "t".toList 3).2 = none
      ∧ (spend_utxo ledger_sample "u".toList 0).2 = false :=
  have h1 : ∀ v, map_find ledger_sample.utxos "t".toList = some v → v.length ≤ 3 := by
    intro v hv
    have e : map_find ledger_sample.utxos "t".toList
        = some [none, none, some ⟨"bob".toList, 70, "x".toList⟩] := by decide
    rw [e] at hv
    rw [← Option.some.inj hv]
    decide
  have h2 : ∀ v, map_find ledger_sample.utxos "u".toList = some v → v.length ≤ 0 := by
    intro v hv
    have e : map_find ledger_sample.utxos "u".toList = none := by decide
    rw [e] at hv
    exact Option.noConfusion hv
  ⟨h1, h2,
    by rw [(unknown_key_no_effect ledger_sample "t".toList 3 h1).1],
    by rw [(unknown_key_no_effect ledger_sample "u".toList 0 h2).2]⟩

theorem count_outputs_set_none {A : Type} (o : TransactionOutput A) :
    ∀ (v : List (PyObject A)) (i : Nat), v[i]? = some (some o) →
      count_outputs (v.set i none) + 1 = count_outputs v := by
  intro v
  induction v with
  | nil => intro i h; simp at h
  | cons x rest ih =>
    intro i h
    cases i with
    | zero =>
      simp only [List.getElem?_cons_zero, Option.some.injEq] at h
      subst h
      simp only [List.set_cons_zero, count_outputs, Option.isSome_none, Option.isSome_some,
        Bool.false_eq_true, if_false, if_true]
      omega
    | succ k =>
      simp only [List.getElem?_cons_succ] at h
      simp only [List.set_cons_succ, count_outputs]
      have := ih k h
      omega

theorem map_find_none_of_not_mem_keys {V : Type} (m : List (Str × V)) (k : Str)
    (h : k ∉ m.map Prod.fst) : map_find m k = none := by
  induction m with
  | nil => rfl
  | cons e m ih =>
    obtain ⟨a, b⟩ := e
    simp only [List.map_cons, List.mem_cons, not_or] at h
    rw [map_find_cons, if_neg (fun e => h.1 e.symm)]
    exact ih h.2

/-- The count of a map in which the vector of one transaction is replaced. -/
theorem count_map_store {A : Type} (t : Str) (v w : List (PyObject A)) :
    ∀ (m : List (Str × List (PyObject A))), KeysDistinct m → map_find m t = some v →
      ((map_store m t w).map (fun entry => count_outputs entry.2)).sum + count_outputs v
        = (m.map (fun entry => count_outputs entry.2)).sum + count_outputs w := by
  intro m
  induction m with
  | nil => intro _ h; exact Option.noConfusion h
  | cons e m ih =>
    intro hd hf
    obtain ⟨a, b⟩ := e
    simp only [KeysDistinct, List.map_cons, List.nodup_cons] at hd
    rw [map_find_cons] at hf
    rw [map_store_cons]
    by_cases hk : a = t
    · rw [if_pos hk] at hf
      rw [if_pos hk]
      have hb : b = v := Option.some.inj hf
      subst hb
      have hnone : map_find m t = none :=
        map_find_none_of_not_mem_keys m t (by rw [← hk]; exact hd.1)
      rw [map_store_of_find_none m t w hnone]
      simp only [List.map_cons, List.sum_cons]
      omega
    · rw [if_neg hk] at hf
      rw [if_neg hk]
      have := ih hd.2 hf
      simp only [List.map_cons, List.sum_cons]
      omega

/-- C12: when the slot of the key `(t, i)` holds an output, `utxo_count()` after
`spend_utxo(t, i)` is `utxo_count()` before, minus one. The keys of the map are distinct, as
they are in every `std::unordered_map`. -/
theorem utxo_count_spend_utxo {A : Type} (s : UTXOSetCpp A) (t : Str) (i : Nat)
    (o : TransactionOutput A) (hd : KeysDistinct s.utxos)
    (h : (get_utxo s t i).2 = some o) :
    utxo_count (spend_utxo s t i).1 = utxo_count s - 1 ∧ 1 ≤ utxo_count s := by
  rw [get_utxo_eq] at h
  obtain ⟨v, hf, hi, hv⟩ := slot_at_some_find s.utxos t i o h
  rw [spend_utxo_of_slot s t i v hf hi]
  have h1 := count_map_store t v (v.set i none) s.utxos hd hf
  have h2 := count_outputs_set_none o v i hv
  simp only [utxo_count]
  omega

theorem utxo_count_spend_utxo_witness :
    KeysDistinct ledger_sample.utxos
      ∧ (get_utxo ledger_sample "t".toList 2).2 = some ⟨"bob".toList, 70, "x".toList⟩
      ∧ utxo_count ledger_sample = 1
      ∧ utxo_count (spend_utxo ledger_sample "t".toList 2).1 = utxo_count ledger_sample - 1 :=
  have hd : KeysDistinct ledger_sample.utxos := by
    unfold KeysDistinct
    decide
  ⟨hd, by decide, by decide,
    (utxo_count_spend_utxo ledger_sample "t".toList 2 ⟨"bob".toList, 70, "x".toList⟩ hd
      (by decide)).1⟩

/-! ## Consumed nonces: proofs -/

theorem is_nonce_used_eq {A : Type} (s : UTXOSetCpp A) (a : Str) (n : Nat) :
    is_nonce_used s a n
      = (s, match map_find s.used_nonces a with
            | none => false
            | some set => decide (n ∈ set)) := by
  cases hf : map_find s.used_nonces a with
  | none => simp [is_nonce_used, hf]
  | some set =>
    simp only [is_nonce_used, hf, Option.isNone_some, Bool.false_eq_true, if_false,
      map_subscript_of_some _ _ _ _ hf]

theorem add_nonce_used_nonces {A : Type} (s : UTXOSetCpp A) (a : Str) (n : Nat) :
    (add_nonce s a n).used_nonces
      = match map_find s.used_nonces a with
        | none => s.used_nonces ++ [(a, [n])]
        | some set => map_store s.used_nonces a (set_insert set n) := by
  cases hf : map_find s.used_nonces a with
  | none =>
    simp only [add_nonce, map_subscript_of_none _ _ _ hf, map_store_append_new _ _ _ _ hf]
    rfl
  | some set => simp only [add_nonce, map_subscript_of_some _ _ _ _ hf]

theorem mem_set_insert (set : List Nat) (n n' : Nat) :
    n' ∈ set_insert set n ↔ n' = n ∨ n' ∈ set := by
  unfold set_insert
  by_cases h : n ∈ set
  · rw [if_pos h]
    constructor
    · exact Or.inr
    · rintro (e | e)
      · rw [e]; exact h
      · exact e
  · rw [if_neg h]
    simp only [List.mem_append, List.mem_singleton]
    exact Or.comm

theorem set_insert_idem (set : List Nat) (n : Nat) :
    set_insert (set_insert set n) n = set_insert set n := by
  have h : n ∈ set_insert set n := (mem_set_insert set n n).mpr (Or.inl rfl)
  conv_lhs => rw [set_insert, if_pos h]

theorem map_find_add_nonce {A : Type} (s : UTXOSetCpp A) (a a' : Str) (n : Nat) :
    map_find (add_nonce s a n).used_nonces a'
      = if a' = a then
          some (set_insert ((map_find s.used_nonces a).getD []) n)
        else map_find s.used_nonces a' := by
  rw [add_nonce_used_nonces]
  cases hf : map_find s.used_nonces a with
  | none =>
    simp only [map_find_append_single, Option.getD_none]
    by_cases h : a' = a
    · subst h
      simp [hf, set_insert]
    · have h' : ¬ (a = a') := fun e => h e.symm
      simp only [h, h', if_false]
      cases map_find s.used_nonces a' <;> rfl
  | some set =>
    simp only [map_find_map_store, Option.getD_some]
    by_cases h : a' = a
    · subst h
      simp [hf]
    · simp only [h, if_false]

/-- C15: after `add_nonce(a, n)`, `is_nonce_used(a, n)` is true, `is_nonce_used` of every
other pair returns what it returned before, and a second `add_nonce(a, n)` leaves the state
that the first call left. -/
theorem add_nonce_spec {A : Type} (s : UTXOSetCpp A) (a : Str) (n : Nat) :
    (is_nonce_used (add_nonce s a n) a n).2 = true
      ∧ (∀ (a' : Str) (n' : Nat), (a', n') ≠ (a, n) →
          (is_nonce_used (add_nonce s a n) a' n').2 = (is_nonce_used s a' n').2)
      ∧ add_nonce (add_nonce s a n) a n = add_nonce s a n := by
  refine ⟨?_, ?_, ?_⟩
  · rw [is_nonce_used_eq]
    simp only [map_find_add_nonce, if_true]
    exact decide_eq_true ((mem_set_insert _ n n).mpr (Or.inl rfl))
  · intro a' n' hne
    rw [is_nonce_used_eq, is_nonce_used_eq]
    simp only [map_find_add_nonce]
    by_cases h : a' = a
    · subst h
      have hn : n' ≠ n := fun e => hne (by rw [e])
      simp only [if_true]
      cases hf : map_find s.used_nonces a' with
      | none =>
        simp only [Option.getD_none]
        have : ¬ (n' ∈ set_insert [] n) := by
          rw [mem_set_insert]
          simp [hn]
        exact decide_eq_false this
      | some set =>
        simp only [Option.getD_some]
        have : (n' ∈ set_insert set n) ↔ n' ∈ set := by
          rw [mem_set_insert]
          simp [hn]
        exact decide_eq_decide.mpr this
    · simp only [h, if_false]
  · have hu : (add_nonce (add_nonce s a n) a n).used_nonces
        = (add_nonce s a n).used_nonces := by
      have hfind := map_find_add_nonce s a a n
      simp only [if_true] at hfind
      conv_lhs => rw [add_nonce_used_nonces, hfind]
      simp only [set_insert_idem]
      rw [add_nonce_used_nonces]
      cases hf : map_find s.used_nonces a with
      | none =>
        simp only [Option.getD_none]
        have : set_insert [] n = [n] := rfl
        rw [this, map_store_append_new _ _ _ _ hf]
      | some set =>
        simp only [Option.getD_some, map_store_map_store]
    have h1 : (add_nonce (add_nonce s a n) a n).utxos = (add_nonce s a n).utxos := rfl
    cases hs1 : add_nonce (add_nonce s a n) a n with
    | mk u1 n1 =>
      cases hs2 : add_nonce s a n with
      | mk u2 n2 =>
        rw [hs1, hs2] at hu h1
        simp only at hu h1
        rw [hu, h1]

/-! ## Restore from records: proofs -/

theorem create_output_from_serialized_eq {A : Type} (codec : AmountText A) (data : Str) :
    create_output_from_serialized codec data = TransactionOutput.deserialize codec data := by
  unfold create_output_from_serialized
  cases TransactionOutput.deserialize codec data <;> rfl

theorem slot_at_restore_entries {A : Type} (codec : AmountText A) (t : Str) (i : Nat) :
    ∀ (entries : List (Str × Nat × Str)) (s0 : UTXOSetCpp A),
      slot_at (restore_entries codec s0 entries).utxos t i
        = last_read codec t i (slot_at s0.utxos t i) entries := by
  intro entries
  induction entries with
  | nil => intro s0; rfl
  | cons e rest ih =>
    intro s0
    obtain ⟨t', i', rec⟩ := e
    simp only [restore_entries, create_output_from_serialized_eq, last_read,
      List.foldl_cons]
    cases hp : TransactionOutput.deserialize codec rec with
    | none =>
      simp only [Option.isSome_none, Bool.false_eq_true, if_false, ite_self]
      exact ih s0
    | some o =>
      simp only [Option.isSome_some, if_true]
      rw [ih, slot_at_add_utxo, last_read]
      by_cases hk : t = t' ∧ i = i'
      · have hk' : t' = t ∧ i' = i := ⟨hk.1.symm, hk.2.symm⟩
        rw [if_pos hk, if_pos hk']
      · have hk' : ¬ (t' = t ∧ i' = i) := fun h => hk ⟨h.1.symm, h.2.symm⟩
        rw [if_neg hk, if_neg hk']

theorem restore_entries_used_nonces {A : Type} (codec : AmountText A) :
    ∀ (entries : List (Str × Nat × Str)) (s0 : UTXOSetCpp A),
      (restore_entries codec s0 entries).used_nonces = s0.used_nonces := by
  intro entries
  induction entries with
  | nil => intro s0; rfl
  | cons e rest ih =>
    intro s0
    obtain ⟨t, i, rec⟩ := e
    simp only [restore_entries]
    by_cases hp : (create_output_from_serialized codec rec).isSome = true
    · rw [if_pos hp, ih]
      rfl
    · rw [if_neg hp, ih]

theorem last_read_of_none {A : Type} (codec : AmountText A) (t : Str) (i : Nat) :
    ∀ (entries : List (Str × Nat × Str)) (slot : PyObject A),
      (∀ e ∈ entries, e.1 = t → e.2.1 = i → TransactionOutput.deserialize codec e.2.2 = none) →
      last_read codec t i slot entries = slot := by
  intro entries
  induction entries with
  | nil => intro slot _; rfl
  | cons e rest ih =>
    intro slot h
    simp only [last_read, List.foldl_cons]
    have hrest := ih slot (fun x hx => h x (List.mem_cons_of_mem _ hx))
    by_cases hk : e.1 = t ∧ e.2.1 = i
    · rw [if_pos hk, h e (List.mem_cons_self _ _) hk.1 hk.2]
      exact hrest
    · rw [if_neg hk]
      exact hrest

theorem last_read_append {A : Type} (codec : AmountText A) (t : Str) (i : Nat)
    (slot : PyObject A) (pre post : List (Str × Nat × Str)) :
    last_read codec t i slot (pre ++ post)
      = last_read codec t i (last_read codec t i slot pre) post := by
  simp only [last_read, List.foldl_append]

theorem last_read_isSome {A : Type} (codec : AmountText A) (t : Str) (i : Nat) :
    ∀ (entries : List (Str × Nat × Str)) (slot : PyObject A),
      (last_read codec t i slot entries).isSome = true
        ↔ slot.isSome = true ∨ ∃ e ∈ entries, e.1 = t ∧ e.2.1 = i
            ∧ (TransactionOutput.deserialize codec e.2.2).isSome = true := by
  intro entries
  induction entries with
  | nil => intro slot; simp [last_read]
  | cons e rest ih =>
    intro slot
    simp only [last_read, List.foldl_cons] at ih ⊢
    rw [ih]
    by_cases hk : e.1 = t ∧ e.2.1 = i
    · rw [if_pos hk]
      cases hp : TransactionOutput.deserialize codec e.2.2 with
      | none =>
        simp only [List.mem_cons, exists_eq_or_imp, hp, Option.isSome_none,
          Bool.false_eq_true, and_false, false_or]
      | some o =>
        simp only [Option.isSome_some, true_or, List.mem_cons, exists_eq_or_imp, hp, hk,
          and_self, or_true]
    · rw [if_neg hk]
      constructor
      · rintro (h | ⟨x, hx, h⟩)
        · exact Or.inl h
        · exact Or.inr ⟨x, List.mem_cons_of_mem _ hx, h⟩
      · rintro (h | ⟨x, hx, h1, h2, h3⟩)
        · exact Or.inl h
        · rcases List.mem_cons.mp hx with e1 | e1
          · subst e1; exact absurd ⟨h1, h2⟩ hk
          · exact Or.inr ⟨x, e1, h1, h2, h3⟩

/-- The reader `TransactionOutput::deserialize` reads a record as the amended format says,
when the character that `ss.ignore()` drops, if the reader gets that far, is the
delimiter. -/
theorem deserialize_eq_format {A : Type} (codec : AmountText A) (data : Str)
    (h : ignored_char codec data = none ∨ ignored_char codec data = some '|') :
    TransactionOutput.deserialize codec data = record_format_amended codec data := by
  unfold TransactionOutput.deserialize record_format_amended
  unfold ignored_char at h
  cases hd : data.dropWhile (fun c => c != '|') with
  | nil =>
    simp only [getline, Bool.or_self, Bool.false_eq_true, if_false, hd, extract_amount,
      Bool.true_or, if_true]
    split <;> rfl
  | cons bar rest =>
    rw [hd] at h
    dsimp only at h
    simp only [getline, Bool.or_self, Bool.false_eq_true, if_false, hd, extract_amount]
    cases hw : rest.dropWhile isspace with
    | nil => simp
    | cons c cs =>
      rw [hw] at h
      dsimp only at h
      simp only
      cases hg : codec.get (c :: cs) with
      | none => simp
      | some p =>
        obtain ⟨a, rest2⟩ := p
        rw [hg] at h
        cases rest2 with
        | nil => simp [ignore, getline]
        | cons d rest3 =>
          have hdel : d = '|' := by
            rcases h with h | h
            · exact Option.noConfusion h
            · exact Option.some.inj h
          subst hdel
          cases rest3 with
          | nil => simp [ignore, getline]
          | cons x xs =>
            simp only [List.isEmpty_cons, Bool.false_eq_true, if_false, ignore, Bool.or_self,
              getline]
            cases hx : (x :: xs).dropWhile (fun c => c != '\n') with
            | nil => simp
            | cons y ys => simp

/-- C16 as stated fails. An entry whose index is `2^64 - 1` stops the restore, whatever the
limit of `resize`: `add_utxo` does not return, and the loop has no handler for that. And
the reader does not read every record of the form `recipient '|' amount '|' script`: a
record whose script is empty is skipped, and a script is cut at its first line break. -/
theorem deserialize_utxo_set_format_differs :
    (∀ max_size : Nat,
        deserialize_utxo_set max_size natAmountText (UTXOSetCpp.new Nat)
          [("t".toList, 2 ^ 64 - 1, "r|5|s".toList)] = none)
      ∧ record_format_spec natAmountText "r|5|".toList = some ⟨"r".toList, 5, []⟩
      ∧ deserialize_utxo_set max_size_sample natAmountText (UTXOSetCpp.new Nat)
            [("t".toList, 0, "r|5|".toList)]
          = some (UTXOSetCpp.new Nat)
      ∧ (get_utxo (UTXOSetCpp.new Nat) "t".toList 0).2 = none
      ∧ record_format_spec natAmountText "r|5|s\nx".toList
          = some ⟨"r".toList, 5, "s\nx".toList⟩
      ∧ deserialize_utxo_set max_size_sample natAmountText (UTXOSetCpp.new Nat)
            [("t".toList, 0, "r|5|s\nx".toList)]
          = some ledger_one_output
      ∧ (get_utxo ledger_one_output "t".toList 0).2 = some ⟨"r".toList, 5, "s".toList⟩ := by
  refine ⟨?_, by decide, by decide, by decide, by decide, by decide, by decide⟩
  intro max_size
  have hp : (create_output_from_serialized natAmountText "r|5|s".toList).isSome = true := by
    decide
  have hadd : add_utxo max_size { UTXOSetCpp.new Nat with utxos := [] } "t".toList (2 ^ 64 - 1)
      (create_output_from_serialized natAmountText "r|5|s".toList) = none := by
    rw [add_utxo_eq, if_neg]
    rintro (h | ⟨h, _⟩)
    · revert h; decide
    · revert h; decide
  simp only [deserialize_utxo_set, deserialize_entries, hp, if_true, hadd]

/-- The records that the amended claim leaves out: the record `r|5#s` has one `|` only, and
in the record `r|5#7|s` the amount field `5#7` is not a number; both are restored, while
the record `r|5|s` is read as the format says: after the digits at the head of the amount
field the reader drops one character without testing that it is the delimiter. -/
theorem deserialize_utxo_set_reads_malformed :
    record_format_spec natAmountText "r|5|s".toList = some ⟨"r".toList, 5, "s".toList⟩
      ∧ TransactionOutput.deserialize natAmountText "r|5|s".toList
          = some ⟨"r".toList, 5, "s".toList⟩
      ∧ ignored_char natAmountText "r|5|s".toList = some '|'
      ∧ record_format_spec natAmountText "r|5#s".toList = none
      ∧ ignored_char natAmountText "r|5#s".toList = some '#'
      ∧ TransactionOutput.deserialize natAmountText "r|5#s".toList
          = some ⟨"r".toList, 5, "s".toList⟩
      ∧ deserialize_utxo_set max_size_sample natAmountText (UTXOSetCpp.new Nat)
            [("t".toList, 0, "r|5#s".toList)]
          = some ledger_one_output
      ∧ (get_utxo ledger_one_output "t".toList 0).2 = some ⟨"r".toList, 5, "s".toList⟩
      ∧ record_format_spec natAmountText "r|5#7|s".toList = none
      ∧ deserialize_utxo_set max_size_sample natAmountText (UTXOSetCpp.new Nat)
            [("t".toList, 0, "r|5#7|s".toList)]
          = some { utxos := [("t".toList, [some ⟨"r".toList, 5, "7|s".toList⟩])],
                   used_nonces := [] } := by
  decide

/-- What the restore leaves, in terms of the reader, when the vector of `output_index + 1`
slots can be had for the index of every entry: the call returns; whatever the ledger held,
the slot of a key then holds an output exactly when the reader reads the record of some
entry of that key, and it holds what the reader read from the last such entry. -/
theorem deserialize_utxo_set_reader {A : Type} (max_size : Nat) (codec : AmountText A)
    (s : UTXOSetCpp A) (entries : List (Str × Nat × Str))
    (hI : ∀ e ∈ entries, e.2.1 + 1 < 2 ^ 64 ∧ e.2.1 + 1 ≤ max_size) :
    ∃ r, deserialize_utxo_set max_size codec s entries = some r
      ∧ r.used_nonces = s.used_nonces
      ∧ ∀ (t : Str) (i : Nat),
        (((get_utxo r t i).2).isSome = true
            ↔ ∃ e ∈ entries, e.1 = t ∧ e.2.1 = i
                ∧ (TransactionOutput.deserialize codec e.2.2).isSome = true)
          ∧ (∀ (pre post : List (Str × Nat × Str)) (rec : Str) (o : TransactionOutput A),
              entries = pre ++ (t, i, rec) :: post →
              TransactionOutput.deserialize codec rec = some o →
              (∀ e ∈ post, e.1 = t → e.2.1 = i →
                TransactionOutput.deserialize codec e.2.2 = none) →
              (get_utxo r t i).2 = some o) := by
  refine ⟨restore_entries codec { s with utxos := [] } entries, ?_, ?_, ?_⟩
  · rw [deserialize_utxo_set, deserialize_entries_eq_restore max_size codec _ _ hI]
  · exact restore_entries_used_nonces codec entries _
  · intro t i
    have hslot : (get_utxo (restore_entries codec { s with utxos := [] } entries) t i).2
        = last_read codec t i none entries := by
      rw [get_utxo_eq, slot_at_restore_entries]
      rfl
    refine ⟨?_, ?_⟩
    · rw [hslot, last_read_isSome]
      simp
    · intro pre post rec o he hp hpost
      rw [hslot, he, last_read_append]
      have hmid : last_read codec t i (last_read codec t i none pre) ((t, i, rec) :: post)
          = last_read codec t i (some o) post := by
        simp only [last_read, List.foldl_cons, and_self, if_true, hp]
      rw [hmid]
      exact last_read_of_none codec t i post (some o) hpost

/-- C16, amended: for entries such that the vector of `index + 1` slots can be had for
every index, and such that in no record a character other than `|` follows the number read
after the first `|`: `deserialize_utxo_set` returns; the reader reads every record as the
amended format says; whatever the ledger held, afterwards `get_utxo(t, i)` is present
exactly when the record of some entry with the key `(t, i)` parses in that format, and it
is then the parse of the last such entry; hence the entries whose record does not parse are
skipped without effect on the others, and no output held before the call survives. -/
theorem deserialize_utxo_set_last_read {A : Type} (max_size : Nat) (codec : AmountText A)
    (s : UTXOSetCpp A) (entries : List (Str × Nat × Str))
    (hI : ∀ e ∈ entries, e.2.1 + 1 < 2 ^ 64 ∧ e.2.1 + 1 ≤ max_size)
    (hD : ∀ e ∈ entries,
      ignored_char codec e.2.2 = none ∨ ignored_char codec e.2.2 = some '|') :
    ∃ r, deserialize_utxo_set max_size codec s entries = some r
      ∧ (∀ e ∈ entries,
          TransactionOutput.deserialize codec e.2.2 = record_format_amended codec e.2.2)
      ∧ ∀ (t : Str) (i : Nat),
        (((get_utxo r t i).2).isSome = true
            ↔ ∃ e ∈ entries, e.1 = t ∧ e.2.1 = i
                ∧ (record_format_amended codec e.2.2).isSome = true)
          ∧ (∀ (pre post : List (Str × Nat × Str)) (rec : Str) (o : TransactionOutput A),
              entries = pre ++ (t, i, rec) :: post →
              record_format_amended codec rec = some o →
              (∀ e ∈ post, e.1 = t → e.2.1 = i →
                record_format_amended codec e.2.2 = none) →
              (get_utxo r t i).2 = some o) := by
  have hfmt : ∀ e ∈ entries,
      TransactionOutput.deserialize codec e.2.2 = record_format_amended codec e.2.2 :=
    fun e he => deserialize_eq_format codec e.2.2 (hD e he)
  obtain ⟨r, hr, _, hspec⟩ := deserialize_utxo_set_reader max_size codec s entries hI
  refine ⟨r, hr, hfmt, ?_⟩
  intro t i
  obtain ⟨h1, h2⟩ := hspec t i
  refine ⟨?_, ?_⟩
  · rw [h1]
    constructor
    · rintro ⟨e, he, ht, hi, hp⟩
      exact ⟨e, he, ht, hi, by rw [← hfmt e he]; exact hp⟩
    · rintro ⟨e, he, ht, hi, hp⟩
      exact ⟨e, he, ht, hi, by rw [hfmt e he]; exact hp⟩
  · intro pre post rec o he hp hpost
    have hmem : ∀ x ∈ post, x ∈ entries := by
      intro x hx
      rw [he]
      exact List.mem_append_right _ (List.mem_cons_of_mem _ hx)
    have hrec : (t, i, rec) ∈ entries := by
      rw [he]
      exact List.mem_append_right _ (List.mem_cons_self _ _)
    refine h2 pre post rec o he (by rw [hfmt _ hrec]; exact hp) ?_
    intro x hx ht hi
    rw [hfmt x (hmem x hx)]
    exact hpost x hx ht hi

theorem deserialize_utxo_set_last_read_witness :
    (∀ e ∈ ([("t".toList, 0, "a|1|x".toList), ("t".toList, 1, "b|2|y".toList),
          ("t".toList, 1, "broken".toList), ("u".toList, 1, "c|3|z".toList)] :
          List (Str × Nat × Str)), e.2.1 + 1 < 2 ^ 64 ∧ e.2.1 + 1 ≤ max_size_sample)
      ∧ (∀ e ∈ ([("t".toList, 0, "a|1|x".toList), ("t".toList, 1, "b|2|y".toList),
          ("t".toList, 1, "broken".toList), ("u".toList, 1, "c|3|z".toList)] :
          List (Str × Nat × Str)),
          ignored_char natAmountText e.2.2 = none ∨ ignored_char natAmountText e.2.2 = some '|')
      ∧ ∃ r, deserialize_utxo_set max_size_sample natAmountText ledger_sample
            [("t".toList, 0, "a|1|x".toList), ("t".toList, 1, "b|2|y".toList),
              ("t".toList, 1, "broken".toList), ("u".toList, 1, "c|3|z".toList)] = some r
          ∧ (get_utxo r "t".toList 1).2 = some ⟨"b".toList, 2, "y".toList⟩
          ∧ (get_utxo r "t".toList 2).2 = none :=
  have hI : ∀ e ∈ ([("t".toList, 0, "a|1|x".toList), ("t".toList, 1, "b|2|y".toList),
      ("t".toList, 1, "broken".toList), ("u".toList, 1, "c|3|z".toList)] :
      List (Str × Nat × Str)), e.2.1 + 1 < 2 ^ 64 ∧ e.2.1 + 1 ≤ max_size_sample := by
    decide
  have hD : ∀ e ∈ ([("t".toList, 0, "a|1|x".toList), ("t".toList, 1, "b|2|y".toList),
      ("t".toList, 1, "broken".toList), ("u".toList, 1, "c|3|z".toList)] :
      List (Str × Nat × Str)),
      ignored_char natAmountText e.2.2 = none ∨ ignored_char natAmountText e.2.2 = some '|' := by
    decide
  match deserialize_utxo_set_last_read max_size_sample natAmountText ledger_sample
    [("t".toList, 0, "a|1|x".toList), ("t".toList, 1, "b|2|y".toList),
      ("t".toList, 1, "broken".toList), ("u".toList, 1, "c|3|z".toList)] hI hD with
  | ⟨r, hr, _, hspec⟩ =>
    ⟨hI, hD, r, hr,
      (hspec "t".toList 1).2 [("t".toList, 0, "a|1|x".toList)]
        [("t".toList, 1, "broken".toList), ("u".toList, 1, "c|3|z".toList)]
        "b|2|y".toList ⟨"b".toList, 2, "y".toList⟩ rfl (by decide) (by decide),
      by
        cases hg : (get_utxo r "t".toList 2).2 with
        | none => rfl
        | some o =>
          exact absurd ((hspec "t".toList 2).1.mp (by rw [hg]; rfl)) (by decide)⟩

/-! ## Hex codec and Base58: proofs -/

theorem hex_chunks_length : ∀ (n : Nat) (hex : Str), hex.length ≤ n →
    (hex_chunks hex).length = (hex.length + 1) / 2 := by
  intro n
  induction n with
  | zero =>
    intro hex h
    have : hex = [] := List.length_eq_zero.mp (Nat.le_zero.mp h)
    subst this; simp [hex_chunks]
  | succ n ih =>
    intro hex h
    match hex, h with
    | [], _ => simp [hex_chunks]
    | [_], _ => simp [hex_chunks]
    | a :: b :: rest, h =>
      simp only [hex_chunks, List.length_cons]
      rw [ih rest (by simp only [List.length_cons] at h; omega)]
      omega

theorem chunk_byte_lt (s : Str) : chunk_byte s < 256 := by
  unfold chunk_byte
  have h1 : 0 ≤ strtol s % 256 := Int.emod_nonneg _ (by decide)
  have h2 : strtol s % 256 < 256 := Int.emod_lt_of_pos _ (by decide)
  omega

theorem hex_chunks_lt : ∀ (n : Nat) (hex : Str), hex.length ≤ n →
    ∀ b ∈ hex_chunks hex, b < 256 := by
  intro n
  induction n with
  | zero =>
    intro hex h
    have : hex = [] := List.length_eq_zero.mp (Nat.le_zero.mp h)
    subst this; simp [hex_chunks]
  | succ n ih =>
    intro hex h
    match hex, h with
    | [], _ => simp [hex_chunks]
    | [a], _ =>
      intro b hb
      simp only [hex_chunks, List.mem_singleton] at hb
      rw [hb]; exact chunk_byte_lt _
    | a :: b :: rest, h =>
      intro x hx
      simp only [hex_chunks, List.mem_cons] at hx
      rcases hx with hx | hx
      · rw [hx]; exact chunk_byte_lt _
      · exact ih rest (by simp only [List.length_cons] at h; omega) x hx

theorem hex_to_bytes_loop_eq (hex : Str) :
    ∀ (fuel i : Nat) (bytes : List Nat), i ≤ hex.length → hex.length + 2 ≤ i + 2 * fuel →
      hex_to_bytes_loop hex fuel i bytes = some (bytes ++ hex_chunks (hex.drop i)) := by
  intro fuel
  induction fuel with
  | zero => intro i bytes h1 h2; omega
  | succ fuel ih =>
    intro i bytes h1 h2
    unfold hex_to_bytes_loop
    by_cases hi : i < hex.length
    · simp only [hi, if_true]
      by_cases hi1 : i + 1 < hex.length
      · rw [ih (i + 2) _ (by omega) (by omega)]
        have hd : hex.drop i = hex[i] :: hex[i + 1] :: hex.drop (i + 2) := by
          rw [List.drop_eq_getElem_cons hi, List.drop_eq_getElem_cons hi1]
        rw [hd]
        simp only [List.take_succ_cons, List.take_zero, hex_chunks, chunk_byte,
          List.append_assoc, List.singleton_append]
      · have hlen : hex.length = i + 1 := by omega
        obtain ⟨f, rfl⟩ := Nat.exists_eq_succ_of_ne_zero (by omega : fuel ≠ 0)
        unfold hex_to_bytes_loop
        have : ¬ (i + 2 < hex.length) := by omega
        simp only [this, if_false]
        have hd : hex.drop i = [hex[i]] := by
          rw [List.drop_eq_getElem_cons hi]
          have : hex.drop (i + 1) = [] := List.drop_eq_nil_of_le (by omega)
          rw [this]
        rw [hd]
        simp only [List.take_succ_cons, List.take_nil, hex_chunks, chunk_byte]
    · simp only [hi, if_false]
      have : hex.drop i = [] := List.drop_eq_nil_of_le (by omega)
      rw [this]; simp [hex_chunks]

theorem hex_to_bytes_eq (hex : Str) : hex_to_bytes hex = some (hex_chunks hex) := by
  rw [hex_to_bytes, hex_to_bytes_loop_eq hex _ 0 [] (by omega) (by omega)]
  simp

theorem hex_chunks_getElem? : ∀ (n : Nat) (hex : Str), hex.length ≤ n →
    ∀ k, k < (hex.length + 1) / 2 →
      (hex_chunks hex)[k]? = some (chunk_byte ((hex.drop (2 * k)).take 2)) := by
  intro n
  induction n with
  | zero =>
    intro hex h k hk
    have : hex = [] := List.length_eq_zero.mp (Nat.le_zero.mp h)
    subst this
    simp at hk
  | succ n ih =>
    intro hex h k hk
    match hex, h, hk with
    | [], _, hk => simp at hk
    | [a], _, hk =>
      have hk0 : k = 0 := by simp only [List.length_singleton] at hk; omega
      subst hk0
      simp [hex_chunks]
    | a :: b :: rest, h, hk =>
      cases k with
      | zero => simp [hex_chunks]
      | succ j =>
        have hj : j < (rest.length + 1) / 2 := by
          simp only [List.length_cons] at hk; omega
        have hr := ih rest (by simp only [List.length_cons] at h; omega) j hj
        have hd : (a :: b :: rest).drop (2 * (j + 1)) = rest.drop (2 * j) := by
          have : 2 * (j + 1) = 2 * j + 1 + 1 := by omega
          rw [this, List.drop_succ_cons, List.drop_succ_cons]
        rw [hd, hex_chunks, List.getElem?_cons_succ, hr]

/-- What some chunks yield: `strtol` accepts white space and a sign before the digits, and
yields 0 when there is no digit. -/
theorem chunk_byte_examples :
    chunk_byte "-1".toList = 255 ∧ chunk_byte " f".toList = 15 ∧ chunk_byte "+a".toList = 10
      ∧ chunk_byte "zz".toList = 0 ∧ chunk_byte "1z".toList = 1 := by
  decide

/-- C5 as stated fails: `hex_to_bytes` returns a byte vector for a string of odd length and
for a string of characters that are not hexadecimal digits, and `public_key_to_address`
returns an address for a key that is not valid hex. -/
theorem hex_to_bytes_accepts_malformed :
    valid_hex "abc".toList = false ∧ hex_to_bytes "abc".toList = some [171, 12]
      ∧ valid_hex "zz".toList = false ∧ hex_to_bytes "zz".toList = some [0]
      ∧ (public_key_to_address (fun _ => [7]) (fun _ => [9]) "zz".toList 0).isSome = true := by
  decide

/-- C5, amended: `hex_to_bytes` returns a byte vector for every string, with one byte for
each chunk of two characters (the last chunk of one character when the length is odd), the
byte of the chunk `k` being what `strtol` reads from the characters `2 * k` and `2 * k + 1`
of the string in base 16, reduced modulo 256; so `public_key_to_address` has no failure on
its key: its result is `base58check_encode` of the digests of these bytes. -/
theorem hex_to_bytes_total (hex : Str) :
    ∃ bytes, hex_to_bytes hex = some bytes
      ∧ bytes = hex_chunks hex
      ∧ bytes.length = (hex.length + 1) / 2
      ∧ (∀ k, k < bytes.length →
          bytes[k]? = some ((strtol ((hex.drop (2 * k)).take 2) % 256).toNat))
      ∧ (∀ b ∈ bytes, b < 256)
      ∧ ∀ (sha256_bytes ripemd160_bytes : List Nat → List Nat) (version : Nat),
          public_key_to_address sha256_bytes ripemd160_bytes hex version
            = base58check_encode sha256_bytes (ripemd160_bytes (sha256_bytes bytes))
                version := by
  refine ⟨hex_chunks hex, hex_to_bytes_eq hex, rfl, hex_chunks_length _ hex (le_refl _), ?_,
    hex_chunks_lt _ hex (le_refl _), ?_⟩
  · intro k hk
    rw [hex_chunks_length _ hex (le_refl _)] at hk
    exact hex_chunks_getElem? _ hex (le_refl _) k hk
  · intro sha256_bytes ripemd160_bytes version
    simp [public_key_to_address, hex_to_bytes_eq]

/-- C3: the failing input evaluated. The byte 58 denotes the number 58, whose base-58
expansion is the two digits 1, 0, that is the string `21`; `base58_encode` returns `2`, the
encoding of the byte 1: the loop that is meant to skip leading zero digits scans the buffer
from its least significant end, so the low zero digits of the number are dropped. -/
theorem base58_encode_drops_low_zero_digits :
    base58_encode [58] = some "2".toList
      ∧ base58_encode_spec [58] = "21".toList
      ∧ base58_decode_reference "21".toList = some [58]
      ∧ base58_decode_reference "2".toList = some [1] := by
  decide

/-- C4: the failing input evaluated. For the payload of the one byte 2 and the version 0,
whose checksum is `fe 4a 68 e4`, the bytes to encode are `00 02 fe 4a 68 e4`, a multiple of
58: `base58check_encode` returns `1Lb4WV`, which lacks the last character of the encoding
`1Lb4WV1` and decodes to other bytes. -/
theorem base58check_encode_drops_last_digit (sha256_bytes : List Nat → List Nat)
    (h : (double_sha256 sha256_bytes [0, 2]).take 4 = [254, 74, 104, 228]) :
    base58check_encode sha256_bytes [2] 0 = some "1Lb4WV".toList
      ∧ base58_encode_spec [0, 2, 254, 74, 104, 228] = "1Lb4WV1".toList
      ∧ base58_decode_reference "1Lb4WV1".toList = some [0, 2, 254, 74, 104, 228]
      ∧ base58_decode_reference "1Lb4WV".toList = some [0, 13, 54, 63, 154] := by
  have hc : vector_resize (double_sha256 sha256_bytes ([0] ++ [2])) 4 0
      = [254, 74, 104, 228] := by
    have h4 : ((double_sha256 sha256_bytes [0, 2]).take 4).length = 4 := by rw [h]; rfl
    have hlen : 4 ≤ (double_sha256 sha256_bytes [0, 2]).length := by
      rw [List.length_take] at h4; omega
    show vector_resize (double_sha256 sha256_bytes [0, 2]) 4 0 = _
    rw [vector_resize, h]
    have : 4 - (double_sha256 sha256_bytes [0, 2]).length = 0 := by omega
    rw [this]; rfl
  refine ⟨?_, by decide, by decide, by decide⟩
  rw [base58check_encode]
  simp only [hc]
  decide

theorem base58check_encode_drops_last_digit_witness :
    (double_sha256 (fun _ => [254, 74, 104, 228, 0]) [0, 2]).take 4 = [254, 74, 104, 228]
      ∧ base58check_encode (fun _ => [254, 74, 104, 228, 0]) [2] 0 = some "1Lb4WV".toList :=
  ⟨by decide,
    (base58check_encode_drops_last_digit (fun _ => [254, 74, 104, 228, 0]) (by decide)).1⟩
/-! ## Base58: what `base58_encode` computes for every input -/

theorem digits_le_fuel (base : Nat) (hb : 2 ≤ base) :
    ∀ (f n : Nat), n ≤ f → digits_le base f n = digits_le base n n := by
  intro f
  induction f using Nat.strong_induction_on with
  | _ f ih =>
    intro n hn
    cases f with
    | zero =>
      have : n = 0 := by omega
      subst this; rfl
    | succ f =>
      cases n with
      | zero => simp [digits_le]
      | succ n =>
        have hdiv : (n + 1) / base ≤ n := by
          have := Nat.div_lt_self (by omega : 0 < n + 1) (by omega : 1 < base)
          omega
        simp only [digits_le, Nat.succ_ne_zero, if_false]
        rw [ih f (by omega) _ (by omega), ih n (by omega) _ hdiv]

theorem digits_le_step (base : Nat) (hb : 2 ≤ base) (n : Nat) (hn : n ≠ 0) :
    digits_le base n n = n % base :: digits_le base (n / base) (n / base) := by
  obtain ⟨k, rfl⟩ := Nat.exists_eq_succ_of_ne_zero hn
  have hdiv : (k + 1) / base ≤ k := by
    have := Nat.div_lt_self (by omega : 0 < k + 1) (by omega : 1 < base)
    omega
  simp only [digits_le, Nat.succ_ne_zero, if_false]
  rw [digits_le_fuel base hb k _ hdiv]

theorem digits_le_zero (base : Nat) : digits_le base 0 0 = [] := rfl

theorem le_value_digits_le : ∀ n : Nat, le_value (digits_le 58 n n) = n := by
  intro n
  induction n using Nat.strong_induction_on with
  | _ n ih =>
    by_cases hn : n = 0
    · subst hn; rfl
    · rw [digits_le_step 58 (by omega) n hn, le_value, ih (n / 58) (Nat.div_lt_self (by omega) (by omega))]
      omega

theorem le_value_base58_pass : ∀ (ds : List Nat) (c : Nat),
    le_value (base58_pass ds c) = c + 256 * le_value ds := by
  intro ds
  induction ds with
  | nil => intro c; simp [base58_pass, le_value, le_value_digits_le]
  | cons d ds ih =>
    intro c
    simp only [base58_pass, le_value, ih]
    omega

theorem digits_le_lt : ∀ n : Nat, ∀ d ∈ digits_le 58 n n, d < 58 := by
  intro n
  induction n using Nat.strong_induction_on with
  | _ n ih =>
    by_cases hn : n = 0
    · subst hn; intro d hd; simp [digits_le] at hd
    · rw [digits_le_step 58 (by omega) n hn]
      intro d hd
      rcases List.mem_cons.mp hd with h | h
      · rw [h]; exact Nat.mod_lt _ (by omega)
      · exact ih (n / 58) (Nat.div_lt_self (by omega) (by omega)) d h

theorem base58_pass_lt : ∀ (ds : List Nat) (c : Nat), ∀ d ∈ base58_pass ds c, d < 58 := by
  intro ds
  induction ds with
  | nil => intro c; exact digits_le_lt c
  | cons x ds ih =>
    intro c d hd
    simp only [base58_pass] at hd
    rcases List.mem_cons.mp hd with h | h
    · rw [h]; exact Nat.mod_lt _ (by omega)
    · exact ih _ d h

theorem digits_le_ne_nil (n : Nat) (hn : n ≠ 0) : digits_le 58 n n ≠ [] := by
  rw [digits_le_step 58 (by omega) n hn]; simp

theorem digits_le_getLast : ∀ (n : Nat) (h : digits_le 58 n n ≠ []),
    (digits_le 58 n n).getLast h ≠ 0 := by
  intro n
  induction n using Nat.strong_induction_on with
  | _ n ih =>
    intro h
    by_cases hn : n = 0
    · subst hn; exact absurd rfl h
    · have hstep := digits_le_step 58 (by omega) n hn
      by_cases hq : n / 58 = 0
      · have hd : digits_le 58 n n = [n % 58] := by rw [hstep, hq]; rfl
        simp only [hd, List.getLast_singleton]
        have : n < 58 := by
          by_contra hc
          have := Nat.div_pos (Nat.le_of_not_lt hc) (by omega : 0 < 58)
          omega
        rw [Nat.mod_eq_of_lt this]; exact hn
      · have hne := digits_le_ne_nil (n / 58) hq
        have := ih (n / 58) (Nat.div_lt_self (by omega) (by omega)) hne
        simp only [hstep, List.getLast_cons hne]
        exact this

theorem base58_pass_length_le : ∀ (ds : List Nat) (c : Nat),
    ds.length ≤ (base58_pass ds c).length := by
  intro ds
  induction ds with
  | nil => intro c; simp
  | cons d ds ih =>
    intro c
    simp only [base58_pass, List.length_cons]
    have := ih ((c + 256 * d) / 58)
    omega

theorem base58_pass_top : ∀ (ds : List Nat) (c : Nat), TopNonzero ds →
    TopNonzero (base58_pass ds c) := by
  intro ds
  induction ds with
  | nil => intro c _ h; exact digits_le_getLast c h
  | cons d ds ih =>
    intro c htop h
    simp only [base58_pass]
    cases ds with
    | nil =>
      have hd : d ≠ 0 := by
        have := htop (by simp)
        simpa using this
      have hq : (c + 256 * d) / 58 ≠ 0 := by
        have h1 : 58 ≤ c + 256 * d := by omega
        have := Nat.div_pos h1 (by omega : 0 < 58)
        omega
      have hne := digits_le_ne_nil _ hq
      simp only [base58_pass]
      rw [List.getLast_cons hne]
      exact digits_le_getLast _ hne
    | cons d' ds' =>
      have htop' : TopNonzero (d' :: ds') := by
        intro h'
        have := htop (by simp)
        rw [List.getLast_cons h'] at this
        exact this
      have hne : base58_pass (d' :: ds') ((c + 256 * d) / 58) ≠ [] := by
        simp [base58_pass]
      rw [List.getLast_cons hne]
      exact ih _ htop' hne

theorem top_nonzero_nil : TopNonzero [] := fun h => absurd rfl h

theorem base58_passes_top : ∀ (bytes ds : List Nat), TopNonzero ds →
    TopNonzero (base58_passes ds bytes) := by
  intro bytes
  induction bytes with
  | nil => intro ds h; exact h
  | cons x rest ih =>
    intro ds h
    exact ih _ (base58_pass_top ds x h)

theorem base58_passes_lt : ∀ (bytes ds : List Nat), (∀ d ∈ ds, d < 58) →
    ∀ d ∈ base58_passes ds bytes, d < 58 := by
  intro bytes
  induction bytes with
  | nil => intro ds h; exact h
  | cons x rest ih =>
    intro ds _
    exact ih _ (base58_pass_lt ds x)

theorem base58_passes_length_le : ∀ (bytes ds : List Nat),
    ds.length ≤ (base58_passes ds bytes).length := by
  intro bytes
  induction bytes with
  | nil => intro ds; exact le_refl _
  | cons x rest ih =>
    intro ds
    exact le_trans (base58_pass_length_le ds x) (ih _)

theorem le_value_base58_passes : ∀ (bytes ds : List Nat),
    le_value (base58_passes ds bytes)
      = bytes.foldl (fun acc x => acc * 256 + x) (le_value ds) := by
  intro bytes
  induction bytes with
  | nil => intro ds; rfl
  | cons x rest ih =>
    intro ds
    simp only [base58_passes, List.foldl_cons] at ih ⊢
    rw [ih, le_value_base58_pass]
    congr 1
    omega

/-- A list of digits below 58 whose top digit is not zero is the digit expansion of its
value. -/
theorem digits_canonical : ∀ ds : List Nat, (∀ d ∈ ds, d < 58) → TopNonzero ds →
    ds = digits_le 58 (le_value ds) (le_value ds) := by
  intro ds
  induction ds with
  | nil => intro _ _; rfl
  | cons d ds ih =>
    intro hlt htop
    have hd : d < 58 := hlt d (List.mem_cons_self _ _)
    have hlt' : ∀ x ∈ ds, x < 58 := fun x hx => hlt x (List.mem_cons_of_mem _ hx)
    have htop' : TopNonzero ds := by
      intro h'
      have := htop (by simp)
      rw [List.getLast_cons h'] at this
      exact this
    have hrec := ih hlt' htop'
    have hv : le_value (d :: ds) ≠ 0 := by
      simp only [le_value]
      cases ds with
      | nil =>
        have := htop (by simp)
        simp only [List.getLast_singleton] at this
        simp only [le_value]; omega
      | cons d' ds' =>
        have hne : le_value (d' :: ds') ≠ 0 := by
          intro e
          rw [e] at hrec
          simp [digits_le] at hrec
        omega
    rw [digits_le_step 58 (by omega) _ hv]
    simp only [le_value]
    have h1 : (d + 58 * le_value ds) % 58 = d := by omega
    have h2 : (d + 58 * le_value ds) / 58 = le_value ds := by omega
    rw [h1, h2, ← hrec]

theorem pow_le_le_value : ∀ ds : List Nat, TopNonzero ds → ds ≠ [] →
    58 ^ (ds.length - 1) ≤ le_value ds := by
  intro ds
  induction ds with
  | nil => intro _ h; exact absurd rfl h
  | cons d ds ih =>
    intro htop _
    cases ds with
    | nil =>
      have := htop (by simp)
      simp only [List.getLast_singleton] at this
      simp only [List.length_singleton, Nat.sub_self, pow_zero, le_value]
      omega
    | cons d' ds' =>
      have htop' : TopNonzero (d' :: ds') := by
        intro h'
        have := htop (by simp)
        rw [List.getLast_cons h'] at this
        exact this
      have := ih htop' (by simp)
      simp only [List.length_cons, Nat.add_sub_cancel, le_value] at this ⊢
      rw [pow_succ]
      omega

theorem be_value_lt : ∀ (bytes : List Nat) (acc : Nat), (∀ b ∈ bytes, b < 256) →
    bytes.foldl (fun a x => a * 256 + x) acc < (acc + 1) * 256 ^ bytes.length := by
  intro bytes
  induction bytes with
  | nil => intro acc _; simp
  | cons x rest ih =>
    intro acc h
    have hx : x < 256 := h x (List.mem_cons_self _ _)
    have := ih (acc * 256 + x) (fun b hb => h b (List.mem_cons_of_mem _ hb))
    simp only [List.foldl_cons, List.length_cons]
    calc List.foldl (fun a x => a * 256 + x) (acc * 256 + x) rest
        < (acc * 256 + x + 1) * 256 ^ rest.length := this
      _ ≤ ((acc + 1) * 256) * 256 ^ rest.length := Nat.mul_le_mul_right _ (by omega)
      _ = (acc + 1) * 256 ^ (rest.length + 1) := by rw [pow_succ]; ring

/-- The buffer that `base58_encode` allocates is large enough: `m` bytes denote a number
below `58 ^ (m * 138 / 100 + 1)`. -/
theorem pow_256_le_pow_58 (m : Nat) : 256 ^ m ≤ 58 ^ (m * 138 / 100 + 1) := by
  have hbase : 256 ^ 100 ≤ 58 ^ 138 := by norm_num
  have hexp : 138 * m ≤ 100 * (m * 138 / 100 + 1) := by omega
  have h1 : (256 ^ m) ^ 100 ≤ (58 ^ (m * 138 / 100 + 1)) ^ 100 := by
    calc (256 ^ m) ^ 100 = (256 ^ 100) ^ m := by rw [← pow_mul, ← pow_mul, Nat.mul_comm]
      _ ≤ (58 ^ 138) ^ m := Nat.pow_le_pow_left hbase m
      _ = 58 ^ (138 * m) := by rw [← pow_mul]
      _ ≤ 58 ^ (100 * (m * 138 / 100 + 1)) := Nat.pow_le_pow_right (by omega) hexp
      _ = (58 ^ (m * 138 / 100 + 1)) ^ 100 := by rw [← pow_mul, Nat.mul_comm]
  exact (Nat.pow_le_pow_iff_left (by omega)).mp h1

theorem getElem?_append_length {α : Type} (xs ys : List α) :
    (xs ++ ys)[xs.length]? = ys[0]? := by
  rw [List.getElem?_append_right (le_refl _)]
  simp

theorem set_append_length {α : Type} (xs : List α) (y : α) (ys : List α) (v : α) :
    (xs ++ y :: ys).set xs.length v = xs ++ v :: ys := by
  induction xs with
  | nil => rfl
  | cons x xs ih => simp [List.set, ih]

/-- The inner loop once the digits held have been rewritten: the carry is written out as
new digits in the free part of the buffer, and the loop fails when that part is too
short. -/
theorem base58_carry_loop_extend (s : Nat) :
    ∀ (fuel : Nat) (done slack : List Nat) (c : Nat), s ≤ done.length → slack.length < fuel →
      base58_carry_loop s fuel (done ++ slack) c done.length
        = if (digits_le 58 c c).length ≤ slack.length then
            some (done ++ digits_le 58 c c ++ slack.drop (digits_le 58 c c).length,
              done.length + (digits_le 58 c c).length)
          else none := by
  intro fuel
  induction fuel with
  | zero => intro done slack c _ h; omega
  | succ fuel ih =>
    intro done slack c hs hf
    unfold base58_carry_loop
    have hj : ¬ (done.length < s) := by omega
    by_cases hc : c = 0
    · subst hc
      simp [hj, digits_le]
    · have hcond : done.length < s ∨ c ≠ 0 := Or.inr hc
      rw [if_pos hcond, digits_le_step 58 (by omega) c hc, getElem?_append_length]
      cases slack with
      | nil => simp
      | cons x sl =>
        simp only [List.getElem?_cons_zero, set_append_length, List.length_cons, hj, if_false]
        have e : done ++ c % 58 :: sl = (done ++ [c % 58]) ++ sl := by simp
        have el : done.length + 1 = (done ++ [c % 58]).length := by simp
        rw [e, el, ih (done ++ [c % 58]) sl (c / 58) (by simp; omega)
          (by simp only [List.length_cons] at hf; omega)]
        by_cases hfit : (digits_le 58 (c / 58) (c / 58)).length ≤ sl.length
        · have : (digits_le 58 (c / 58) (c / 58)).length + 1 ≤ sl.length + 1 := by omega
          simp only [hfit, this, if_true, List.drop_succ_cons, List.length_append,
            List.length_singleton, List.append_assoc, List.singleton_append]
          simp only [Option.some.injEq, Prod.mk.injEq, true_and]
          omega
        · have : ¬ ((digits_le 58 (c / 58) (c / 58)).length + 1 ≤ sl.length + 1) := by omega
          simp only [hfit, this, if_false]

/-- The inner loop on a buffer that holds the digits `todo` from position `done.length`
on: the digits become `base58_pass todo c`, and the loop fails when the buffer is too
short for them. -/
theorem base58_carry_loop_pass :
    ∀ (todo : List Nat) (fuel : Nat) (done slack : List Nat) (c : Nat),
      todo.length + slack.length < fuel →
      base58_carry_loop (done.length + todo.length) fuel (done ++ todo ++ slack) c done.length
        = if (base58_pass todo c).length ≤ todo.length + slack.length then
            some (done ++ base58_pass todo c
                ++ slack.drop ((base58_pass todo c).length - todo.length),
              done.length + (base58_pass todo c).length)
          else none := by
  intro todo
  induction todo with
  | nil =>
    intro fuel done slack c hf
    simp only [List.length_nil, Nat.add_zero, List.append_nil, base58_pass, Nat.zero_add,
      Nat.sub_zero]
    exact base58_carry_loop_extend done.length fuel done slack c (le_refl _)
      (by simpa using hf)
  | cons d todo ih =>
    intro fuel done slack c hf
    obtain ⟨f, rfl⟩ := Nat.exists_eq_succ_of_ne_zero (by omega : fuel ≠ 0)
    unfold base58_carry_loop
    have hj : done.length < done.length + (d :: todo).length := by
      simp only [List.length_cons]; omega
    have hcond : done.length < done.length + (d :: todo).length ∨ c ≠ 0 := Or.inl hj
    rw [if_pos hcond]
    have e0 : done ++ d :: todo ++ slack = done ++ d :: (todo ++ slack) := by simp
    rw [e0, getElem?_append_length]
    simp only [List.getElem?_cons_zero, set_append_length, hj, if_true]
    have e : done ++ (c + 256 * d) % 58 :: (todo ++ slack)
        = (done ++ [(c + 256 * d) % 58]) ++ todo ++ slack := by simp
    have el : done.length + 1 = (done ++ [(c + 256 * d) % 58]).length := by simp
    have es : done.length + (d :: todo).length
        = (done ++ [(c + 256 * d) % 58]).length + todo.length := by
      simp only [List.length_cons, List.length_append, List.length_nil]; omega
    rw [e, el, es, ih f (done ++ [(c + 256 * d) % 58]) slack ((c + 256 * d) / 58)
      (by simp only [List.length_cons] at hf; omega)]
    simp only [base58_pass, List.length_cons, List.length_append, List.length_nil]
    by_cases hfit : (base58_pass todo ((c + 256 * d) / 58)).length ≤ todo.length + slack.length
    · have : (base58_pass todo ((c + 256 * d) / 58)).length + 1
          ≤ todo.length + 1 + slack.length := by omega
      simp only [hfit, this, if_true, List.append_assoc, List.singleton_append,
        Option.some.injEq, Prod.mk.injEq, Nat.add_sub_add_right]
      exact ⟨trivial, by omega⟩
    · have : ¬ ((base58_pass todo ((c + 256 * d) / 58)).length + 1
          ≤ todo.length + 1 + slack.length) := by omega
      simp only [hfit, this, if_false]

/-- The outer loop on a buffer that holds the digits `D`: the digits become the digits
after the passes for the bytes from position `i` on, when the buffer is long enough for
them. -/
theorem base58_convert_eq (input : List Nat) :
    ∀ (fuel i : Nat) (D slack : List Nat), i ≤ input.length → input.length - i < fuel →
      (base58_passes D (input.drop i)).length ≤ D.length + slack.length →
      ∃ slack', base58_convert input fuel i (D ++ slack) D.length
        = some (base58_passes D (input.drop i) ++ slack',
            (base58_passes D (input.drop i)).length) := by
  intro fuel
  induction fuel with
  | zero => intro i D slack _ h; omega
  | succ fuel ih =>
    intro i D slack hi hf hfit
    unfold base58_convert
    by_cases hlt : i < input.length
    · rw [if_pos hlt, List.getElem?_eq_getElem hlt]
      have hdrop : input.drop i = input[i] :: input.drop (i + 1) :=
        List.drop_eq_getElem_cons hlt
      rw [hdrop] at hfit ⊢
      have hpass : base58_passes D (input[i] :: input.drop (i + 1))
          = base58_passes (base58_pass D input[i]) (input.drop (i + 1)) := rfl
      rw [hpass] at hfit ⊢
      have hmono := base58_passes_length_le (input.drop (i + 1)) (base58_pass D input[i])
      have hge := base58_pass_length_le D input[i]
      have hloop := base58_carry_loop_pass D ((D ++ slack).length + 1) [] slack input[i]
        (by simp)
      simp only [List.nil_append, List.length_nil, Nat.zero_add] at hloop
      have hfit1 : (base58_pass D input[i]).length ≤ D.length + slack.length := by omega
      simp only [hloop, hfit1, if_true]
      apply ih (i + 1) (base58_pass D input[i]) _ (by omega) (by omega)
      simp only [List.length_drop]
      omega
    · have hi' : i = input.length := by omega
      rw [if_neg hlt]
      have hdrop : input.drop i = [] := List.drop_eq_nil_of_le (by omega)
      rw [hdrop]
      exact ⟨slack, rfl⟩

theorem getElem?_take_drop_zero (v : List Nat) (size n : Nat) (hn : n < size)
    (hs : size ≤ v.length) (hnv : n < v.length) :
    (v.take size).drop n = v[n] :: (v.take size).drop (n + 1) := by
  have h1 : n < (v.take size).length := by rw [List.length_take]; omega
  rw [List.drop_eq_getElem_cons h1]
  simp

/-- The scanning loop: it stops at the first element of `v[n..size)` that is not zero. -/
theorem count_zero_run_eq (v : List Nat) (size : Nat) (hs : size ≤ v.length) :
    ∀ (fuel n : Nat), n ≤ size → size - n < fuel →
      count_zero_run v size fuel n
        = some (n + (((v.take size).drop n).takeWhile (fun d => d == 0)).length) := by
  intro fuel
  induction fuel with
  | zero => intro n _ h; omega
  | succ fuel ih =>
    intro n hn hf
    unfold count_zero_run
    by_cases hlt : n < size
    · have hnv : n < v.length := by omega
      rw [if_pos hlt, List.getElem?_eq_getElem hnv, getElem?_take_drop_zero v size n hlt hs hnv]
      by_cases hz : v[n] = 0
      · simp only [hz, if_true, List.takeWhile_cons, beq_self_eq_true, List.length_cons]
        rw [ih (n + 1) (by omega) (by omega)]
        simp only [Option.some.injEq]
        omega
      · have hb : (v[n] == 0) = false := by simpa using hz
        simp only [hz, if_false, List.takeWhile_cons, hb, Bool.false_eq_true, List.length_nil,
          Nat.add_zero]
    · rw [if_neg hlt]
      have : (v.take size).drop n = [] := by
        apply List.drop_eq_nil_of_le
        rw [List.length_take]; omega
      rw [this]; rfl

theorem base58_chars_getElem? (d : Nat) (h : d < 58) :
    BASE58_CHARS[d]? = some (BASE58_CHARS.getD d '1') := by
  have hl : d < BASE58_CHARS.length := by
    have : BASE58_CHARS.length = 58 := by decide
    omega
  rw [List.getD_eq_getElem?_getD, List.getElem?_eq_getElem hl]
  rfl

/-- The loop that builds the string: it appends the characters of the digits
`D[leading_zeros..size)`, the most significant first. -/
theorem base58_append_eq (D slack : List Nat) (lz : Nat) (hlt : ∀ d ∈ D, d < 58) :
    ∀ (fuel i : Nat) (encoded : Str), lz ≤ i → i ≤ D.length → D.length - i < fuel →
      base58_append (D ++ slack) D.length lz fuel i encoded
        = some (encoded ++ (((D.drop lz).take (D.length - i)).reverse).map
            (fun d => BASE58_CHARS.getD d '1')) := by
  intro fuel
  induction fuel with
  | zero => intro i _ _ _ h; omega
  | succ fuel ih =>
    intro i encoded hlz hi hf
    unfold base58_append
    by_cases hlt' : i < D.length
    · have hidx : D.length - 1 - i + lz < D.length := by omega
      have hget : (D ++ slack)[D.length - 1 - i + lz]? = some D[D.length - 1 - i + lz] := by
        rw [List.getElem?_append_left hidx, List.getElem?_eq_getElem hidx]
      have hd : D[D.length - 1 - i + lz] < 58 := hlt _ (List.getElem_mem _)
      rw [if_pos hlt', hget]
      simp only [base58_chars_getElem? _ hd]
      rw [ih (i + 1) _ (by omega) (by omega) (by omega)]
      have hr : D.length - i = (D.length - (i + 1)) + 1 := by omega
      have hk : D.length - (i + 1) < (D.drop lz).length := by
        rw [List.length_drop]; omega
      rw [hr, List.take_succ, List.getElem?_eq_getElem hk]
      simp only [Option.toList, List.reverse_append, List.reverse_cons, List.reverse_nil,
        List.nil_append, List.singleton_append, List.map_cons, List.append_assoc,
        List.getElem_drop]
      have hsame : lz + (D.length - (i + 1)) = D.length - 1 - i + lz := by omega
      simp only [hsame]
    · rw [if_neg hlt']
      have : D.length - i = 0 := by omega
      rw [this]
      simp

theorem leading_zero_bytes_eq : ∀ b : List Nat,
    leading_zero_bytes b = (b.takeWhile (fun d => d == 0)).length := by
  intro b
  induction b with
  | nil => rfl
  | cons x rest ih =>
    cases x with
    | zero => simp [leading_zero_bytes, ih]
    | succ n => simp [leading_zero_bytes]

theorem drop_length_takeWhile {α : Type} (p : α → Bool) : ∀ l : List α,
    l.drop (l.takeWhile p).length = l.dropWhile p := by
  intro l
  induction l with
  | nil => rfl
  | cons x rest ih =>
    cases hp : p x with
    | true => simp [List.takeWhile_cons, List.dropWhile_cons, hp, ih]
    | false => simp [List.takeWhile_cons, List.dropWhile_cons, hp]

theorem be_value_drop_zeros : ∀ b : List Nat,
    be_value (b.drop (leading_zero_bytes b)) = be_value b := by
  intro b
  induction b with
  | nil => rfl
  | cons x rest ih =>
    cases x with
    | zero =>
      simp only [leading_zero_bytes, List.drop_succ_cons]
      rw [ih]
      simp [be_value]
    | succ n => simp [leading_zero_bytes]

/-- What `base58_encode` returns for every byte sequence: it never indexes its buffer out
of bounds, and the string is one character 1 for each leading zero byte followed by the
characters of the base-58 digits of the number, most significant first, without the
low-order zero digits. -/
theorem base58_encode_eq (b : List Nat) (hb : ∀ x ∈ b, x < 256) :
    base58_encode b = some (base58_encode_low_zeros_dropped b) := by
  have hk := count_zero_run_eq b b.length (le_refl _) (b.length + 1) 0 (Nat.zero_le _)
    (by omega)
  simp only [List.take_length, List.drop_zero, Nat.zero_add] at hk
  rw [← leading_zero_bytes_eq] at hk
  have hkle : leading_zero_bytes b ≤ b.length := by
    rw [leading_zero_bytes_eq]
    exact (List.takeWhile_sublist _).length_le
  -- the digits after the conversion
  have hlt := base58_passes_lt (b.drop (leading_zero_bytes b)) [] (by simp)
  have htop := base58_passes_top (b.drop (leading_zero_bytes b)) [] top_nonzero_nil
  have hval : le_value (base58_passes [] (b.drop (leading_zero_bytes b))) = be_value b := by
    rw [le_value_base58_passes, ← be_value_drop_zeros b]
    rfl
  have hcanon := digits_canonical _ hlt htop
  rw [hval] at hcanon
  -- the buffer is long enough
  have hcap : (base58_passes [] (b.drop (leading_zero_bytes b))).length
      ≤ (b.length - leading_zero_bytes b) * 138 / 100 + 1 := by
    by_cases hne : base58_passes [] (b.drop (leading_zero_bytes b)) = []
    · rw [hne]; simp
    · have h1 := pow_le_le_value _ htop hne
      have h2 := be_value_lt (b.drop (leading_zero_bytes b)) 0
        (fun x hx => hb x (List.mem_of_mem_drop hx))
      have h3 := pow_256_le_pow_58 (b.length - leading_zero_bytes b)
      rw [hval] at h1
      have h4 : be_value b < 256 ^ (b.length - leading_zero_bytes b) := by
        rw [← be_value_drop_zeros b]
        simpa [be_value] using h2
      have h5 : 58 ^ ((base58_passes [] (b.drop (leading_zero_bytes b))).length - 1)
          < 58 ^ ((b.length - leading_zero_bytes b) * 138 / 100 + 1) := by omega
      have h6 := (Nat.pow_lt_pow_iff_right (by omega : 1 < 58)).mp h5
      omega
  obtain ⟨slack', hconv⟩ := base58_convert_eq b (b.length + 1) (leading_zero_bytes b) []
    (List.replicate ((b.length - leading_zero_bytes b) * 138 / 100 + 1) 0) hkle (by omega)
    (by simpa using hcap)
  simp only [List.nil_append, List.length_nil] at hconv
  -- the scan of the digits and the string
  have hscan := count_zero_run_eq (base58_passes [] (b.drop (leading_zero_bytes b)) ++ slack')
    (base58_passes [] (b.drop (leading_zero_bytes b))).length (by simp)
    ((base58_passes [] (b.drop (leading_zero_bytes b))).length + 1) 0 (Nat.zero_le _)
    (by omega)
  simp only [List.take_left', List.drop_zero, Nat.zero_add] at hscan
  have hlz : ((base58_passes [] (b.drop (leading_zero_bytes b))).takeWhile
      (fun d => d == 0)).length ≤ (base58_passes [] (b.drop (leading_zero_bytes b))).length :=
    (List.takeWhile_sublist _).length_le
  have happ := base58_append_eq (base58_passes [] (b.drop (leading_zero_bytes b))) slack'
    ((base58_passes [] (b.drop (leading_zero_bytes b))).takeWhile (fun d => d == 0)).length hlt
    ((base58_passes [] (b.drop (leading_zero_bytes b))).length + 1)
    ((base58_passes [] (b.drop (leading_zero_bytes b))).takeWhile (fun d => d == 0)).length
    (List.replicate (leading_zero_bytes b) '1') (le_refl _) hlz (by omega)
  rw [drop_length_takeWhile, List.take_of_length_le (by
    rw [← drop_length_takeWhile, List.length_drop])] at happ
  simp only [base58_encode, hk, hconv, hscan, happ, base58_encode_low_zeros_dropped]
  rw [← hcanon]

/-! ## Base58: leading characters and buffer bounds -/

theorem leading_zero_bytes_of_prefix : ∀ (k : Nat) (b : List Nat),
    (∀ j, j < k → b[j]? = some 0) → (∀ x, b[k]? = some x → x ≠ 0) →
    leading_zero_bytes b = k := by
  intro k
  induction k with
  | zero =>
    intro b _ hnz
    cases b with
    | nil => rfl
    | cons x rest =>
      cases x with
      | zero => exact absurd rfl (hnz 0 (by simp))
      | succ n => simp [leading_zero_bytes]
  | succ k ih =>
    intro b hz hnz
    cases b with
    | nil =>
      have := hz 0 (by omega)
      simp at this
    | cons x rest =>
      have hx : x = 0 := by
        have := hz 0 (by omega)
        simpa using this
      subst hx
      have hrest := ih rest
        (fun j hj => by
          have := hz (j + 1) (by omega)
          simpa using this)
        (fun y hy => hnz y (by simpa using hy))
      simp only [leading_zero_bytes, hrest]

theorem base58_char_ne_one : ∀ d, d < 58 → d ≠ 0 → BASE58_CHARS.getD d '1' ≠ '1' := by
  decide

theorem head_low_zeros_dropped (D : List Nat) (htop : TopNonzero D) (x : Nat)
    (h : ((D.dropWhile (fun d => d == 0)).reverse).head? = some x) : x ≠ 0 := by
  rw [List.head?_reverse] at h
  have hD : D.getLast? = some x := by
    conv_lhs => rw [← List.takeWhile_append_dropWhile (fun d => d == 0) D]
    rw [List.getLast?_append, h]
    rfl
  have hne : D ≠ [] := by
    intro e
    rw [e] at hD
    exact Option.noConfusion hD
  rw [List.getLast?_eq_getLast D hne] at hD
  rw [← Option.some.inj hD]
  exact htop hne

/-- C17: for a byte sequence whose first `k` bytes are zero and whose byte at position
`k`, if there is one, is not zero, `base58_encode` returns a string whose first `k`
characters are `1` and whose character at position `k`, if there is one, is not `1`. -/
theorem base58_encode_leading_ones (b : List Nat) (k : Nat) (hb : ∀ x ∈ b, x < 256)
    (hz : ∀ j, j < k → b[j]? = some 0) (hnz : ∀ x, b[k]? = some x → x ≠ 0) :
    ∃ out, base58_encode b = some out
      ∧ out.take k = List.replicate k '1'
      ∧ ∀ c, out[k]? = some c → c ≠ '1' := by
  have hk := leading_zero_bytes_of_prefix k b hz hnz
  refine ⟨base58_encode_low_zeros_dropped b, base58_encode_eq b hb, ?_, ?_⟩
  · simp only [base58_encode_low_zeros_dropped, hk]
    rw [List.take_left' (by simp)]
  · intro c hc
    simp only [base58_encode_low_zeros_dropped, hk] at hc
    rw [List.getElem?_append_right (by simp)] at hc
    simp only [List.length_replicate, Nat.sub_self] at hc
    rw [← List.head?_eq_getElem?, List.head?_map] at hc
    cases hh : ((List.dropWhile (fun d => d == 0)
        (digits_le 58 (be_value b) (be_value b))).reverse).head? with
    | none => rw [hh] at hc; exact Option.noConfusion hc
    | some d =>
      rw [hh] at hc
      simp only [Option.map_some', Option.some.injEq] at hc
      have hd0 := head_low_zeros_dropped _ (digits_le_getLast (be_value b)) d hh
      have hmem : d ∈ digits_le 58 (be_value b) (be_value b) := by
        have h1 : d ∈ (List.dropWhile (fun d => d == 0)
            (digits_le 58 (be_value b) (be_value b))).reverse := List.mem_of_mem_head? hh
        rw [List.mem_reverse] at h1
        exact (List.dropWhile_sublist _).subset h1
      rw [← hc]
      exact base58_char_ne_one d (digits_le_lt _ d hmem) hd0

theorem base58_encode_leading_ones_witness :
    (∀ x ∈ [0, 0, 58, 7], x < 256)
      ∧ (∀ j, j < 2 → [0, 0, 58, 7][j]? = some 0)
      ∧ (∀ x, [0, 0, 58, 7][2]? = some x → x ≠ 0)
      ∧ ∃ out, base58_encode [0, 0, 58, 7] = some out
          ∧ out.take 2 = List.replicate 2 '1'
          ∧ ∀ c, out[2]? = some c → c ≠ '1' :=
  ⟨by decide, by decide, by decide,
    base58_encode_leading_ones [0, 0, 58, 7] 2 (by decide) (by decide) (by decide)⟩

/-- The inner loop leaves the length of the buffer as it was, stores only digits below 58,
and ends with `j` within the buffer. -/
theorem base58_carry_loop_keeps (s : Nat) :
    ∀ (fuel : Nat) (result : List Nat) (c j : Nat) (r' : List Nat) (j' : Nat),
      base58_carry_loop s fuel result c j = some (r', j') →
      r'.length = result.length
        ∧ ((∀ d ∈ result, d < 58) → ∀ d ∈ r', d < 58)
        ∧ (j ≤ result.length → j' ≤ result.length) := by
  intro fuel
  induction fuel with
  | zero => intro result c j r' j' h; exact Option.noConfusion h
  | succ fuel ih =>
    intro result c j r' j' h
    unfold base58_carry_loop at h
    by_cases hcond : j < s ∨ c ≠ 0
    · rw [if_pos hcond] at h
      cases hget : result[j]? with
      | none => rw [hget] at h; exact Option.noConfusion h
      | some r =>
        rw [hget] at h
        simp only at h
        have hj : j < result.length := by
          by_contra hc
          rw [List.getElem?_eq_none (by omega)] at hget
          exact Option.noConfusion hget
        obtain ⟨h1, h2, h3⟩ := ih _ _ _ _ _ h
        rw [List.length_set] at h1 h3
        refine ⟨h1, ?_, fun _ => h3 (by omega)⟩
        intro hlt
        apply h2
        intro d hd
        rcases List.mem_or_eq_of_mem_set hd with hd | hd
        · exact hlt d hd
        · rw [hd]; exact Nat.mod_lt _ (by omega)
    · rw [if_neg hcond] at h
      simp only [Option.some.injEq, Prod.mk.injEq] at h
      obtain ⟨e1, e2⟩ := h
      subst e1; subst e2
      exact ⟨rfl, fun hlt => hlt, fun hj => hj⟩

/-- The outer loop leaves the length of the buffer as it was, stores only digits below 58,
and ends with `result_size` within the buffer. -/
theorem base58_convert_keeps (input : List Nat) :
    ∀ (fuel i : Nat) (result : List Nat) (size : Nat) (r' : List Nat) (size' : Nat),
      base58_convert input fuel i result size = some (r', size') →
      r'.length = result.length
        ∧ ((∀ d ∈ result, d < 58) → ∀ d ∈ r', d < 58)
        ∧ (size ≤ result.length → size' ≤ result.length) := by
  intro fuel
  induction fuel with
  | zero => intro i result size r' size' h; exact Option.noConfusion h
  | succ fuel ih =>
    intro i result size r' size' h
    unfold base58_convert at h
    by_cases hi : i < input.length
    · rw [if_pos hi] at h
      cases hget : input[i]? with
      | none => rw [hget] at h; exact Option.noConfusion h
      | some byte =>
        rw [hget] at h
        simp only at h
        cases hloop : base58_carry_loop size (result.length + 1) result byte 0 with
        | none => rw [hloop] at h; exact Option.noConfusion h
        | some p =>
          obtain ⟨r1, j1⟩ := p
          rw [hloop] at h
          simp only at h
          obtain ⟨a1, a2, a3⟩ := base58_carry_loop_keeps size _ _ _ _ _ _ hloop
          obtain ⟨b1, b2, b3⟩ := ih _ _ _ _ _ h
          refine ⟨by rw [b1, a1], fun hlt => b2 (a2 hlt), fun _ => ?_⟩
          rw [← a1]
          exact b3 (by rw [a1]; exact a3 (Nat.zero_le _))
    · rw [if_neg hi] at h
      simp only [Option.some.injEq, Prod.mk.injEq] at h
      obtain ⟨e1, e2⟩ := h
      subst e1; subst e2
      exact ⟨rfl, fun hlt => hlt, fun hs => hs⟩

/-- C20: for every byte sequence of length `n` with `z` leading zero bytes, the conversion
runs to its end on the buffer of `(n - z) * 138 / 100 + 1` entries without an access out of
its bounds (an access out of bounds makes the functions of the model return `none`): the
buffer keeps its length, `result_size` stays within it, every entry is a digit below 58, and
`base58_encode` returns a string, so the lookups in the alphabet are in range as well. -/
theorem base58_encode_in_bounds (b : List Nat) (hb : ∀ x ∈ b, x < 256) :
    ∃ (result : List Nat) (result_size : Nat) (out : Str),
      base58_convert b (b.length + 1) (leading_zero_bytes b)
          (List.replicate ((b.length - leading_zero_bytes b) * 138 / 100 + 1) 0) 0
        = some (result, result_size)
      ∧ result.length = (b.length - leading_zero_bytes b) * 138 / 100 + 1
      ∧ result_size ≤ (b.length - leading_zero_bytes b) * 138 / 100 + 1
      ∧ (∀ d ∈ result, d < 58)
      ∧ base58_encode b = some out := by
  have henc := base58_encode_eq b hb
  cases hconv : base58_convert b (b.length + 1) (leading_zero_bytes b)
      (List.replicate ((b.length - leading_zero_bytes b) * 138 / 100 + 1) 0) 0 with
  | none =>
    exfalso
    have hk := count_zero_run_eq b b.length (le_refl _) (b.length + 1) 0 (Nat.zero_le _)
      (by omega)
    simp only [List.take_length, List.drop_zero, Nat.zero_add] at hk
    rw [← leading_zero_bytes_eq] at hk
    simp only [base58_encode, hk, hconv] at henc
    exact Option.noConfusion henc
  | some p =>
    obtain ⟨result, result_size⟩ := p
    obtain ⟨h1, h2, h3⟩ := base58_convert_keeps b _ _ _ _ _ _ hconv
    rw [List.length_replicate] at h1 h3
    refine ⟨result, result_size, _, rfl, h1, h3 (Nat.zero_le _), ?_, henc⟩
    apply h2
    intro d hd
    rw [List.mem_replicate] at hd
    rw [hd.2]
    omega

theorem base58_encode_in_bounds_witness :
    (∀ x ∈ [0, 255, 255, 255], x < 256)
      ∧ ∃ (result : List Nat) (result_size : Nat) (out : Str),
          base58_convert [0, 255, 255, 255] 5 (leading_zero_bytes [0, 255, 255, 255])
              (List.replicate ((4 - leading_zero_bytes [0, 255, 255, 255]) * 138 / 100 + 1) 0) 0
            = some (result, result_size)
          ∧ result.length = (4 - leading_zero_bytes [0, 255, 255, 255]) * 138 / 100 + 1
          ∧ result_size ≤ (4 - leading_zero_bytes [0, 255, 255, 255]) * 138 / 100 + 1
          ∧ (∀ d ∈ result, d < 58)
          ∧ base58_encode [0, 255, 255, 255] = some out :=
  ⟨by decide, base58_encode_in_bounds [0, 255, 255, 255] (by decide)⟩

/-! ## Hexadecimal text of a byte sequence -/

set_option maxRecDepth 100000 in
theorem byte_text_spec : ∀ byte, byte < 256 →
    setw_fill 2 '0' (int_to_hex byte) = [hex_char (byte / 16), hex_char (byte % 16)]
      ∧ chunk_byte [hex_char (byte / 16), hex_char (byte % 16)] = byte
      ∧ hex_char (byte / 16) ∈ "0123456789abcdef".toList
      ∧ hex_char (byte % 16) ∈ "0123456789abcdef".toList := by
  decide

theorem bytes_to_hex_cons (byte : Nat) (rest : List Nat) (h : byte < 256) :
    bytes_to_hex (byte :: rest)
      = hex_char (byte / 16) :: hex_char (byte % 16) :: bytes_to_hex rest := by
  rw [bytes_to_hex, (byte_text_spec byte h).1]
  rfl

/-- C22: for a sequence of bytes (values below 256), the hexadecimal text has two
characters for each byte, all of them in 0-9a-f, and `hex_to_bytes` returns the
sequence from it. -/
theorem hex_to_bytes_bytes_to_hex (b : List Nat) (hb : ∀ x ∈ b, x < 256) :
    hex_to_bytes (bytes_to_hex b) = some b
      ∧ (bytes_to_hex b).length = 2 * b.length
      ∧ ∀ c ∈ bytes_to_hex b, c ∈ "0123456789abcdef".toList := by
  rw [hex_to_bytes_eq]
  induction b with
  | nil => exact ⟨rfl, rfl, by intro c hc; cases hc⟩
  | cons byte rest ih =>
    have hbyte : byte < 256 := hb byte (List.mem_cons_self _ _)
    obtain ⟨ih1, ih2, ih3⟩ := ih (fun x hx => hb x (List.mem_cons_of_mem _ hx))
    obtain ⟨_, hval, hhi, hlo⟩ := byte_text_spec byte hbyte
    rw [bytes_to_hex_cons byte rest hbyte]
    refine ⟨?_, ?_, ?_⟩
    · rw [hex_chunks, hval]
      simp only [Option.some.injEq] at ih1
      rw [ih1]
    · simp only [List.length_cons, ih2]
      omega
    · intro c hc
      rcases List.mem_cons.mp hc with rfl | hc
      · exact hhi
      rcases List.mem_cons.mp hc with rfl | hc
      · exact hlo
      · exact ih3 c hc

theorem hex_to_bytes_bytes_to_hex_witness :
    (∀ x ∈ [0, 10, 255, 48], x < 256)
      ∧ bytes_to_hex [0, 10, 255, 48] = "000aff30".toList
      ∧ hex_to_bytes (bytes_to_hex [0, 10, 255, 48]) = some [0, 10, 255, 48] :=
  ⟨by decide, by decide,
    (hex_to_bytes_bytes_to_hex [0, 10, 255, 48] (by decide)).1⟩

/-! ## Proof-of-work search: proofs -/

theorem sum_map_range_lt (f g : Nat → Nat) (i : Nat) :
    ∀ N, i < N → (∀ j, j ≠ i → g j = f j) → g i < f i →
      ((List.range N).map g).sum < ((List.range N).map f).sum := by
  intro N
  induction N with
  | zero => intro h; omega
  | succ N ih =>
    intro hi hne hlt
    simp only [List.range_succ, List.map_append, List.sum_append, List.map_cons, List.map_nil,
      List.sum_cons, List.sum_nil, Nat.add_zero]
    by_cases hiN : i = N
    · subst hiN
      have : (List.range i).map g = (List.range i).map f := by
        apply List.map_congr_left
        intro j hj
        rw [List.mem_range] at hj
        exact hne j (by omega)
      rw [this]; omega
    · have h1 := ih (by omega) hne hlt
      have h2 := hne N (fun e => hiN e.symm)
      omega

theorem worker_step_rank (cfg : MineConfig) (i : Nat) (st st' : MineState)
    (h : worker_step cfg i st = some st') :
    i < cfg.num_threads ∧ (∀ j, j ≠ i → st'.workers j = st.workers j)
      ∧ worker_rank (st'.workers i) < worker_rank (st.workers i) := by
  unfold worker_step at h
  by_cases hi : i < cfg.num_threads
  · refine ⟨hi, ?_⟩
    simp only [hi, if_true] at h
    cases hpc : (st.workers i).pc <;> simp only [hpc] at h <;> (try split at h) <;>
      first
      | (exact Option.noConfusion h)
      | (simp only [Option.some.injEq] at h
         subst h
         refine ⟨fun j hj => by simp [set_worker, hj], ?_⟩
         simp only [set_worker, if_true, worker_rank, hpc]
         omega)
  · simp [hi] at h

/-- A step of a worker brings down the number of steps that are left. -/
theorem worker_step_mine_rank (cfg : MineConfig) (i : Nat) (st st' : MineState)
    (h : worker_step cfg i st = some st') : mine_rank cfg st' < mine_rank cfg st := by
  obtain ⟨hi, hne, hlt⟩ := worker_step_rank cfg i st st' h
  unfold mine_rank
  exact sum_map_range_lt _ _ i cfg.num_threads hi (fun j hj => by rw [hne j hj]) hlt

/-- The length of a schedule that can be run is bounded by the steps that were left. -/
theorem run_schedule_length (cfg : MineConfig) :
    ∀ (sched : List Nat) (st st' : MineState), run_schedule cfg sched st = some st' →
      sched.length + mine_rank cfg st' ≤ mine_rank cfg st := by
  intro sched
  induction sched with
  | nil =>
    intro st st' h
    simp only [run_schedule, Option.some.injEq] at h
    subst h; simp
  | cons i rest ih =>
    intro st st' h
    simp only [run_schedule] at h
    cases hs : worker_step cfg i st with
    | none => rw [hs] at h; simp at h
    | some st1 =>
      rw [hs] at h
      have h1 := ih st1 st' h
      have h2 := worker_step_mine_rank cfg i st st1 hs
      simp only [List.length_cons]
      omega

theorem to_unsigned_of_nat (m : Nat) (h : m < 2147483648) : to_unsigned (m : Int) = m := by
  unfold to_unsigned; omega

theorem to_int_of_lt (u : Nat) (h : u < 2147483648) : to_int u = (u : Int) := by
  unfold to_int; split <;> omega

theorem chunk_size_eq (cfg : MineConfig) (m : Nat) (hm : cfg.max_nonce = (m : Int))
    (hmax : m < 2147483648) : chunk_size cfg = ((m / cfg.num_threads : Nat) : Int) := by
  have hle : m / cfg.num_threads ≤ m := Nat.div_le_self _ _
  rw [chunk_size, hm, to_unsigned_of_nat m hmax, to_int_of_lt _ (by omega)]

theorem mul_chunk_le (m N i : Nat) (hi : i ≤ N) : i * (m / N) ≤ m :=
  le_trans (Nat.mul_le_mul_right _ hi) (Nat.mul_div_le m N)

theorem start_nonce_eq (cfg : MineConfig) (m : Nat) (hm : cfg.max_nonce = (m : Int))
    (hmax : m < 2147483648) (i : Nat) (hi : i < cfg.num_threads) :
    start_nonce cfg i = ((i * (m / cfg.num_threads) : Nat) : Int) := by
  have hle : m / cfg.num_threads ≤ m := Nat.div_le_self _ _
  have hi' := mul_chunk_le m cfg.num_threads i (by omega)
  rw [start_nonce, chunk_size_eq cfg m hm hmax, to_unsigned_of_nat _ (by omega),
    Nat.mod_eq_of_lt (by omega), to_int_of_lt _ (by omega)]

theorem end_nonce_eq (cfg : MineConfig) (m : Nat) (hm : cfg.max_nonce = (m : Int))
    (hmax : m < 2147483648) (i : Nat) (hi : i < cfg.num_threads) :
    end_nonce cfg i = if i = cfg.num_threads - 1 then (m : Int)
      else (((i + 1) * (m / cfg.num_threads) : Nat) : Int) := by
  have hle : m / cfg.num_threads ≤ m := Nat.div_le_self _ _
  rw [end_nonce]
  by_cases hl : i = cfg.num_threads - 1
  · rw [if_pos hl, if_pos hl, hm, to_unsigned_of_nat m hmax, to_int_of_lt m hmax]
  · have hi' := mul_chunk_le m cfg.num_threads (i + 1) (by omega)
    rw [if_neg hl, if_neg hl, chunk_size_eq cfg m hm hmax, to_unsigned_of_nat _ (by omega),
      Nat.mod_eq_of_lt (by omega), to_int_of_lt _ (by omega)]

/-- The range of every worker lies in `[0, max_nonce)`. -/
theorem worker_range_within (cfg : MineConfig) (h0 : 0 ≤ cfg.max_nonce)
    (hmax : cfg.max_nonce < 2147483648) (i : Nat) (hi : i < cfg.num_threads) :
    0 ≤ start_nonce cfg i ∧ end_nonce cfg i ≤ cfg.max_nonce := by
  obtain ⟨m, hm⟩ := Int.eq_ofNat_of_zero_le h0
  have hm' : m < 2147483648 := by omega
  rw [start_nonce_eq cfg m hm hm' i hi, end_nonce_eq cfg m hm hm' i hi, hm]
  refine ⟨Int.ofNat_nonneg _, ?_⟩
  by_cases hl : i = cfg.num_threads - 1
  · rw [if_pos hl]
  · rw [if_neg hl]
    have := mul_chunk_le m cfg.num_threads (i + 1) (by omega)
    exact Int.ofNat_le.mpr this

/-- Every nonce of `[0, max_nonce)` lies in the range of a worker. -/
theorem worker_range_cover (cfg : MineConfig) (hN : 1 ≤ cfg.num_threads)
    (hmax : cfg.max_nonce < 2147483648) (n : Int) (h0 : 0 ≤ n) (hn : n < cfg.max_nonce) :
    ∃ i, i < cfg.num_threads ∧ start_nonce cfg i ≤ n ∧ n < end_nonce cfg i := by
  obtain ⟨m, hm⟩ := Int.eq_ofNat_of_zero_le (le_trans h0 (le_of_lt hn))
  obtain ⟨k, hk⟩ := Int.eq_ofNat_of_zero_le h0
  have hm' : m < 2147483648 := by omega
  have hkm : k < m := by omega
  subst hk
  by_cases hq : k / (m / cfg.num_threads) < cfg.num_threads - 1 ∧ 0 < m / cfg.num_threads
  · obtain ⟨hq, hc⟩ := hq
    refine ⟨k / (m / cfg.num_threads), by omega, ?_, ?_⟩
    · rw [start_nonce_eq cfg m hm hm' _ (by omega)]
      exact Int.ofNat_le.mpr (Nat.div_mul_le_self _ _)
    · rw [end_nonce_eq cfg m hm hm' _ (by omega), if_neg (by omega)]
      apply Int.ofNat_lt.mpr
      rw [Nat.mul_comm]
      exact Nat.lt_mul_div_succ k hc
  · refine ⟨cfg.num_threads - 1, by omega, ?_, ?_⟩
    · rw [start_nonce_eq cfg m hm hm' _ (by omega)]
      apply Int.ofNat_le.mpr
      by_cases hc : 0 < m / cfg.num_threads
      · have hq' : cfg.num_threads - 1 ≤ k / (m / cfg.num_threads) := by
          by_contra hcon
          exact hq ⟨Nat.lt_of_not_le hcon, hc⟩
        exact le_trans (Nat.mul_le_mul_right _ hq') (Nat.div_mul_le_self _ _)
      · have : m / cfg.num_threads = 0 := Nat.eq_zero_of_not_pos hc
        rw [this]; simp
    · rw [end_nonce_eq cfg m hm hm' _ (by omega), if_pos rfl]
      exact Int.ofNat_lt.mpr hkm

/-- The invariant of a worker that does not take the step is kept when `found_solution`
is only ever set and nothing that the holder of the mutex relies on is changed under it. -/
theorem worker_inv_frame (cfg : MineConfig) (j : Nat) (w : Worker) (f f' : Bool)
    (rn rn' : Int) (m m' : Option Nat) (h : WorkerInv cfg j w f rn m)
    (hmono : f = true → f' = true)
    (hexcl : m = some j → m' = some j ∧ f' = f ∧ rn' = rn) :
    WorkerInv cfg j w f' rn' m' := by
  obtain ⟨h1, h2, h3, h4⟩ := h
  refine ⟨h1, h2, h3, ?_⟩
  unfold PcInv at h4 ⊢
  cases hpc : w.pc <;> simp only [hpc] at h4 ⊢
  case loop_body => exact h4
  case flush => exact h4
  case lock => exact h4
  case check_found => exact ⟨h4.1, (hexcl h4.2).1⟩
  case set_found =>
    obtain ⟨e1, e2, e3⟩ := hexcl h4.2.1
    exact ⟨h4.1, e1, by rw [e2]; exact h4.2.2⟩
  case set_nonce =>
    obtain ⟨e1, e2, e3⟩ := hexcl h4.2.1
    exact ⟨h4.1, e1, by rw [e2]; exact h4.2.2⟩
  case set_hash =>
    obtain ⟨e1, e2, e3⟩ := hexcl h4.2.1
    exact ⟨h4.1, e1, by rw [e2]; exact h4.2.2.1, by rw [e3]; exact h4.2.2.2⟩
  case unlock =>
    obtain ⟨e1, e2, e3⟩ := hexcl h4.1
    exact ⟨e1, by rw [e2]; exact h4.2⟩
  case epilogue => exact h4.imp hmono id
  case done => exact h4.imp hmono id

/-- The invariant after a step of worker `i` that leaves it with the local variables `w'`
and the shared variables with the primed values. -/
theorem inv_update (cfg : MineConfig) (ws : Nat → Worker) (f f' : Bool) (rn rn' : Int)
    (rh rh' : Str) (m m' : Option Nat) (i : Nat) (w' : Worker)
    (hinv : InvParts cfg ws f rn rh m)
    (hw : WorkerInv cfg i w' f' rn' m')
    (hmono : f = true → f' = true)
    (hexcl : ∀ j, j ≠ i → m = some j → m' = some j ∧ f' = f ∧ rn' = rn)
    (hM : ∀ j, m' = some j →
      (j = i ∧ i < cfg.num_threads ∧ in_critical w'.pc) ∨ (j ≠ i ∧ m = some j))
    (hR : f' = true → ResultOK cfg rn' rh'
      ∨ (m' = some i ∧ (w'.pc = Pc.set_nonce ∨ w'.pc = Pc.set_hash))
      ∨ ∃ j, j ≠ i ∧ m' = some j ∧ ((ws j).pc = Pc.set_nonce ∨ (ws j).pc = Pc.set_hash)) :
    InvParts cfg (fun j => if j = i then w' else ws j) f' rn' rh' m' := by
  obtain ⟨hW, hMu, _⟩ := hinv
  refine ⟨?_, ?_, ?_⟩
  · intro j hj
    by_cases hji : j = i
    · subst hji; simp only [if_true]; exact hw
    · simp only [hji, if_false]
      exact worker_inv_frame cfg j (ws j) f f' rn rn' m m' (hW j hj) hmono (hexcl j hji)
  · intro j hj
    rcases hM j hj with ⟨e, hi, hc⟩ | ⟨hne, hm⟩
    · subst e; simp only [if_true]; exact ⟨hi, hc⟩
    · simp only [hne, if_false]; exact hMu j hm
  · intro hf
    rcases hR hf with h | ⟨h1, h2⟩ | ⟨j, hne, h1, h2⟩
    · exact Or.inl h
    · exact Or.inr ⟨i, h1, by simpa using h2⟩
    · exact Or.inr ⟨j, h1, by simpa [hne] using h2⟩

/-- The invariant after a step of worker `i` outside the critical section, which changes
only its local variables. -/
theorem inv_update_local (cfg : MineConfig) (ws : Nat → Worker) (f : Bool) (rn : Int)
    (rh : Str) (m : Option Nat) (i : Nat) (w' : Worker)
    (hinv : InvParts cfg ws f rn rh m)
    (hw : WorkerInv cfg i w' f rn m)
    (hpc : ¬ in_critical (ws i).pc) :
    InvParts cfg (fun j => if j = i then w' else ws j) f rn rh m := by
  have hni : m ≠ some i := fun e => hpc (hinv.2.1 i e).2
  apply inv_update cfg ws f f rn rn rh rh m m i w' hinv hw id
  · intro j _ hm; exact ⟨hm, rfl, rfl⟩
  · intro j hm
    refine Or.inr ⟨?_, hm⟩
    intro e; subst e; exact hni hm
  · intro hf
    rcases hinv.2.2 hf with h | ⟨j, h1, h2⟩
    · exact Or.inl h
    · refine Or.inr (Or.inr ⟨j, ?_, h1, h2⟩)
      intro e; subst e; exact hni h1

/-- Every step keeps the invariant of the search. -/
theorem worker_step_inv (cfg : MineConfig)
    (hrange : ∀ i, i < cfg.num_threads → 0 ≤ start_nonce cfg i ∧ end_nonce cfg i ≤ cfg.max_nonce)
    (i : Nat) (st st' : MineState) (hinv : MineInv cfg st)
    (h : worker_step cfg i st = some st') : MineInv cfg st' := by
  unfold worker_step at h
  by_cases hi : i < cfg.num_threads
  swap
  · simp [hi] at h
  simp only [hi, if_true] at h
  obtain ⟨h1, h2, h3, h4⟩ := hinv.1 i hi
  unfold PcInv at h4
  cases hpc : (st.workers i).pc with
  | loop_test =>
    simp only [hpc] at h h4
    have hnc : ¬ in_critical (st.workers i).pc := by simp [in_critical, hpc]
    split at h <;> rename_i hc
    · simp only [Option.some.injEq] at h; subst h
      exact inv_update_local cfg _ _ _ _ _ i _ hinv ⟨h1, h2, h3, hc.1⟩ hnc
    · simp only [Option.some.injEq] at h; subst h
      refine inv_update_local cfg _ _ _ _ _ i _ hinv ⟨h1, h2, h3, ?_⟩ hnc
      show st.found_solution = true ∨ (st.workers i).end_nonce ≤ (st.workers i).nonce
      by_cases hf : st.found_solution = true
      · exact Or.inl hf
      · refine Or.inr ?_
        have hf' : st.found_solution = false := by simpa using hf
        by_contra hlt
        exact hc ⟨by omega, hf'⟩
  | loop_body =>
    simp only [hpc] at h h4
    have hnc : ¬ in_critical (st.workers i).pc := by simp [in_critical, hpc]
    split at h <;> rename_i hc
    · simp only [Option.some.injEq] at h; subst h
      exact inv_update_local cfg _ _ _ _ _ i _ hinv ⟨h1, h2, h3, h4, rfl, hc⟩ hnc
    · simp only [Option.some.injEq] at h; subst h
      exact inv_update_local cfg _ _ _ _ _ i _ hinv ⟨h1, h2, h3, h4, hc⟩ hnc
  | flush =>
    simp only [hpc] at h h4
    have hnc : ¬ in_critical (st.workers i).pc := by simp [in_critical, hpc]
    have hpre : ∀ n, start_nonce cfg i ≤ n → n < (st.workers i).nonce + 1 →
        ¬ accepts cfg n := by
      intro n hn1 hn2
      by_cases hn : n < (st.workers i).nonce
      · exact h3 n hn1 hn
      · have : n = (st.workers i).nonce := by omega
        rw [this]; exact h4.2
    split at h
    · simp only [Option.some.injEq] at h; subst h
      exact inv_update_local cfg _ _ _ _ _ i _ hinv ⟨h1, by show _ ≤ _ + 1; omega, hpre, trivial⟩ hnc
    · simp only [Option.some.injEq] at h; subst h
      exact inv_update_local cfg _ _ _ _ _ i _ hinv ⟨h1, by show _ ≤ _ + 1; omega, hpre, trivial⟩ hnc
  | epilogue =>
    simp only [hpc] at h h4
    have hnc : ¬ in_critical (st.workers i).pc := by simp [in_critical, hpc]
    simp only [Option.some.injEq] at h; subst h
    exact inv_update_local cfg _ _ _ _ _ i _ hinv ⟨h1, h2, h3, h4⟩ hnc
  | done =>
    simp only [hpc] at h
    exact Option.noConfusion h
  | lock =>
    simp only [hpc] at h h4
    split at h <;> rename_i hm
    · simp only [Option.some.injEq] at h; subst h
      simp only [MineInv, set_worker]
      refine inv_update cfg _ _ _ _ _ _ _ _ _ i _ hinv ?_ id ?_ ?_ ?_
      · exact ⟨h1, h2, h3, h4, rfl⟩
      · intro j _ hj; rw [hm] at hj; exact Option.noConfusion hj
      · intro j hj
        simp only [Option.some.injEq] at hj
        exact Or.inl ⟨hj.symm, hi, Or.inl rfl⟩
      · intro hf
        rcases hinv.2.2 hf with hr | ⟨j, hj, _⟩
        · exact Or.inl hr
        · rw [hm] at hj; exact Option.noConfusion hj
    · exact Option.noConfusion h
  | check_found =>
    simp only [hpc] at h h4
    have hMi : ∀ j, st.result_mutex = some j →
        (j = i ∧ i < cfg.num_threads ∧ in_critical Pc.set_found) ∨ (j ≠ i ∧ st.result_mutex = some j) := by
      intro j hj
      rw [h4.2] at hj
      simp only [Option.some.injEq] at hj
      exact Or.inl ⟨hj.symm, hi, Or.inr (Or.inl rfl)⟩
    split at h <;> rename_i hc
    · simp only [Option.some.injEq] at h; subst h
      simp only [MineInv, set_worker]
      refine inv_update cfg _ _ _ _ _ _ _ _ _ i _ hinv ?_ id ?_ ?_ ?_
      · exact ⟨h1, h2, h3, h4.1, h4.2, hc⟩
      · intro j _ hj; exact ⟨hj, rfl, rfl⟩
      · exact hMi
      · intro hf; rw [hc] at hf; exact Bool.noConfusion hf
    · simp only [Option.some.injEq] at h; subst h
      have hf : st.found_solution = true := by simpa using hc
      simp only [MineInv, set_worker]
      refine inv_update cfg _ _ _ _ _ _ _ _ _ i _ hinv ?_ id ?_ ?_ ?_
      · exact ⟨h1, h2, h3, h4.2, hf⟩
      · intro j _ hj; exact ⟨hj, rfl, rfl⟩
      · intro j hj
        rw [h4.2] at hj
        simp only [Option.some.injEq] at hj
        exact Or.inl ⟨hj.symm, hi, Or.inr (Or.inr (Or.inr (Or.inr rfl)))⟩
      · intro _
        rcases hinv.2.2 hf with hr | ⟨j, hj, hp⟩
        · exact Or.inl hr
        · rw [h4.2] at hj
          simp only [Option.some.injEq] at hj
          subst hj
          rw [hpc] at hp
          rcases hp with hp | hp <;> exact Pc.noConfusion hp
  | set_found =>
    simp only [hpc] at h h4
    simp only [Option.some.injEq] at h; subst h
    simp only [MineInv, set_worker]
    refine inv_update cfg _ _ _ _ _ _ _ _ _ i _ hinv ?_ (fun _ => rfl) ?_ ?_ ?_
    · exact ⟨h1, h2, h3, h4.1, h4.2.1, rfl⟩
    · intro j hne hj
      rw [h4.2.1] at hj
      simp only [Option.some.injEq] at hj
      exact absurd hj.symm hne
    · intro j hj
      rw [h4.2.1] at hj
      simp only [Option.some.injEq] at hj
      exact Or.inl ⟨hj.symm, hi, Or.inr (Or.inr (Or.inl rfl))⟩
    · intro _
      exact Or.inr (Or.inl ⟨h4.2.1, Or.inl rfl⟩)
  | set_nonce =>
    simp only [hpc] at h h4
    simp only [Option.some.injEq] at h; subst h
    simp only [MineInv, set_worker]
    refine inv_update cfg _ _ _ _ _ _ _ _ _ i _ hinv ?_ id ?_ ?_ ?_
    · exact ⟨h1, h2, h3, h4.1, h4.2.1, h4.2.2, rfl⟩
    · intro j hne hj
      rw [h4.2.1] at hj
      simp only [Option.some.injEq] at hj
      exact absurd hj.symm hne
    · intro j hj
      rw [h4.2.1] at hj
      simp only [Option.some.injEq] at hj
      exact Or.inl ⟨hj.symm, hi, Or.inr (Or.inr (Or.inr (Or.inl rfl)))⟩
    · intro _
      exact Or.inr (Or.inl ⟨h4.2.1, Or.inr rfl⟩)
  | set_hash =>
    simp only [hpc] at h h4
    simp only [Option.some.injEq] at h; subst h
    simp only [MineInv, set_worker]
    refine inv_update cfg _ _ _ _ _ _ _ _ _ i _ hinv ?_ id ?_ ?_ ?_
    · exact ⟨h1, h2, h3, h4.2.1, h4.2.2.1⟩
    · intro j hne hj
      rw [h4.2.1] at hj
      simp only [Option.some.injEq] at hj
      exact absurd hj.symm hne
    · intro j hj
      rw [h4.2.1] at hj
      simp only [Option.some.injEq] at hj
      exact Or.inl ⟨hj.symm, hi, Or.inr (Or.inr (Or.inr (Or.inr rfl)))⟩
    · intro _
      refine Or.inl ?_
      obtain ⟨hw1, hw2, hw3⟩ := h4.1
      have hr := hrange i hi
      rw [h4.2.2.2]
      exact ⟨by omega, by omega, hw2, hw3⟩
  | unlock =>
    simp only [hpc] at h h4
    simp only [Option.some.injEq] at h; subst h
    simp only [MineInv, set_worker]
    refine inv_update cfg _ _ _ _ _ _ _ _ _ i _ hinv ?_ id ?_ ?_ ?_
    · exact ⟨h1, h2, h3, Or.inl h4.2⟩
    · intro j hne hj
      rw [h4.1] at hj
      simp only [Option.some.injEq] at hj
      exact absurd hj.symm hne
    · intro j hj; exact Option.noConfusion hj
    · intro hf
      rcases hinv.2.2 hf with hr | ⟨j, hj, hp⟩
      · exact Or.inl hr
      · rw [h4.1] at hj
        simp only [Option.some.injEq] at hj
        subst hj
        rw [hpc] at hp
        rcases hp with hp | hp <;> exact Pc.noConfusion hp

theorem mine_init_inv (cfg : MineConfig) : MineInv cfg (mine_init cfg) := by
  refine ⟨?_, ?_, ?_⟩
  · intro j _
    exact ⟨rfl, le_refl _, fun n h1 h2 => absurd h2 (not_lt.mpr h1), trivial⟩
  · intro j hj; exact Option.noConfusion hj
  · intro hf; exact Bool.noConfusion hf

theorem run_schedule_inv (cfg : MineConfig)
    (hrange : ∀ i, i < cfg.num_threads → 0 ≤ start_nonce cfg i ∧ end_nonce cfg i ≤ cfg.max_nonce) :
    ∀ (sched : List Nat) (st st' : MineState), MineInv cfg st →
      run_schedule cfg sched st = some st' → MineInv cfg st' := by
  intro sched
  induction sched with
  | nil =>
    intro st st' hinv h
    simp only [run_schedule, Option.some.injEq] at h
    subst h; exact hinv
  | cons i rest ih =>
    intro st st' hinv h
    simp only [run_schedule] at h
    cases hs : worker_step cfg i st with
    | none => rw [hs] at h; exact Option.noConfusion h
    | some st1 =>
      rw [hs] at h
      exact ih st1 st' (worker_step_inv cfg hrange i st st1 hinv hs) h

/-- A worker that has not ended and does not wait for the mutex can take a step. -/
theorem worker_step_enabled (cfg : MineConfig) (i : Nat) (st : MineState)
    (hi : i < cfg.num_threads) (hd : (st.workers i).pc ≠ Pc.done)
    (hl : (st.workers i).pc = Pc.lock → st.result_mutex = none) :
    (worker_step cfg i st).isSome = true := by
  unfold worker_step
  simp only [hi, if_true]
  cases hpc : (st.workers i).pc with
  | done => exact absurd hpc hd
  | lock => simp only [hl hpc]; rfl
  | loop_test => simp only []; split <;> rfl
  | loop_body => simp only []; split <;> rfl
  | check_found => simp only []; split <;> rfl
  | flush => simp only []; split <;> rfl
  | set_found => rfl
  | set_nonce => rfl
  | set_hash => rfl
  | unlock => rfl
  | epilogue => rfl

/-- No deadlock: while a thread has not ended, some worker can take a step. -/
theorem mine_progress (cfg : MineConfig) (st : MineState) (hinv : MineInv cfg st)
    (h : ¬ all_done cfg st) : ∃ i, (worker_step cfg i st).isSome = true := by
  unfold all_done at h
  push_neg at h
  obtain ⟨i, hi, hd⟩ := h
  cases hm : st.result_mutex with
  | none => exact ⟨i, worker_step_enabled cfg i st hi hd (fun _ => hm)⟩
  | some j =>
    obtain ⟨hj, hc⟩ := hinv.2.1 j hm
    refine ⟨j, worker_step_enabled cfg j st hj ?_ ?_⟩
    · intro e
      rw [e] at hc
      rcases hc with hc | hc | hc | hc | hc <;> exact Pc.noConfusion hc
    · intro e
      rw [e] at hc
      rcases hc with hc | hc | hc | hc | hc <;> exact Pc.noConfusion hc

/-- When every thread has ended and some nonce of the range meets the target, the result
variables hold a nonce of the range, its hash, and the hash meets the target. -/
theorem mine_final (cfg : MineConfig) (hN : 1 ≤ cfg.num_threads)
    (hmax : cfg.max_nonce < 2147483648) (st : MineState) (hinv : MineInv cfg st)
    (hdone : all_done cfg st)
    (hsol : ∃ n : Int, 0 ≤ n ∧ n < cfg.max_nonce ∧ meets_target cfg (nonce_hash cfg n) = true) :
    st.found_solution = true ∧ ResultOK cfg st.result_nonce st.result_hash := by
  obtain ⟨n, hn0, hn1, hn2⟩ := hsol
  obtain ⟨i, hi, hs, he⟩ := worker_range_cover cfg hN hmax n hn0 hn1
  obtain ⟨h1, h2, h3, h4⟩ := hinv.1 i hi
  unfold PcInv at h4
  simp only [hdone i hi] at h4
  have hf : st.found_solution = true := by
    rcases h4 with h4 | h4
    · exact h4
    · exact absurd hn2 (h3 n hs (by rw [← h1] at he; omega))
  refine ⟨hf, ?_⟩
  rcases hinv.2.2 hf with hr | ⟨j, hj, hp⟩
  · exact hr
  · have hjd := hdone j (hinv.2.1 j hj).1
    rw [hjd] at hp
    rcases hp with hp | hp <;> exact Pc.noConfusion hp

/-- C6: when some nonce of `[0, max_nonce)` has a hash that starts with `difficulty`
characters 0, then along every interleaving of the workers (every schedule that can be
run from the initial state): the number of steps is bounded, so the threads end; while a
thread has not ended some worker can take a step, so the threads do not block; and when
all have ended `mine_block` returns a nonce of `[0, max_nonce)` with its hash, which starts
with `difficulty` characters 0. `max_nonce` is an `int`, hence below 2^31. -/
theorem mine_block_finds_solution (cfg : MineConfig) (hN : 1 ≤ cfg.num_threads)
    (hmax : cfg.max_nonce < 2147483648)
    (hsol : ∃ n : Int, 0 ≤ n ∧ n < cfg.max_nonce
      ∧ (cfg.sha256 (cfg.block_string_base ++ to_string n)).take cfg.difficulty
          = List.replicate cfg.difficulty '0')
    (sched : List Nat) (st : MineState)
    (hrun : run_schedule cfg sched (mine_init cfg) = some st) :
    sched.length ≤ mine_rank cfg (mine_init cfg)
      ∧ (¬ all_done cfg st → ∃ i, (worker_step cfg i st).isSome = true)
      ∧ (all_done cfg st →
          0 ≤ (mine_result st).1 ∧ (mine_result st).1 < cfg.max_nonce
            ∧ (mine_result st).2.1
                = cfg.sha256 (cfg.block_string_base ++ to_string (mine_result st).1)
            ∧ (mine_result st).2.1.take cfg.difficulty
                = List.replicate cfg.difficulty '0') := by
  have h0 : 0 ≤ cfg.max_nonce := by
    obtain ⟨n, hn0, hn1, _⟩ := hsol
    omega
  have hrange := worker_range_within cfg h0 hmax
  have hinv := run_schedule_inv cfg hrange sched _ st (mine_init_inv cfg) hrun
  have hlen := run_schedule_length cfg sched _ st hrun
  refine ⟨by omega, mine_progress cfg st hinv, ?_⟩
  intro hdone
  have hsol' : ∃ n : Int, 0 ≤ n ∧ n < cfg.max_nonce
      ∧ meets_target cfg (nonce_hash cfg n) = true := by
    obtain ⟨n, hn0, hn1, hn2⟩ := hsol
    refine ⟨n, hn0, hn1, ?_⟩
    simp only [meets_target, nonce_hash, hn2, beq_self_eq_true]
  obtain ⟨hf, hr0, hr1, hr2, hr3⟩ := mine_final cfg hN hmax st hinv hdone hsol'
  simp only [mine_result, hf, if_true]
  refine ⟨hr0, hr1, hr2, ?_⟩
  rw [hr2]
  simpa [accepts, meets_target, nonce_hash] using hr3

theorem mine_sample_final_run :
    run_schedule mine_sample mine_sample_schedule (mine_init mine_sample)
      = some mine_sample_final := rfl

theorem mine_sample_final_done : all_done mine_sample mine_sample_final := by
  intro i hi
  have : i = 0 ∨ i = 1 ∨ i = 2 := by
    have : i < 3 := hi
    omega
  rcases this with h | h | h <;> subst h <;> rfl

theorem mine_block_finds_solution_witness :
    (1 ≤ mine_sample.num_threads ∧ mine_sample.max_nonce < 2147483648
      ∧ all_done mine_sample mine_sample_final
      ∧ mine_result mine_sample_final = (10, "01x".toList, 3))
    ∧ (mine_sample_schedule.length ≤ mine_rank mine_sample (mine_init mine_sample)
      ∧ (¬ all_done mine_sample mine_sample_final →
          ∃ i, (worker_step mine_sample i mine_sample_final).isSome = true)
      ∧ (all_done mine_sample mine_sample_final →
          0 ≤ (mine_result mine_sample_final).1
            ∧ (mine_result mine_sample_final).1 < mine_sample.max_nonce
            ∧ (mine_result mine_sample_final).2.1
                = mine_sample.sha256 (mine_sample.block_string_base
                    ++ to_string (mine_result mine_sample_final).1)
            ∧ (mine_result mine_sample_final).2.1.take mine_sample.difficulty
                = List.replicate mine_sample.difficulty '0')) :=
  ⟨⟨by decide, by decide, mine_sample_final_done, by decide⟩,
    mine_block_finds_solution mine_sample (by decide) (by decide)
      ⟨10, by decide, by decide, by decide⟩ mine_sample_schedule mine_sample_final
      mine_sample_final_run⟩

/-! ## Proof-of-work search: exhausted search and the ranges of the workers -/

/-- C18 as stated fails for a negative `max_nonce`: the division and the products that give
the ranges are done on `unsigned int`, so with `max_nonce = -1` and two workers the first
worker scans from nonce 0 on, although `[0, max_nonce)` is empty; with difficulty 0 it
accepts the nonce 0, and `mine_block` returns that nonce, not -1. -/
theorem mine_block_negative_max_nonce :
    (∀ n : Int, 0 ≤ n → n < mine_negative.max_nonce →
        (mine_negative.sha256 (mine_negative.block_string_base ++ to_string n)).take
          mine_negative.difficulty ≠ List.replicate mine_negative.difficulty '0')
      ∧ start_nonce mine_negative 0 = 0 ∧ end_nonce mine_negative 0 = 2147483647
      ∧ run_schedule mine_negative mine_negative_schedule (mine_init mine_negative)
          = some mine_negative_final
      ∧ all_done mine_negative mine_negative_final
      ∧ mine_result mine_negative_final = (0, "0x".toList, 1) := by
  refine ⟨?_, by decide, by decide, rfl, ?_, by decide⟩
  · intro n h0 h1
    have : mine_negative.max_nonce = -1 := rfl
    omega
  · intro i hi
    have : i = 0 ∨ i = 1 := by
      have : i < 2 := hi
      omega
    rcases this with h | h <;> subst h <;> rfl

/-- C18, amended: for `0 ≤ max_nonce`, when no nonce of `[0, max_nonce)` has a hash that
starts with `difficulty` characters 0, then along every interleaving of the workers the
number of steps is bounded, some worker can take a step while a thread has not ended, and
when all have ended `mine_block` returns the nonce -1 and the empty hash. `max_nonce` is an
`int`, hence below 2^31. -/
theorem mine_block_no_solution (cfg : MineConfig)
    (h0 : 0 ≤ cfg.max_nonce) (hmax : cfg.max_nonce < 2147483648)
    (hnone : ∀ n : Int, 0 ≤ n → n < cfg.max_nonce →
      (cfg.sha256 (cfg.block_string_base ++ to_string n)).take cfg.difficulty
        ≠ List.replicate cfg.difficulty '0')
    (sched : List Nat) (st : MineState)
    (hrun : run_schedule cfg sched (mine_init cfg) = some st) :
    sched.length ≤ mine_rank cfg (mine_init cfg)
      ∧ (¬ all_done cfg st → ∃ i, (worker_step cfg i st).isSome = true)
      ∧ (all_done cfg st → (mine_result st).1 = -1 ∧ (mine_result st).2.1 = []) := by
  have hrange := worker_range_within cfg h0 hmax
  have hinv := run_schedule_inv cfg hrange sched _ st (mine_init_inv cfg) hrun
  have hlen := run_schedule_length cfg sched _ st hrun
  refine ⟨by omega, mine_progress cfg st hinv, ?_⟩
  intro hdone
  have hf : st.found_solution = false := by
    cases hfs : st.found_solution with
    | false => rfl
    | true =>
      exfalso
      rcases hinv.2.2 hfs with ⟨hr0, hr1, _, hr3⟩ | ⟨j, hj, hp⟩
      · apply hnone st.result_nonce hr0 hr1
        simpa [accepts, meets_target, nonce_hash] using hr3
      · have hjd := hdone j (hinv.2.1 j hj).1
        rw [hjd] at hp
        rcases hp with hp | hp <;> exact Pc.noConfusion hp
  simp [mine_result, hf]

theorem mine_none_final_done : all_done mine_none mine_none_final := by
  intro i hi
  have : i = 0 ∨ i = 1 ∨ i = 2 := by
    have : i < 3 := hi
    omega
  rcases this with h | h | h <;> subst h <;> rfl

theorem mine_none_no_solution : ∀ n : Int, 0 ≤ n → n < mine_none.max_nonce →
    (mine_none.sha256 (mine_none.block_string_base ++ to_string n)).take mine_none.difficulty
      ≠ List.replicate mine_none.difficulty '0' := by
  intro n h0 h1
  have h2 : n < 12 := h1
  interval_cases n <;> decide

theorem mine_block_no_solution_witness :
    (0 ≤ mine_none.max_nonce ∧ mine_none.max_nonce < 2147483648
      ∧ all_done mine_none mine_none_final)
    ∧ (mine_none_schedule.length ≤ mine_rank mine_none (mine_init mine_none)
      ∧ (¬ all_done mine_none mine_none_final →
          ∃ i, (worker_step mine_none i mine_none_final).isSome = true)
      ∧ (all_done mine_none mine_none_final →
          (mine_result mine_none_final).1 = -1 ∧ (mine_result mine_none_final).2.1 = [])) :=
  ⟨⟨by decide, by decide, mine_none_final_done⟩,
    mine_block_no_solution mine_none (by decide) (by decide)
      mine_none_no_solution mine_none_schedule mine_none_final rfl⟩

/-- C19: for `0 ≤ max_nonce` and at least one worker, the ranges of the workers are
`[i * chunk, (i + 1) * chunk)` with `chunk = max_nonce / num_threads`, the last one ending
at `max_nonce`; they start at 0, each ends where the next starts, so they are contiguous and
disjoint; every nonce of `[0, max_nonce)` is in the range of exactly one worker, and no
range has a nonce outside `[0, max_nonce)`. `max_nonce` is an `int`, hence below 2^31. -/
theorem worker_ranges_partition (cfg : MineConfig) (hN : 1 ≤ cfg.num_threads)
    (h0 : 0 ≤ cfg.max_nonce) (hmax : cfg.max_nonce < 2147483648) :
    (∀ i, i < cfg.num_threads →
        start_nonce cfg i = (i : Int) * (cfg.max_nonce / (cfg.num_threads : Int))
        ∧ end_nonce cfg i = if i = cfg.num_threads - 1 then cfg.max_nonce
            else ((i : Int) + 1) * (cfg.max_nonce / (cfg.num_threads : Int)))
      ∧ start_nonce cfg 0 = 0
      ∧ end_nonce cfg (cfg.num_threads - 1) = cfg.max_nonce
      ∧ (∀ i, i + 1 < cfg.num_threads → end_nonce cfg i = start_nonce cfg (i + 1))
      ∧ (∀ i, i < cfg.num_threads → start_nonce cfg i ≤ end_nonce cfg i)
      ∧ (∀ i j, i < j → j < cfg.num_threads → end_nonce cfg i ≤ start_nonce cfg j)
      ∧ (∀ n : Int, 0 ≤ n → n < cfg.max_nonce →
          ∃ i, i < cfg.num_threads ∧ start_nonce cfg i ≤ n ∧ n < end_nonce cfg i
            ∧ ∀ j, j < cfg.num_threads → start_nonce cfg j ≤ n → n < end_nonce cfg j → j = i)
      ∧ (∀ (i : Nat) (n : Int), i < cfg.num_threads → start_nonce cfg i ≤ n →
          n < end_nonce cfg i → 0 ≤ n ∧ n < cfg.max_nonce) := by
  obtain ⟨m, hm⟩ := Int.eq_ofNat_of_zero_le h0
  have hm' : m < 2147483648 := by omega
  have hstart := start_nonce_eq cfg m hm hm'
  have hend := end_nonce_eq cfg m hm hm'
  have hwithin := worker_range_within cfg h0 hmax
  have hle : ∀ i, i < cfg.num_threads → start_nonce cfg i ≤ end_nonce cfg i := by
    intro i hi
    rw [hstart i hi, hend i hi]
    by_cases hl : i = cfg.num_threads - 1
    · rw [if_pos hl]
      exact Int.ofNat_le.mpr (mul_chunk_le m cfg.num_threads i (by omega))
    · rw [if_neg hl]
      exact Int.ofNat_le.mpr (Nat.mul_le_mul_right _ (by omega))
  have hdis : ∀ i j, i < j → j < cfg.num_threads →
      end_nonce cfg i ≤ start_nonce cfg j := by
    intro i j hij hj
    rw [hstart j hj, hend i (by omega), if_neg (by omega)]
    exact Int.ofNat_le.mpr (Nat.mul_le_mul_right _ (by omega))
  refine ⟨?_, ?_, ?_, ?_, hle, hdis, ?_, ?_⟩
  · intro i hi
    have hdiv : ((m / cfg.num_threads : Nat) : Int)
        = cfg.max_nonce / (cfg.num_threads : Int) := by
      rw [hm]; exact Int.natCast_div m cfg.num_threads
    rw [hstart i hi, hend i hi, ← hdiv, hm]
    refine ⟨by push_cast; rfl, ?_⟩
    by_cases hl : i = cfg.num_threads - 1
    · rw [if_pos hl, if_pos hl]
    · rw [if_neg hl, if_neg hl]; push_cast; rfl
  · rw [hstart 0 (by omega)]; simp
  · rw [hend _ (by omega), if_pos rfl, hm]
  · intro i hi
    rw [hend i (by omega), if_neg (by omega), hstart (i + 1) hi]
  · intro n hn0 hn1
    obtain ⟨i, hi, hs, he⟩ := worker_range_cover cfg hN hmax n hn0 hn1
    refine ⟨i, hi, hs, he, ?_⟩
    intro j hj hjs hje
    by_contra hne
    rcases Nat.lt_or_gt_of_ne hne with hlt | hgt
    · have := hdis j i hlt hi
      omega
    · have := hdis i j hgt hj
      omega
  · intro i n hi hs he
    have := hwithin i hi
    omega

theorem worker_ranges_partition_witness :
    (1 ≤ mine_sample.num_threads ∧ 0 ≤ mine_sample.max_nonce
      ∧ mine_sample.max_nonce < 2147483648)
    ∧ start_nonce mine_sample 0 = 0
    ∧ end_nonce mine_sample (mine_sample.num_threads - 1) = mine_sample.max_nonce
    ∧ (∀ i, i + 1 < mine_sample.num_threads →
        end_nonce mine_sample i = start_nonce mine_sample (i + 1)) :=
  ⟨⟨by decide, by decide, by decide⟩,
    (worker_ranges_partition mine_sample (by decide) (by decide) (by decide)).2.1,
    (worker_ranges_partition mine_sample (by decide) (by decide) (by decide)).2.2.1,
    (worker_ranges_partition mine_sample (by decide) (by decide) (by decide)).2.2.2.1⟩


end Spec2Proof
